import Mathlib

/-!
Verification of the YFS storage engine (the index-block engine of
`github.com/sammwyy/yfs`) against its natural-language specification.

The Go source is shallowly embedded: Go structs become Lean structures,
Go maps become association lists (Go map iteration order is not observable
in any property proved here), Go pointers into the namespace tree become
component-path based functional updates, `time.Now().Unix()` becomes an
explicit `now : Int` parameter, and the three sidecar files become fields
of a `YFSState` record (host-filesystem I/O is assumed to succeed; the
byte content of `blocks.glob` is modeled as a map from block ID to the
logical content written there, either a framed data payload or a
serialized `IndexBlock` record).  Functions that in Go mutate state
in place and may also return an error are modeled as functions returning
an `Except Err α × YFSState` pair, so that mutations performed before an
error are preserved, exactly as for the in-memory Go state.

Machine integers are modeled as `Nat`/`Int`; `% 2 ^ 32` is written out at
the places where the Go code truncates (`uint32(totalBlocks)`) or can
wrap (`extent.StartBlockId + extent.BlockCount`).

Unbounded Go loops over index-block chains (which the Go code either
bounds by a visited set over `uint32` IDs, or does not bound at all and
can diverge on a corrupted cyclic chain) are modeled with an explicit
fuel of `2 ^ 32`; fuel exhaustion is a distinguished model error standing
for divergence and is unreachable for the states appearing in the
theorems below.
-/

namespace YFS

/-! ## Byte-level utilities: UTF-8 and CRC-32/IEEE -/

/-- UTF-8 encoding of a single code point, as byte values. -/
def utf8Char (c : Nat) : List Nat :=
  if c < 0x80 then [c]
  else if c < 0x800 then [0xC0 + c / 64, 0x80 + c % 64]
  else if c < 0x10000 then [0xE0 + c / 4096, 0x80 + c / 64 % 64, 0x80 + c % 64]
  else [0xF0 + c / 262144, 0x80 + c / 4096 % 64, 0x80 + c / 64 % 64, 0x80 + c % 64]

/-- The bytes of a string, UTF-8 encoded (Go strings are UTF-8 byte sequences). -/
def strBytes (s : String) : List Nat :=
  s.data.foldr (fun ch acc => utf8Char ch.toNat ++ acc) []

/-- The reflected CRC-32/IEEE polynomial used by Go's `hash/crc32` IEEE table. -/
def crcPoly : Nat := 0xEDB88320

/-- One bit step of the reflected CRC-32 computation. -/
def crcRound (c : Nat) : Nat :=
  if c % 2 = 1 then (c / 2) ^^^ crcPoly else c / 2

/-- Absorb one byte into the CRC state (eight bit steps). -/
def crcByte (c : Nat) (b : Nat) : Nat :=
  Nat.repeat crcRound 8 (c ^^^ b % 256)

/-- `crc32.ChecksumIEEE` over a byte list: init `0xFFFFFFFF`, final xor. -/
def crc32Bytes (bs : List Nat) : Nat :=
  bs.foldl crcByte 0xFFFFFFFF ^^^ 0xFFFFFFFF

/-- `crc32.ChecksumIEEE([]byte(s))`. -/
def crc32Str (s : String) : Nat :=
  crc32Bytes (strBytes s)

/-! ## Path utilities: Go `strings.Trim(p, "/")`, `strings.Split(p, "/")`,
`strings.Join(parts, "/")`, written over `List Char` with structural
recursion so that all path computations evaluate inside the kernel. -/

/-- Go `strings.Trim(p, "/")`: drop leading and trailing `/` characters. -/
def trimSlashes (p : String) : String :=
  String.mk (((p.data.dropWhile (fun c => c = '/')).reverse.dropWhile
    (fun c => c = '/')).reverse)

/-- Helper for `splitOnSlash`: split a character list at `/`, with the
characters of the current piece accumulated in reverse. -/
def splitSlashChars : List Char → List Char → List String
  | [], acc => [String.mk acc.reverse]
  | c :: rest, acc =>
    if c = '/' then String.mk acc.reverse :: splitSlashChars rest []
    else splitSlashChars rest (c :: acc)

/-- Go `strings.Split(s, "/")` (keeps empty pieces; `"" ↦ [""]`). -/
def splitOnSlash (s : String) : List String :=
  splitSlashChars s.data []

/-- Go `strings.Join(parts, "/")`. -/
def joinSlash : List String → String
  | [] => ""
  | [x] => x
  | x :: rest => x ++ "/" ++ joinSlash rest

/-! ## Data model (from `yfs.proto` and `yfs.go`) -/

/-- `FileMetadata` message: common metadata for files and directories. -/
structure FileMetadata where
  name : String
  modTime : Int
  createTime : Int
  permissions : Nat
  crc32 : Nat
deriving Repr, DecidableEq

/-- `FileEntry` message: a regular file. -/
structure FileEntry where
  metadata : FileMetadata
  firstIndexBlockId : Nat
  size : Int
  indexBlockCount : Nat
  dataBlockCount : Nat
deriving Repr, DecidableEq

/-- `Extent` message: a contiguous run of blocks. -/
structure Extent where
  startBlockId : Nat
  blockCount : Nat
deriving Repr, DecidableEq

/-- `IndexBlock` message: the record stored inside a block that names the
data blocks of (part of) a file, with a next pointer. -/
structure IndexBlock where
  blockIds : List Nat
  extents : List Extent
  nextIndexBlockId : Nat
  dataSize : Nat
  crc32 : Nat
deriving Repr, DecidableEq

mutual

/-- `DirectoryEntry` message: metadata plus the two name-keyed maps.  Go's
`map[string]*X` values are modeled as association lists; `DirList` is the
directories map, made a mutual inductive so that all recursion over the
tree is structural. -/
inductive DirectoryEntry where
  | mk (metadata : FileMetadata) (files : List (String × FileEntry))
       (directories : DirList)

/-- Association list of named subdirectories (the `directories` map). -/
inductive DirList where
  | nil
  | cons (name : String) (dir : DirectoryEntry) (rest : DirList)

end

/-- Directory metadata projection. -/
def DirectoryEntry.metadata : DirectoryEntry → FileMetadata
  | .mk m _ _ => m

/-- Directory files-map projection. -/
def DirectoryEntry.files : DirectoryEntry → List (String × FileEntry)
  | .mk _ fs _ => fs

/-- Directory directories-map projection. -/
def DirectoryEntry.directories : DirectoryEntry → DirList
  | .mk _ _ ds => ds

/-- Replace the files map of a directory. -/
def DirectoryEntry.withFiles : DirectoryEntry → List (String × FileEntry) → DirectoryEntry
  | .mk m _ ds, fs => .mk m fs ds

/-- Replace the directories map of a directory. -/
def DirectoryEntry.withDirs : DirectoryEntry → DirList → DirectoryEntry
  | .mk m fs _, ds => .mk m fs ds

/-- Replace the metadata of a directory. -/
def DirectoryEntry.withMetadata : DirectoryEntry → FileMetadata → DirectoryEntry
  | .mk _ fs ds, m => .mk m fs ds

/-- Go map read `dirs[name]` on the directories map. -/
def dirLookup : DirList → String → Option DirectoryEntry
  | .nil, _ => none
  | .cons n d rest, name => if n = name then some d else dirLookup rest name

/-- Go map write `dirs[name] = d` (replace in place or append). -/
def dirInsert : DirList → String → DirectoryEntry → DirList
  | .nil, name, d => .cons name d .nil
  | .cons n d0 rest, name, d =>
    if n = name then .cons n d rest else .cons n d0 (dirInsert rest name d)

/-- Go `delete(dirs, name)`. -/
def dirErase : DirList → String → DirList
  | .nil, _ => .nil
  | .cons n d rest, name =>
    if n = name then dirErase rest name else .cons n d (dirErase rest name)

/-- Go `len(dirs)`. -/
def dirLength : DirList → Nat
  | .nil => 0
  | .cons _ _ rest => dirLength rest + 1

/-- Go map read `files[name]`. -/
def lookupF : List (String × FileEntry) → String → Option FileEntry
  | [], _ => none
  | (n, f) :: rest, name => if n = name then some f else lookupF rest name

/-- Go map write `files[name] = f`. -/
def insertF : List (String × FileEntry) → String → FileEntry → List (String × FileEntry)
  | [], name, f => [(name, f)]
  | (n, f0) :: rest, name, f =>
    if n = name then (n, f) :: rest else (n, f0) :: insertF rest name f

/-- Go `delete(files, name)`. -/
def eraseF : List (String × FileEntry) → String → List (String × FileEntry)
  | [], _ => []
  | (n, f) :: rest, name =>
    if n = name then eraseF rest name else (n, f) :: eraseF rest name

/-- `BlockBitmap`: free/used bitmap bytes plus the capacity and search hint. -/
structure Bitmap where
  data : List Nat
  totalBlocks : Nat
  searchPos : Nat
  dirty : Bool
deriving Repr, DecidableEq

/-- Logical content of one block of `blocks.glob`: either a framed data
payload (the four length bytes are implicit in the model) or a serialized
`IndexBlock` record. -/
inductive BlockContent where
  | data (payload : List Nat)
  | index (ib : IndexBlock)
deriving Repr, DecidableEq

/-- The whole in-memory engine state together with the logical content of
the three sidecar files. -/
structure YFSState where
  version : Nat
  blockSize : Nat
  checksumEnabled : Bool
  root : DirectoryEntry
  bitmap : Bitmap
  blocks : List (Nat × BlockContent)

/-- Model errors, one constructor per distinct `fmt.Errorf` site (plus
distinguished constructors for Go panics and for model fuel exhaustion,
which stands for divergence of an unbounded Go loop). -/
inductive Err where
  | dirNotFound (path : String)
  | pathIsDirectory (path : String)
  | fileNotFound (path : String)
  | pathNotDirectory (path : String)
  | directoryNotEmpty (path : String)
  | directoryAlreadyExists (path : String)
  | cannotDeleteRoot
  | invalidBlockId (id : Nat)
  | noFreeBlocks
  | couldNotAllocate (n : Nat)
  | dataExceedsBlockSize (len : Nat) (blockSize : Nat)
  | invalidDataLength (len : Nat) (blockSize : Nat)
  | ioReadFailed (id : Nat)
  | unmarshalIndexFailed (id : Nat)
  | indexChecksumMismatch
  | metadataMismatch (path : String)
  | rootMetadataMismatch
  | dirMetadataMismatch (name : String)
  | fileMetadataMismatch (name : String)
  | circularReference
  | invalidDataBlockId (id : Nat) (inIndex : Nat)
  | invalidExtent (inIndex : Nat) (start : Nat) (count : Nat)
  | failedReadIndexBlock (id : Nat) (inner : Err)
  | fileIndexVerifyFailed (name : String) (inner : Err)
  | panicDivZero
  | panicNilMap
  | outOfFuel
deriving Repr, DecidableEq

/-- Whether an `Except` result is a success, as a `Bool`. -/
def exceptOk {α : Type} : Except Err α → Bool
  | .ok _ => true
  | .error _ => false

end YFS

namespace YFS

/-! ## Checksums (`updateMetadataChecksum`, `verifyMetadataChecksum`,
and the index-block CRC string from `writeIndexBlock`/`readIndexBlock`) -/

/-- Go `fmt.Sprintf("%s%d%d%d", name, modTime, createTime, permissions)`. -/
def metadataChecksumStr (m : FileMetadata) : String :=
  m.name ++ toString m.modTime ++ toString m.createTime ++ toString m.permissions

/-- The CRC-32 the source stores in `FileMetadata.Crc32`. -/
def metadataChecksum (m : FileMetadata) : Nat :=
  crc32Str (metadataChecksumStr m)

/-- `updateMetadataChecksum`: set the CRC field when checksums are enabled. -/
def updateMetadataChecksum (checksumEnabled : Bool) (m : FileMetadata) : FileMetadata :=
  if checksumEnabled then { m with crc32 := metadataChecksum m } else m

/-- `verifyMetadataChecksum`: trivially true when checksums are disabled. -/
def verifyMetadataChecksum (checksumEnabled : Bool) (m : FileMetadata) : Bool :=
  if checksumEnabled then m.crc32 == metadataChecksum m else true

/-- Join strings with single spaces (Go `fmt` slice element separator). -/
def joinSpace : List String → String
  | [] => ""
  | [x] => x
  | x :: rest => x ++ " " ++ joinSpace rest

/-- Go `fmt.Sprintf("%v", l)` for a `[]uint32` (`nil` renders as `[]`). -/
def goNatListStr (l : List Nat) : String :=
  "[" ++ joinSpace (l.map fun n => toString n) ++ "]"

/-- Go renders the elements of an `[]*Extent` under `%v` as pointer
addresses, so the CRC of an index block whose extents list is nonempty
depends on heap addresses and is not stable; the writer in the source
never emits extents, and no extents list in this file ever flows into a
checksum.  The model renders an extent as `&{start count}` (Go's
rendering of the pointed-to struct value). -/
def goExtentStr (e : Extent) : String :=
  "&\x7b" ++ toString e.startBlockId ++ " " ++ toString e.blockCount ++ "\x7d"

/-- Go `fmt.Sprintf("%v", extents)`. -/
def goExtentListStr (l : List Extent) : String :=
  "[" ++ joinSpace (l.map goExtentStr) ++ "]"

/-- Go `fmt.Sprintf("%v%v%d", ib.BlockIds, ib.Extents, ib.NextIndexBlockId)`:
the string whose CRC-32 is stored in `IndexBlock.Crc32`. -/
def indexBlockChecksumStr (ib : IndexBlock) : String :=
  goNatListStr ib.blockIds ++ goExtentListStr ib.extents ++ toString ib.nextIndexBlockId

/-- The CRC-32 of an index block (does not read the `crc32` field). -/
def indexBlockChecksum (ib : IndexBlock) : Nat :=
  crc32Str (indexBlockChecksumStr ib)

/-! ## Size of `proto.Marshal` of an `IndexBlock` (proto3 wire format),
needed because `writeIndexBlock` feeds the marshaled bytes through
`writeBlock`, whose length check compares against `blockSize - 4`. -/

/-- Bytes of a base-128 varint (values below `2 ^ 35`, enough for uint32). -/
def varintSize (n : Nat) : Nat :=
  if n < 128 then 1 else if n < 16384 then 2 else if n < 2097152 then 3
  else if n < 268435456 then 4 else 5

/-- Payload size of a packed repeated varint field. -/
def packedSize (l : List Nat) : Nat :=
  l.foldl (fun a n => a + varintSize n) 0

/-- Encoded size of the body of one `Extent` message (proto3 omits
zero-valued scalar fields). -/
def extentBodySize (e : Extent) : Nat :=
  (if e.startBlockId = 0 then 0 else 1 + varintSize e.startBlockId) +
  (if e.blockCount = 0 then 0 else 1 + varintSize e.blockCount)

/-- Size in bytes of `proto.Marshal` of an `IndexBlock` as emitted by the
generated Go code: packed repeated uint32 for field 1, length-delimited
`Extent` messages for field 2, varint scalars for fields 3-5; fields with
zero/empty values are omitted. -/
def indexBlockEncodedSize (ib : IndexBlock) : Nat :=
  (if ib.blockIds.isEmpty then 0
   else 1 + varintSize (packedSize ib.blockIds) + packedSize ib.blockIds) +
  ib.extents.foldl (fun a e => a + 1 + varintSize (extentBodySize e) + extentBodySize e) 0 +
  (if ib.nextIndexBlockId = 0 then 0 else 1 + varintSize ib.nextIndexBlockId) +
  (if ib.dataSize = 0 then 0 else 1 + varintSize ib.dataSize) +
  (if ib.crc32 = 0 then 0 else 1 + varintSize ib.crc32)

/-! ## Bitmap operations (`isBlockFree`, `markBlockUsed`, `markBlockFree`,
`allocateBlocks`, `allocateBlocksIndividual`, `freeBlocks`) -/

/-- `isBlockFree`: positions beyond the byte array read as used. -/
def isBlockFree (bm : Bitmap) (pos : Nat) : Bool :=
  let byteIndex := pos / 8
  let bitIndex := pos % 8
  if byteIndex ≥ bm.data.length then false
  else bm.data.getD byteIndex 0 &&& (1 <<< bitIndex) == 0

/-- The growth loop of `markBlockUsed`: while the byte index is beyond the
array, append 1024 zero bytes and add 8192 to `totalBlocks`.  Structural
fuel of `byteIndex + 1` always suffices (each step grows by 1024 bytes). -/
def growLoop : Nat → List Nat → Nat → Nat → List Nat × Nat
  | 0, d, tb, _ => (d, tb)
  | fuel + 1, d, tb, byteIndex =>
    if byteIndex ≥ d.length then
      growLoop fuel (d ++ List.replicate 1024 0) (tb + 8192) byteIndex
    else (d, tb)

/-- `markBlockUsed`: grow if necessary, then set the bit. -/
def markBlockUsed (bm : Bitmap) (pos : Nat) : Bitmap :=
  let byteIndex := pos / 8
  let bitIndex := pos % 8
  let grown := growLoop (byteIndex + 1) bm.data bm.totalBlocks byteIndex
  { bm with
    data := grown.1.set byteIndex (grown.1.getD byteIndex 0 ||| (1 <<< bitIndex)),
    totalBlocks := grown.2 }

/-- `markBlockFree`: clear the bit (Go `&^` on a uint8; the byte values
produced by the engine are below 256, for which the mask below agrees
with Go) and set `dirty`; out-of-range positions are ignored silently. -/
def markBlockFree (bm : Bitmap) (pos : Nat) : Bitmap :=
  let byteIndex := pos / 8
  let bitIndex := pos % 8
  if byteIndex < bm.data.length then
    { bm with
      data := bm.data.set byteIndex (bm.data.getD byteIndex 0 &&& (255 ^^^ (1 <<< bitIndex))),
      dirty := true }
  else bm

/-- The inner run check of `allocateBlocks`: `count` consecutive positions
starting at `pos`, all within capacity and all free. -/
def canAllocateRun (bm : Bitmap) (pos count : Nat) : Bool :=
  (List.range count).all fun j => decide (pos + j < bm.totalBlocks) && isBlockFree bm (pos + j)

/-- The cyclic scan of `allocateBlocks`: up to `totalBlocks` probes from
`searchPos`, looking for a free position from which a full run fits. -/
def scanContig (bm : Bitmap) (count startPos : Nat) : Nat → Nat → Option Nat
  | _, 0 => none
  | i, fuel + 1 =>
    let pos := (startPos + i) % bm.totalBlocks
    if isBlockFree bm pos then
      if canAllocateRun bm pos count then some pos
      else scanContig bm count startPos (i + 1) fuel
    else scanContig bm count startPos (i + 1) fuel

/-- Mark the run `pos .. pos+count-1` used. -/
def markRun (bm : Bitmap) (pos count : Nat) : Bitmap :=
  (List.range count).foldl (fun b j => markBlockUsed b (pos + j)) bm

/-- The cyclic single-position scan of `allocateBlocksIndividual`. -/
def scanOne (bm : Bitmap) (startPos : Nat) : Nat → Nat → Option Nat
  | _, 0 => none
  | i, fuel + 1 =>
    let pos := (startPos + i) % bm.totalBlocks
    if isBlockFree bm pos then some pos
    else scanOne bm startPos (i + 1) fuel

/-- The outer loop of `allocateBlocksIndividual`: exactly `count`
iterations; an iteration whose scan finds nothing appends nothing. -/
def allocIndivLoop : Nat → Bitmap → List Nat → List Nat × Bitmap
  | 0, bm, acc => (acc, bm)
  | n + 1, bm, acc =>
    match scanOne bm bm.searchPos 0 bm.totalBlocks with
    | some pos =>
      allocIndivLoop n { markBlockUsed bm pos with searchPos := pos + 1 } (acc ++ [pos + 1])
    | none => allocIndivLoop n bm acc

/-- `allocateBlocksIndividual`: fall-back scattered allocation; on a
shortfall, release what was reserved and fail. -/
def allocateBlocksIndividual (s : YFSState) (count : Nat) : Except Err (List Nat) × YFSState :=
  let res := allocIndivLoop count s.bitmap []
  if res.1.length ≠ count then
    let bm2 := res.1.foldl (fun b id => markBlockFree b (id - 1)) res.2
    (.error (.couldNotAllocate count), { s with bitmap := bm2 })
  else
    (.ok res.1, { s with bitmap := { res.2 with dirty := true } })

/-- `allocateBlocks`: contiguous-first allocation of `count` block IDs
(1-based); for `count > 1` falls back to scattered allocation, for
`count == 1` fails when the scan finds nothing. -/
def allocateBlocks (s : YFSState) (count : Nat) : Except Err (List Nat) × YFSState :=
  if count = 0 then (.ok [], s)
  else
    match scanContig s.bitmap count s.bitmap.searchPos 0 s.bitmap.totalBlocks with
    | some pos =>
      (.ok ((List.range count).map fun j => pos + j + 1),
       { s with bitmap :=
          { markRun s.bitmap pos count with searchPos := pos + count, dirty := true } })
    | none =>
      if count > 1 then allocateBlocksIndividual s count
      else (.error .noFreeBlocks, s)

/-- `freeBlocks`: clear the bit of each non-zero ID and mark dirty (the Go
function always returns a nil error, so the model returns only the state). -/
def freeBlocks (s : YFSState) (ids : List Nat) : YFSState :=
  let bm := ids.foldl (fun b id => if id ≠ 0 then markBlockFree b (id - 1) else b) s.bitmap
  { s with bitmap := { bm with dirty := true } }

/-! ## Block device (`writeBlock`, `readBlock`, `writeIndexBlock`,
`readIndexBlock`) over the logical block store -/

/-- Content of block `id` in `blocks.glob` (model: association list).  A
block position inside the file that was never written reads as zeroes in
Go; the model treats it as an I/O read failure, which no theorem below
ever reaches. -/
def storeLookup : List (Nat × BlockContent) → Nat → Option BlockContent
  | [], _ => none
  | (i, c) :: rest, id => if i = id then some c else storeLookup rest id

/-- Overwrite or append block `id`. -/
def storeInsert : List (Nat × BlockContent) → Nat → BlockContent → List (Nat × BlockContent)
  | [], id, c => [(id, c)]
  | (i, c0) :: rest, id, c =>
    if i = id then (i, c) :: rest else (i, c0) :: storeInsert rest id c

/-- `writeBlock`: reject ID 0 (negative offset) and payloads longer than
`blockSize - 4` (the first four bytes of a block store the payload
length); otherwise store the framed payload. -/
def writeBlock (s : YFSState) (blockID : Nat) (data : List Nat) : Except Err YFSState :=
  if blockID = 0 then .error (.invalidBlockId blockID)
  else if (data.length : Int) > (s.blockSize : Int) - 4 then
    .error (.dataExceedsBlockSize data.length s.blockSize)
  else .ok { s with blocks := storeInsert s.blocks blockID (.data data) }

/-- `readBlock`: return exactly the framed payload; reading a block that
holds a serialized index record as raw data would return the proto bytes
in Go and is modeled as a read failure (unreachable below). -/
def readBlock (s : YFSState) (blockID : Nat) : Except Err (List Nat) :=
  if blockID = 0 then .error (.invalidBlockId blockID)
  else
    match storeLookup s.blocks blockID with
    | none => .error (.ioReadFailed blockID)
    | some (.index _) => .error (.ioReadFailed blockID)
    | some (.data payload) =>
      if (payload.length : Int) > (s.blockSize : Int) - 4 then
        .error (.invalidDataLength payload.length s.blockSize)
      else .ok payload

/-- `writeIndexBlock`: fill in the CRC when checksums are enabled, marshal,
and write through `writeBlock` (modeled by performing `writeBlock`'s
checks against the marshaled size and storing the record). -/
def writeIndexBlock (s : YFSState) (blockID : Nat) (ib : IndexBlock) : Except Err YFSState :=
  let ibw := if s.checksumEnabled then { ib with crc32 := indexBlockChecksum ib } else ib
  if blockID = 0 then .error (.invalidBlockId blockID)
  else if (indexBlockEncodedSize ibw : Int) > (s.blockSize : Int) - 4 then
    .error (.dataExceedsBlockSize (indexBlockEncodedSize ibw) s.blockSize)
  else .ok { s with blocks := storeInsert s.blocks blockID (.index ibw) }

/-- `readIndexBlock`: read, unmarshal, and verify the CRC when checksums
are enabled and the stored CRC field is non-zero. -/
def readIndexBlock (s : YFSState) (blockID : Nat) : Except Err IndexBlock :=
  if blockID = 0 then .error (.invalidBlockId blockID)
  else
    match storeLookup s.blocks blockID with
    | none => .error (.ioReadFailed blockID)
    | some (.data _) => .error (.unmarshalIndexFailed blockID)
    | some (.index ib) =>
      if s.checksumEnabled && ib.crc32 != 0 && ib.crc32 != indexBlockChecksum ib then
        .error .indexChecksumMismatch
      else .ok ib

end YFS

namespace YFS

/-! ## Index chain manager (`writeFileToBlocks`, `createIndexBlocks`,
`readFileFromBlocks`, `freeFileBlocks`) -/

/-- Fuel bound for chain walks: the Go loops either terminate within the
number of distinct `uint32` IDs or diverge (see the header comment). -/
def chainFuel : Nat := 2 ^ 32

/-- The loop of `freeFileBlocks`: free this index block's data blocks,
its extents (expanded to constituent IDs with uint32 wrap-around), then
the index block itself, and continue at `next`. -/
def freeFileLoop : Nat → YFSState → Nat → Except Err Unit × YFSState
  | 0, s, _ => (.error .outOfFuel, s)
  | fuel + 1, s, currentID =>
    if currentID = 0 then (.ok (), s)
    else
      match readIndexBlock s currentID with
      | .error e => (.error e, s)
      | .ok ib =>
        let s1 := freeBlocks s ib.blockIds
        let s2 := ib.extents.foldl
          (fun st e =>
            freeBlocks st ((List.range e.blockCount).map fun i =>
              (e.startBlockId + i) % 4294967296)) s1
        let s3 := freeBlocks s2 [currentID]
        freeFileLoop fuel s3 ib.nextIndexBlockId

/-- `freeFileBlocks`: release every data and index block of a chain. -/
def freeFileBlocks (s : YFSState) (first : Nat) : Except Err Unit × YFSState :=
  freeFileLoop chainFuel s first

/-- The data-writing loop of `writeFileToBlocks`: the i-th allocated block
receives `data[i*blockSize : min((i+1)*blockSize, len)]`. -/
def writeDataLoop (data : List Nat) : List Nat → Nat → YFSState → Except Err Unit × YFSState
  | [], _, s => (.ok (), s)
  | id :: rest, i, s =>
    let start := i * s.blockSize
    let stop := min (start + s.blockSize) data.length
    let slice := (data.drop start).take (stop - start)
    match writeBlock s id slice with
    | .error e => (.error e, s)
    | .ok s1 => writeDataLoop data rest (i + 1) s1

/-- The chunking loop of `createIndexBlocks`: per chunk of at most 1000
data-block IDs, allocate one block and write an index record pointing at
the chunk (next pointers are patched afterwards).  Structural fuel of
`dataBlocks.length` always suffices since every step consumes at least
one ID. -/
def createIndexLoop : Nat → YFSState → List Nat → List Nat → Except Err (List Nat) × YFSState
  | 0, s, rest, created =>
    if rest.isEmpty then (.ok created, s) else (.error .outOfFuel, s)
  | fuel + 1, s, rest, created =>
    if rest.isEmpty then (.ok created, s)
    else
      match allocateBlocks s 1 with
      | (.error e, s1) => (.error e, freeBlocks s1 created)
      | (.ok ids, s1) =>
        let indexBlockID := ids.headD 0
        let created2 := created ++ [indexBlockID]
        let chunk := rest.take 1000
        let ib : IndexBlock :=
          { blockIds := chunk, extents := [], nextIndexBlockId := 0,
            dataSize := chunk.length * s.blockSize, crc32 := 0 }
        match writeIndexBlock s1 indexBlockID ib with
        | .error e => (.error e, freeBlocks s1 created2)
        | .ok s2 => createIndexLoop fuel s2 (rest.drop 1000) created2

/-- The linking loop of `createIndexBlocks`: re-read each index block but
the last, set its next pointer to its successor, and re-write it (errors
here are returned without releasing anything, as in the source). -/
def linkIndexLoop : List Nat → YFSState → Except Err Unit × YFSState
  | [], s => (.ok (), s)
  | [_], s => (.ok (), s)
  | a :: b :: rest, s =>
    match readIndexBlock s a with
    | .error e => (.error e, s)
    | .ok ib =>
      match writeIndexBlock s a { ib with nextIndexBlockId := b } with
      | .error e => (.error e, s)
      | .ok s1 => linkIndexLoop (b :: rest) s1

/-- `createIndexBlocks`: build the chain of index blocks for a list of
data-block IDs and return the head block ID. -/
def createIndexBlocks (s : YFSState) (dataBlocks : List Nat) : Except Err Nat × YFSState :=
  if dataBlocks.isEmpty then (.ok 0, s)
  else
    match createIndexLoop dataBlocks.length s dataBlocks [] with
    | (.error e, s1) => (.error e, s1)
    | (.ok idxs, s1) =>
      match linkIndexLoop idxs s1 with
      | (.error e, s2) => (.error e, s2)
      | (.ok (), s2) => (.ok (idxs.headD 0), s2)

/-- `writeFileToBlocks`: store a payload and return the new chain head.
An empty payload frees the old chain (discarding any traversal error, as
the source does) and returns the null ID.  `blocksNeeded` is
`ceil(len / blockSize)` — the Go expression divides by `blockSize`, which
for `blockSize = 0` is an integer division by zero, i.e. a Go panic. -/
def writeFileToBlocks (s : YFSState) (data : List Nat) (existing : Nat) : Except Err Nat × YFSState :=
  if data.length = 0 then
    if existing ≠ 0 then
      (.ok 0, (freeFileBlocks s existing).2)
    else (.ok 0, s)
  else if s.blockSize = 0 then (.error .panicDivZero, s)
  else
    let blocksNeeded := (data.length + s.blockSize - 1) / s.blockSize
    match allocateBlocks s blocksNeeded with
    | (.error e, s1) => (.error e, s1)
    | (.ok dataBlocks, s1) =>
      match writeDataLoop data dataBlocks 0 s1 with
      | (.error e, s2) => (.error e, freeBlocks s2 dataBlocks)
      | (.ok (), s2) =>
        match createIndexBlocks s2 dataBlocks with
        | (.error e, s3) => (.error e, freeBlocks s3 dataBlocks)
        | (.ok firstIndexBlockID, s3) =>
          let s4 := if existing ≠ 0 then (freeFileBlocks s3 existing).2 else s3
          (.ok firstIndexBlockID, s4)

/-- The inner loop of `readFileFromBlocks` over one index block's
`blockIds`, accumulating framed payloads up to `fileSize` bytes. -/
def readDataBlocksLoop (s : YFSState) (fileSize : Int) :
    List Nat → Int → List Nat → Except Err (Int × List Nat)
  | [], bytesRead, acc => .ok (bytesRead, acc)
  | id :: rest, bytesRead, acc =>
    if bytesRead ≥ fileSize then .ok (bytesRead, acc)
    else
      match readBlock s id with
      | .error e => .error e
      | .ok blockData =>
        let remaining := fileSize - bytesRead
        let toTake := min (blockData.length : Int) remaining
        readDataBlocksLoop s fileSize rest (bytesRead + toTake)
          (acc ++ blockData.take toTake.toNat)

/-- The chain walk of `readFileFromBlocks` (no cycle detection in the
source: a cyclic chain that produces no bytes loops forever, modeled by
fuel exhaustion). -/
def readFileLoop (s : YFSState) (fileSize : Int) : Nat → Nat → Int → List Nat → Except Err (List Nat)
  | 0, _, _, _ => .error .outOfFuel
  | fuel + 1, currentID, bytesRead, acc =>
    if currentID = 0 ∨ bytesRead ≥ fileSize then .ok acc
    else
      match readIndexBlock s currentID with
      | .error e => .error e
      | .ok ib =>
        match readDataBlocksLoop s fileSize ib.blockIds bytesRead acc with
        | .error e => .error e
        | .ok res => readFileLoop s fileSize fuel ib.nextIndexBlockId res.1 res.2

/-- `readFileFromBlocks`: read `fileSize` bytes starting at chain head
`first` (null head or zero size yield the empty payload). -/
def readFileFromBlocks (s : YFSState) (first : Nat) (fileSize : Int) : Except Err (List Nat) :=
  if first = 0 ∨ fileSize = 0 then .ok []
  else readFileLoop s fileSize chainFuel first 0 []

end YFS

namespace YFS

/-! ## Namespace store (`findEntryUnsafe`, `createDirectoryChain`) and the
engine facade.  Go returns pointers into the in-memory tree; the model
returns, alongside the found node, the component path at which it sits,
and mutations through those pointers become functional updates at that
path (`updateDirAt`).  Locking is not modeled: all claims below concern
single operations or sequential compositions. -/

/-- Result of `findEntryUnsafe`: Go's `(dir, file, isDir, nil)` triple.
`dir dp d`: the final component is directory `d` (at path `dp`);
`file pp parent f`: it is file `f` inside `parent` (at path `pp`);
`missing pp parent`: it does not exist, `parent` is the last directory. -/
inductive FindR where
  | dir (dpath : List String) (d : DirectoryEntry)
  | file (ppath : List String) (parent : DirectoryEntry) (f : FileEntry)
  | missing (ppath : List String) (parent : DirectoryEntry)

/-- The tree location (component path) of the directory a `FindR` result
denotes: the found directory itself, or the parent holding the file /
the missed name.  This is where Go's returned `*DirectoryEntry` points. -/
def FindR.loc : FindR → List String
  | .dir dp _ => dp
  | .file pp _ _ => pp
  | .missing pp _ => pp

/-- The component walk of `findEntryUnsafe`: descend through all but the
last component as directories (error on the first missing one, naming the
joined prefix), then resolve the last component directories-first. -/
def findLoop : DirectoryEntry → List String → List String → Except Err FindR
  | d, seen, [] => .ok (.dir seen d)
  | d, seen, [last] =>
    match dirLookup d.directories last with
    | some sub => .ok (.dir (seen ++ [last]) sub)
    | none =>
      match lookupF d.files last with
      | some f => .ok (.file seen d f)
      | none => .ok (.missing seen d)
  | d, seen, c :: rest =>
    match dirLookup d.directories c with
    | some sub => findLoop sub (seen ++ [c]) rest
    | none => .error (.dirNotFound (joinSlash (seen ++ [c])))

/-- `findEntryUnsafe`: trim, treat the empty path as the root directory,
otherwise split and walk. -/
def findEntryUnsafe (s : YFSState) (path : String) : Except Err FindR :=
  let t := trimSlashes path
  if t = "" then .ok (.dir [] s.root)
  else findLoop s.root [] (splitOnSlash t)

/-- Functional update of the directory at a component path (stands for a
Go mutation through a `*DirectoryEntry` into the tree; the engine only
uses it at paths it has just resolved, so the missing-path fallback of
returning the tree unchanged is never reached). -/
def updateDirAt : DirectoryEntry → List String → (DirectoryEntry → DirectoryEntry) → DirectoryEntry
  | d, [], f => f d
  | d, c :: rest, f =>
    match dirLookup d.directories c with
    | some sub => d.withDirs (dirInsert d.directories c (updateDirAt sub rest f))
    | none => d

/-- The loop of `createDirectoryChain`: skip empty components, descend
into existing directories, create missing ones with fresh times and a
metadata checksum. -/
def createChain (checksumEnabled : Bool) (now : Int) : DirectoryEntry → List String → DirectoryEntry
  | d, [] => d
  | d, c :: rest =>
    if c = "" then createChain checksumEnabled now d rest
    else
      match dirLookup d.directories c with
      | some sub =>
        d.withDirs (dirInsert d.directories c (createChain checksumEnabled now sub rest))
      | none =>
        let meta := updateMetadataChecksum checksumEnabled
          { name := c, modTime := now, createTime := now, permissions := 0, crc32 := 0 }
        d.withDirs (dirInsert d.directories c
          (createChain checksumEnabled now (.mk meta [] .nil) rest))

/-- `createDirectoryChain` (always succeeds; note: splits the raw path,
without trimming). -/
def createDirectoryChain (s : YFSState) (path : String) (now : Int) : YFSState :=
  if path = "" then s
  else { s with root := createChain s.checksumEnabled now s.root (splitOnSlash path) }

/-- `saveRoot`: recompute the root metadata checksum and persist the tree
(persistence itself is assumed to succeed). -/
def saveRoot (s : YFSState) : YFSState :=
  if s.checksumEnabled then
    { s with root := s.root.withMetadata (updateMetadataChecksum true s.root.metadata) }
  else s

/-- `saveBitmap`: persist and clear the dirty flag (a no-op when clean). -/
def saveBitmap (s : YFSState) : YFSState :=
  if s.bitmap.dirty then { s with bitmap := { s.bitmap with dirty := false } } else s

/-- The entry update/creation tail of `WriteFile` (after
`writeFileToBlocks` succeeded with new chain head `head`).  `fr` is the
original lookup result for `path`; `parentLoc` is the location of the
parent directory obtained from the parent-path lookup (`none` models the
nil pointer Go would dereference when that lookup failed even after
`createDirectoryChain`). -/
def writeFileUpdate (s : YFSState) (path : String) (data : List Nat) (now : Int)
    (fr : FindR) (parentLoc : Option (List String)) (head : Nat) :
    Except Err Unit × YFSState :=
  let parts := splitOnSlash (trimSlashes path)
  let fileName := parts.getLastD ""
  match fr with
  | .file pp _ f =>
    let meta2 := updateMetadataChecksum s.checksumEnabled { f.metadata with modTime := now }
    let f2 := { f with firstIndexBlockId := head
                       size := (data.length : Int)
                       metadata := meta2 }
    let root2 := updateDirAt s.root pp (fun d => d.withFiles (insertF d.files fileName f2))
    (.ok (), saveBitmap (saveRoot { s with root := root2 }))
  | _ =>
    match parentLoc with
    | none => (.error .panicNilMap, s)
    | some pp =>
      let meta := updateMetadataChecksum s.checksumEnabled
        { name := fileName, modTime := now, createTime := now, permissions := 0, crc32 := 0 }
      let f2 : FileEntry := { metadata := meta, firstIndexBlockId := head,
                              size := (data.length : Int), indexBlockCount := 0,
                              dataBlockCount := 0 }
      let root2 := updateDirAt s.root pp (fun d => d.withFiles (insertF d.files fileName f2))
      (.ok (), saveBitmap (saveRoot { s with root := root2 }))

/-- `WriteFile`: resolve the path (a directory target is an error), look
up the parent (attempting `createDirectoryChain` if that lookup failed),
store the payload through `writeFileToBlocks`, then update or create the
entry, refresh its metadata checksum, and persist root and bitmap. -/
def WriteFile (s : YFSState) (path : String) (data : List Nat) (now : Int) :
    Except Err Unit × YFSState :=
  match findEntryUnsafe s path with
  | .error e => (.error e, s)
  | .ok (.dir _ _) => (.error (.pathIsDirectory path), s)
  | .ok fr =>
    let parts := splitOnSlash (trimSlashes path)
    let parentPath := joinSlash parts.dropLast
    let pl : Option (List String) × YFSState :=
      match findEntryUnsafe s parentPath with
      | .ok pr => (some pr.loc, s)
      | .error _ =>
        let s1 := createDirectoryChain s parentPath now
        match findEntryUnsafe s1 parentPath with
        | .ok pr => (some pr.loc, s1)
        | .error _ => (none, s1)
    let existing := match fr with
      | .file _ _ f => f.firstIndexBlockId
      | _ => 0
    match writeFileToBlocks pl.2 data existing with
    | (.error e, s2) => (.error e, s2)
    | (.ok head, s2) => writeFileUpdate s2 path data now fr pl.1 head

/-- `ReadFile`: resolve to a file, verify its metadata checksum, read the
chain for `size` bytes. -/
def ReadFile (s : YFSState) (path : String) : Except Err (List Nat) :=
  match findEntryUnsafe s path with
  | .error e => .error e
  | .ok (.dir _ _) => .error (.fileNotFound path)
  | .ok (.missing _ _) => .error (.fileNotFound path)
  | .ok (.file _ _ f) =>
    if verifyMetadataChecksum s.checksumEnabled f.metadata then
      readFileFromBlocks s f.firstIndexBlockId f.size
    else .error (.metadataMismatch path)

/-- `DeleteFile`: resolve to a file, free its chain, remove the entry,
persist. -/
def DeleteFile (s : YFSState) (path : String) : Except Err Unit × YFSState :=
  match findEntryUnsafe s path with
  | .error e => (.error e, s)
  | .ok (.dir _ _) => (.error (.fileNotFound path), s)
  | .ok (.missing _ _) => (.error (.fileNotFound path), s)
  | .ok (.file pp _ f) =>
    match freeFileBlocks s f.firstIndexBlockId with
    | (.error e, s1) => (.error e, s1)
    | (.ok (), s1) =>
      let parts := splitOnSlash (trimSlashes path)
      let fileName := parts.getLastD ""
      let root2 := updateDirAt s1.root pp (fun d => d.withFiles (eraseF d.files fileName))
      (.ok (), saveBitmap (saveRoot { s1 with root := root2 }))

/-- `CopyFile` is read-then-write. -/
def CopyFile (s : YFSState) (srcPath dstPath : String) (now : Int) :
    Except Err Unit × YFSState :=
  match ReadFile s srcPath with
  | .error e => (.error e, s)
  | .ok data => WriteFile s dstPath data now

/-- `MoveFile` is copy-then-delete. -/
def MoveFile (s : YFSState) (srcPath dstPath : String) (now : Int) :
    Except Err Unit × YFSState :=
  match CopyFile s srcPath dstPath now with
  | (.error e, s1) => (.error e, s1)
  | (.ok (), s1) => DeleteFile s1 srcPath

/-- `CreateDirectory`: only an existing directory at the full path is an
error (a lookup error or an existing file is not); then create the chain
and persist. -/
def CreateDirectory (s : YFSState) (path : String) (now : Int) :
    Except Err Unit × YFSState :=
  match findEntryUnsafe s path with
  | .ok (.dir _ _) => (.error (.directoryAlreadyExists path), s)
  | _ =>
    let s1 := createDirectoryChain s path now
    (.ok (), saveRoot s1)

/-- `DeleteDirectory`: refuse non-directories, non-empty directories, and
the root; otherwise remove the entry from the parent and persist.  (In
the Go source the success path calls the locked `findEntry` while already
holding the write lock and therefore self-deadlocks; the two refusal
paths proved below return before that call.  The model ignores locks.) -/
def DeleteDirectory (s : YFSState) (path : String) : Except Err Unit × YFSState :=
  match findEntryUnsafe s path with
  | .error e => (.error e, s)
  | .ok (.file _ _ _) => (.error (.pathNotDirectory path), s)
  | .ok (.missing _ _) => (.error (.pathNotDirectory path), s)
  | .ok (.dir _ d) =>
    if d.files.length > 0 ∨ dirLength d.directories > 0 then
      (.error (.directoryNotEmpty path), s)
    else
      let parts := splitOnSlash (trimSlashes path)
      if parts.length = 1 ∧ parts.headD "x" = "" then (.error .cannotDeleteRoot, s)
      else
        let parentPath := joinSlash parts.dropLast
        match findEntryUnsafe s parentPath with
        | .error e => (.error e, s)
        | .ok pr =>
          let dirName := parts.getLastD ""
          let root2 := updateDirAt s.root pr.loc
            (fun pd => pd.withDirs (dirErase pd.directories dirName))
          (.ok (), saveRoot { s with root := root2 })

/-- `createFileSystem` with `DefaultBlockSize = 4096`: version 2, checksums
enabled, an empty root named `"/"`, a 1024-byte bitmap for 8192 blocks,
an empty block store; `saveRoot` and `saveBitmap` run as in the source. -/
def initState (now : Int) : YFSState :=
  saveBitmap (saveRoot
    { version := 2, blockSize := 4096, checksumEnabled := true,
      root := .mk { name := "/", modTime := now, createTime := now,
                    permissions := 0, crc32 := 0 } [] .nil,
      bitmap := { data := List.replicate 1024 0, totalBlocks := 8192,
                  searchPos := 0, dirty := true },
      blocks := [] })

/-! ## Observation helpers used by theorem statements -/

/-- The file entry a path resolves to, if any. -/
def fileAt (s : YFSState) (path : String) : Option FileEntry :=
  match findEntryUnsafe s path with
  | .ok (.file _ _ f) => some f
  | _ => none

/-- Walk a chain and count the data blocks it yields (direct IDs plus
extent counts); `none` on an unreadable or overlong chain. -/
def chainDataCountLoop (s : YFSState) : Nat → Nat → Nat → Option Nat
  | 0, _, _ => none
  | fuel + 1, current, acc =>
    if current = 0 then some acc
    else
      match readIndexBlock s current with
      | .error _ => none
      | .ok ib =>
        chainDataCountLoop s fuel ib.nextIndexBlockId
          (acc + ib.blockIds.length + ib.extents.foldl (fun a e => a + e.blockCount) 0)

/-- Data blocks yielded by the chain rooted at `first`. -/
def chainDataCount (s : YFSState) (first : Nat) : Option Nat :=
  chainDataCountLoop s chainFuel first 0

/-- Walk a chain collecting every block ID it references, in exactly the
order `freeFileBlocks` frees them: each node's direct data IDs, then its
extent expansions (with uint32 wrap), then the index block itself. -/
def chainBlocksLoop (s : YFSState) : Nat → Nat → List Nat → Option (List Nat)
  | 0, _, _ => none
  | fuel + 1, current, acc =>
    if current = 0 then some acc
    else
      match readIndexBlock s current with
      | .error _ => none
      | .ok ib =>
        chainBlocksLoop s fuel ib.nextIndexBlockId
          (acc ++ ib.blockIds ++
           ib.extents.foldl (fun l e =>
             l ++ (List.range e.blockCount).map fun i =>
               (e.startBlockId + i) % 4294967296) [] ++
           [current])

/-- All block IDs (data, extent, index) of the chain rooted at `first`. -/
def chainAllBlocks (s : YFSState) (first : Nat) : Option (List Nat) :=
  chainBlocksLoop s chainFuel first []

end YFS

namespace YFS

/-! ## Integrity verification (`VerifyIntegrity`,
`verifyDirectoryIntegrity`, `verifyFileIndexBlocks`) -/

/-- The chain walk of `verifyFileIndexBlocks`: reject a revisited index
block (cycle), an unreadable index block, a referenced data-block ID of 0
or beyond `uint32(totalBlocks)`, and an extent starting at 0 or reaching
beyond `uint32(totalBlocks)` (uint32 addition wraps). -/
def verifyChainLoop (s : YFSState) : Nat → List Nat → Nat → Except Err Unit
  | 0, _, _ => .error .outOfFuel
  | fuel + 1, visited, current =>
    if current = 0 then .ok ()
    else if visited.contains current then .error .circularReference
    else
      match readIndexBlock s current with
      | .error e => .error (.failedReadIndexBlock current e)
      | .ok ib =>
        match ib.blockIds.find? (fun id =>
            id == 0 || decide (s.bitmap.totalBlocks % 4294967296 < id)) with
        | some bad => .error (.invalidDataBlockId bad current)
        | none =>
          match ib.extents.find? (fun e =>
              e.startBlockId == 0 ||
              decide (s.bitmap.totalBlocks % 4294967296 <
                (e.startBlockId + e.blockCount) % 4294967296)) with
          | some e => .error (.invalidExtent current e.startBlockId e.blockCount)
          | none => verifyChainLoop s fuel (visited ++ [current]) ib.nextIndexBlockId

/-- `verifyFileIndexBlocks`. -/
def verifyFileIndexBlocks (s : YFSState) (first : Nat) : Except Err Unit :=
  if first = 0 then .ok () else verifyChainLoop s chainFuel [] first

/-- The file loop of `verifyDirectoryIntegrity`: per file, metadata
checksum then index chain. -/
def verifyFilesLoop (s : YFSState) : List (String × FileEntry) → Except Err Unit
  | [] => .ok ()
  | (name, f) :: rest =>
    if verifyMetadataChecksum s.checksumEnabled f.metadata then
      match verifyFileIndexBlocks s f.firstIndexBlockId with
      | .error e => .error (.fileIndexVerifyFailed name e)
      | .ok () => verifyFilesLoop s rest
    else .error (.fileMetadataMismatch name)

mutual

/-- `verifyDirectoryIntegrity`: directory metadata, then all files, then
all subdirectories recursively.  (The Go error strings carry
`filepath.Join`ed paths; the model errors carry names only — no theorem
below inspects them.) -/
def verifyDirectoryIntegrity (s : YFSState) : DirectoryEntry → Except Err Unit
  | .mk md files dirs =>
    if verifyMetadataChecksum s.checksumEnabled md then
      match verifyFilesLoop s files with
      | .error e => .error e
      | .ok () => verifyDirsLoop s dirs
    else .error (.dirMetadataMismatch md.name)

/-- Subdirectory recursion of `verifyDirectoryIntegrity`. -/
def verifyDirsLoop (s : YFSState) : DirList → Except Err Unit
  | .nil => .ok ()
  | .cons _ sub rest =>
    match verifyDirectoryIntegrity s sub with
    | .error e => .error e
    | .ok () => verifyDirsLoop s rest

end

/-- `VerifyIntegrity`: root metadata (checked again inside the recursion)
then the whole tree. -/
def VerifyIntegrity (s : YFSState) : Except Err Unit :=
  if verifyMetadataChecksum s.checksumEnabled s.root.metadata then
    verifyDirectoryIntegrity s s.root
  else .error .rootMetadataMismatch

/-! ## Specification-side integrity predicates (Boolean), used to state
what `verify_integrity` accepts (claim C4). -/

/-- Boolean mirror of one chain's full verification: terminates at 0,
rejects revisits, unreadable blocks, out-of-range IDs and extents. -/
def chainOkB (s : YFSState) : Nat → List Nat → Nat → Bool
  | 0, _, _ => false
  | fuel + 1, visited, current =>
    if current = 0 then true
    else if visited.contains current then false
    else
      match readIndexBlock s current with
      | .error _ => false
      | .ok ib =>
        (ib.blockIds.all fun id =>
          id != 0 && decide (id ≤ s.bitmap.totalBlocks % 4294967296)) &&
        (ib.extents.all fun e =>
          e.startBlockId != 0 &&
          decide ((e.startBlockId + e.blockCount) % 4294967296 ≤
            s.bitmap.totalBlocks % 4294967296)) &&
        chainOkB s fuel (visited ++ [current]) ib.nextIndexBlockId

/-- A file's chain passes full verification. -/
def fileChainOk (s : YFSState) (first : Nat) : Bool :=
  first == 0 || chainOkB s chainFuel [] first

/-- All files of one directory pass metadata and chain verification. -/
def filesOkB (s : YFSState) : List (String × FileEntry) → Bool
  | [] => true
  | (_, f) :: rest =>
    verifyMetadataChecksum s.checksumEnabled f.metadata &&
    fileChainOk s f.firstIndexBlockId && filesOkB s rest

mutual

/-- Boolean mirror of `verifyDirectoryIntegrity`. -/
def dirOkB (s : YFSState) : DirectoryEntry → Bool
  | .mk md files dirs =>
    verifyMetadataChecksum s.checksumEnabled md && filesOkB s files && dirsOkB s dirs

/-- Boolean mirror of `verifyDirsLoop`. -/
def dirsOkB (s : YFSState) : DirList → Bool
  | .nil => true
  | .cons _ sub rest => dirOkB s sub && dirsOkB s rest

end

/-- What `verify_integrity` accepts: every metadata checksum verifies and
every index chain reachable from a file entry is fully valid (acyclic,
readable with matching checksums, all referenced IDs and extents in
range). -/
def IntegrityOk (s : YFSState) : Bool :=
  verifyMetadataChecksum s.checksumEnabled s.root.metadata && dirOkB s s.root

/-! ## The two conditions named by claim C4 (checksum mismatches and chain
cycles), as stand-alone predicates. -/

mutual

/-- No metadata checksum mismatch anywhere in the tree. -/
def noMetaMismatchDir (s : YFSState) : DirectoryEntry → Bool
  | .mk md files dirs =>
    verifyMetadataChecksum s.checksumEnabled md &&
    (files.all fun nf => verifyMetadataChecksum s.checksumEnabled nf.2.metadata) &&
    noMetaMismatchDirs s dirs

/-- Subdirectory recursion of `noMetaMismatchDir`. -/
def noMetaMismatchDirs (s : YFSState) : DirList → Bool
  | .nil => true
  | .cons _ sub rest => noMetaMismatchDir s sub && noMetaMismatchDirs s rest

end

mutual

/-- First-index-block IDs of every file entry in the tree. -/
def allChainHeadsDir : DirectoryEntry → List Nat
  | .mk _ files dirs =>
    files.map (fun nf => nf.2.firstIndexBlockId) ++ allChainHeadsDirs dirs

/-- Subdirectory recursion of `allChainHeadsDir`. -/
def allChainHeadsDirs : DirList → List Nat
  | .nil => []
  | .cons _ sub rest => allChainHeadsDir sub ++ allChainHeadsDirs rest

end

/-- Walk a chain checking only index-block CRCs; a revisited or
unreadable block ends the walk without evidence of a mismatch. -/
def chainNoCrcMismatch (s : YFSState) : Nat → List Nat → Nat → Bool
  | 0, _, _ => false
  | fuel + 1, visited, current =>
    if current = 0 then true
    else if visited.contains current then true
    else
      match storeLookup s.blocks current with
      | some (.index ib) =>
        if s.checksumEnabled && ib.crc32 != 0 && ib.crc32 != indexBlockChecksum ib then false
        else chainNoCrcMismatch s fuel (visited ++ [current]) ib.nextIndexBlockId
      | _ => true

/-- Walk a chain checking only for a revisited block (a cycle); an
unreadable block ends the chain without a cycle. -/
def chainNoCycle (s : YFSState) : Nat → List Nat → Nat → Bool
  | 0, _, _ => false
  | fuel + 1, visited, current =>
    if current = 0 then true
    else if visited.contains current then false
    else
      match storeLookup s.blocks current with
      | some (.index ib) => chainNoCycle s fuel (visited ++ [current]) ib.nextIndexBlockId
      | _ => true

/-- Claim C4's first condition: no metadata checksum mismatch in the tree
and no index-block checksum mismatch along any chain reachable from a
file entry. -/
def NoChecksumMismatch (s : YFSState) : Bool :=
  noMetaMismatchDir s s.root &&
  (allChainHeadsDir s.root).all fun h => h == 0 || chainNoCrcMismatch s chainFuel [] h

/-- Claim C4's second condition: no index chain reachable from any file
entry contains a cycle. -/
def NoCycleInChains (s : YFSState) : Bool :=
  (allChainHeadsDir s.root).all fun h => h == 0 || chainNoCycle s chainFuel [] h

end YFS

namespace YFS

/-! ## Auxiliary definitions used by theorem statements and proofs -/

/-- Walk a component list purely through the directories maps. -/
def walkDirs : DirectoryEntry → List String → Option DirectoryEntry
  | d, [] => some d
  | d, c :: rest =>
    match dirLookup d.directories c with
    | some sub => walkDirs sub rest
    | none => none

mutual

/-- No directory anywhere in the tree has a subdirectory keyed by the
empty string.  Every tree the engine itself builds satisfies this
(`createDirectoryChain` skips empty components), and round-trip
properties of paths containing `//` depend on it. -/
def noEmptyDirNames : DirectoryEntry → Bool
  | .mk _ _ dirs => noEmptyDirNamesL dirs

/-- Subdirectory recursion of `noEmptyDirNames`. -/
def noEmptyDirNamesL : DirList → Bool
  | .nil => true
  | .cons n sub rest => n != "" && noEmptyDirNames sub && noEmptyDirNamesL rest

end

end YFS

namespace YFS

set_option maxRecDepth 40000

/-! ## Bit-level lemmas for the bitmap -/

theorem land_shift_eq_zero (b i : Nat) : (b &&& (1 <<< i) == 0) = !b.testBit i := by
  rw [Nat.shiftLeft_eq, one_mul, Nat.and_two_pow]
  cases h : b.testBit i <;> simp [h, Nat.pow_eq_zero]

theorem testBit_or_shift_self (b i : Nat) : (b ||| (1 <<< i)).testBit i = true := by
  rw [Nat.shiftLeft_eq, one_mul, Nat.testBit_lor, Nat.testBit_two_pow_self]
  simp

theorem testBit_or_shift_ne (b i j : Nat) (h : j ≠ i) :
    (b ||| (1 <<< i)).testBit j = b.testBit j := by
  rw [Nat.shiftLeft_eq, one_mul, Nat.testBit_lor,
    Nat.testBit_two_pow_of_ne (fun hij => h (hij.symm)), Bool.or_false]

theorem testBit_clear_self (b i : Nat) (hi : i < 8) :
    (b &&& (255 ^^^ (1 <<< i))).testBit i = false := by
  rw [Nat.shiftLeft_eq, one_mul, Nat.testBit_land, Nat.testBit_xor]
  have h255 : (255 : Nat) = 2 ^ 8 - 1 := by norm_num
  rw [h255, Nat.testBit_two_pow_sub_one, Nat.testBit_two_pow_self]
  simp [hi]

theorem testBit_clear_ne (b i j : Nat) (hj : j < 8) (h : j ≠ i) :
    (b &&& (255 ^^^ (1 <<< i))).testBit j = b.testBit j := by
  rw [Nat.shiftLeft_eq, one_mul, Nat.testBit_land, Nat.testBit_xor]
  have h255 : (255 : Nat) = 2 ^ 8 - 1 := by norm_num
  rw [h255, Nat.testBit_two_pow_sub_one,
    Nat.testBit_two_pow_of_ne (fun hij => h hij.symm)]
  simp [hj]

theorem getD_set_self (l : List Nat) (i v : Nat) (h : i < l.length) :
    (l.set i v).getD i 0 = v := by
  induction l generalizing i with
  | nil => simp at h
  | cons x xs ih =>
    cases i with
    | zero => rfl
    | succ n => simpa using ih n (by simpa using h)

theorem getD_set_ne (l : List Nat) (i j v : Nat) (h : i ≠ j) :
    (l.set i v).getD j 0 = l.getD j 0 := by
  induction l generalizing i j with
  | nil => rfl
  | cons x xs ih =>
    cases i with
    | zero =>
      cases j with
      | zero => exact absurd rfl h
      | succ m => rfl
    | succ n =>
      cases j with
      | zero => rfl
      | succ m => simpa using ih n m (by omega)

/-- `isBlockFree` via `testBit`. -/
theorem isBlockFree_eq (bm : Bitmap) (pos : Nat) :
    isBlockFree bm pos =
      (decide (pos / 8 < bm.data.length) && !(bm.data.getD (pos / 8) 0).testBit (pos % 8)) := by
  unfold isBlockFree
  by_cases h : bm.data.length ≤ pos / 8
  · simp [h, Nat.not_lt.mpr h]
  · have h2 : pos / 8 < bm.data.length := Nat.not_le.mp h
    simp [h, land_shift_eq_zero, h2]

/-- Positions whose bit can be free at all have a byte in range. -/
theorem isBlockFree_lt_length (bm : Bitmap) (pos : Nat)
    (h : isBlockFree bm pos = true) : pos / 8 < bm.data.length := by
  rw [isBlockFree_eq] at h
  by_cases h2 : pos / 8 < bm.data.length
  · exact h2
  · simp [h2] at h

/-- `growLoop` is the identity when the byte index is already in range. -/
theorem growLoop_of_lt (fuel : Nat) (d : List Nat) (tb byteIndex : Nat)
    (h : byteIndex < d.length) : growLoop (fuel + 1) d tb byteIndex = (d, tb) := by
  unfold growLoop
  simp [Nat.not_le.mpr h]

/-- `markBlockUsed` at an in-range position: no growth, bit set, all other
positions' free-status preserved. -/
theorem markBlockUsed_spec (bm : Bitmap) (pos : Nat) (h : pos / 8 < bm.data.length) :
    (markBlockUsed bm pos).data.length = bm.data.length ∧
    (markBlockUsed bm pos).totalBlocks = bm.totalBlocks ∧
    (markBlockUsed bm pos).searchPos = bm.searchPos ∧
    (markBlockUsed bm pos).dirty = bm.dirty ∧
    isBlockFree (markBlockUsed bm pos) pos = false ∧
    (∀ q, q ≠ pos → isBlockFree (markBlockUsed bm pos) q = isBlockFree bm q) := by
  have hg : growLoop (pos / 8 + 1) bm.data bm.totalBlocks (pos / 8) = (bm.data, bm.totalBlocks) :=
    growLoop_of_lt _ _ _ _ h
  refine ⟨?_, ?_, ?_, ?_, ?_, ?_⟩
  · simp [markBlockUsed, hg]
  · simp [markBlockUsed, hg]
  · simp [markBlockUsed, hg]
  · simp [markBlockUsed, hg]
  · simp only [markBlockUsed, hg]
    rw [isBlockFree_eq]
    dsimp only
    simp only [List.length_set]
    rw [getD_set_self _ _ _ h, testBit_or_shift_self]
    simp
  · intro q hq
    simp only [markBlockUsed, hg]
    rw [isBlockFree_eq, isBlockFree_eq]
    dsimp only
    simp only [List.length_set]
    by_cases hb : q / 8 = pos / 8
    · have hbit : q % 8 ≠ pos % 8 := by omega
      rw [hb, getD_set_self _ _ _ h, testBit_or_shift_ne _ _ _ hbit]
    · rw [getD_set_ne _ _ _ _ (fun he => hb he.symm)]

/-- `markBlockFree`: clears the bit (if in range), preserves every other
position's free-status, never changes sizes. -/
theorem markBlockFree_spec (bm : Bitmap) (pos : Nat) :
    (markBlockFree bm pos).data.length = bm.data.length ∧
    (markBlockFree bm pos).totalBlocks = bm.totalBlocks ∧
    (markBlockFree bm pos).searchPos = bm.searchPos ∧
    (pos / 8 < bm.data.length → isBlockFree (markBlockFree bm pos) pos = true) ∧
    (∀ q, q ≠ pos → isBlockFree (markBlockFree bm pos) q = isBlockFree bm q) := by
  by_cases h : pos / 8 < bm.data.length
  · refine ⟨?_, ?_, ?_, fun _ => ?_, ?_⟩
    · simp [markBlockFree, h]
    · simp [markBlockFree, h]
    · simp [markBlockFree, h]
    · simp only [markBlockFree, h, if_true]
      rw [isBlockFree_eq]
      dsimp only
      simp only [List.length_set, h]
      rw [getD_set_self _ _ _ h, testBit_clear_self _ _ (Nat.mod_lt _ (by norm_num))]
      simp
    · intro q hq
      simp only [markBlockFree, h, if_true]
      rw [isBlockFree_eq, isBlockFree_eq]
      dsimp only
      simp only [List.length_set]
      by_cases hb : q / 8 = pos / 8
      · have hbit : q % 8 ≠ pos % 8 := by omega
        rw [hb, getD_set_self _ _ _ h,
          testBit_clear_ne _ _ _ (Nat.mod_lt _ (by norm_num)) hbit]
      · rw [getD_set_ne _ _ _ _ (fun he => hb he.symm)]
  · simp [markBlockFree, h]

end YFS

namespace YFS

/-! ## Allocator lemmas -/

theorem scanContig_none (bm : Bitmap) (count startPos : Nat)
    (H : ∀ pos, pos < bm.totalBlocks → isBlockFree bm pos = false) :
    ∀ fuel, fuel ≤ bm.totalBlocks → ∀ i, scanContig bm count startPos i fuel = none := by
  intro fuel
  induction fuel with
  | zero => intro _ i; rfl
  | succ n ih =>
    intro hle i
    have htb : 0 < bm.totalBlocks := lt_of_lt_of_le (Nat.succ_pos n) hle
    have hpos := H ((startPos + i) % bm.totalBlocks) (Nat.mod_lt _ htb)
    simp only [scanContig, hpos, Bool.false_eq_true, if_false]
    exact ih (le_trans (Nat.le_succ n) hle) (i + 1)

theorem scanOne_some (bm : Bitmap) (startPos : Nat) :
    ∀ fuel, fuel ≤ bm.totalBlocks → ∀ i pos, scanOne bm startPos i fuel = some pos →
      isBlockFree bm pos = true ∧ pos < bm.totalBlocks := by
  intro fuel
  induction fuel with
  | zero => intro _ i pos h; exact absurd h (by simp [scanOne])
  | succ n ih =>
    intro hle i pos h
    have htb : 0 < bm.totalBlocks := lt_of_lt_of_le (Nat.succ_pos n) hle
    by_cases hf : isBlockFree bm ((startPos + i) % bm.totalBlocks) = true
    · simp only [scanOne, hf, if_true, Option.some.injEq] at h
      subst h
      exact ⟨hf, Nat.mod_lt _ htb⟩
    · have hf2 : isBlockFree bm ((startPos + i) % bm.totalBlocks) = false :=
        Bool.not_eq_true _ ▸ Bool.eq_false_iff.mpr (fun he => hf he)
      simp only [scanOne, hf2, Bool.false_eq_true, if_false] at h
      exact ih (le_trans (Nat.le_succ n) hle) (i + 1) pos h

theorem canAllocateRun_spec (bm : Bitmap) (pos count : Nat)
    (h : canAllocateRun bm pos count = true) :
    ∀ j, j < count → pos + j < bm.totalBlocks ∧ isBlockFree bm (pos + j) = true := by
  intro j hj
  unfold canAllocateRun at h
  rw [List.all_eq_true] at h
  have h2 := h j (List.mem_range.mpr hj)
  simp only [Bool.and_eq_true, decide_eq_true_eq] at h2
  exact h2

theorem scanContig_some (bm : Bitmap) (count startPos : Nat) :
    ∀ fuel i pos, scanContig bm count startPos i fuel = some pos →
      canAllocateRun bm pos count = true := by
  intro fuel
  induction fuel with
  | zero => intro i pos h; exact absurd h (by simp [scanContig])
  | succ n ih =>
    intro i pos h
    by_cases hf : isBlockFree bm ((startPos + i) % bm.totalBlocks) = true
    · by_cases hc : canAllocateRun bm ((startPos + i) % bm.totalBlocks) count = true
      · simp only [scanContig, hf, if_true, hc, Option.some.injEq] at h
        subst h
        exact hc
      · have hc2 : canAllocateRun bm ((startPos + i) % bm.totalBlocks) count = false :=
          Bool.eq_false_iff.mpr (fun he => hc he)
        simp only [scanContig, hf, if_true, hc2, Bool.false_eq_true, if_false] at h
        exact ih (i + 1) pos h
    · have hf2 : isBlockFree bm ((startPos + i) % bm.totalBlocks) = false :=
        Bool.eq_false_iff.mpr (fun he => hf he)
      simp only [scanContig, hf2, Bool.false_eq_true, if_false] at h
      exact ih (i + 1) pos h

theorem markRun_spec (bm : Bitmap) (pos count : Nat)
    (H : ∀ j, j < count → pos + j < bm.totalBlocks ∧ isBlockFree bm (pos + j) = true) :
    (markRun bm pos count).totalBlocks = bm.totalBlocks ∧
    (markRun bm pos count).data.length = bm.data.length ∧
    (∀ j, j < count → isBlockFree (markRun bm pos count) (pos + j) = false) ∧
    (∀ q, (∀ j, j < count → q ≠ pos + j) →
      isBlockFree (markRun bm pos count) q = isBlockFree bm q) := by
  induction count with
  | zero =>
    refine ⟨rfl, rfl, fun j hj => absurd hj (by omega), fun q _ => rfl⟩
  | succ k ih =>
    obtain ⟨ih1, ih2, ih3, ih4⟩ := ih (fun j hj => H j (by omega))
    have hstep : markRun bm pos (k + 1) = markBlockUsed (markRun bm pos k) (pos + k) := by
      unfold markRun
      rw [List.range_succ, List.foldl_append]
      rfl
    have hfree_k : isBlockFree (markRun bm pos k) (pos + k) = true := by
      rw [ih4 (pos + k) (fun j hj => by omega)]
      exact (H k (by omega)).2
    have hlen : (pos + k) / 8 < (markRun bm pos k).data.length :=
      isBlockFree_lt_length _ _ hfree_k
    obtain ⟨m1, m2, _, _, m5, m6⟩ := markBlockUsed_spec (markRun bm pos k) (pos + k) hlen
    refine ⟨?_, ?_, ?_, ?_⟩
    · rw [hstep, m2, ih1]
    · rw [hstep, m1, ih2]
    · intro j hj
      rw [hstep]
      by_cases hjk : j = k
      · subst hjk; exact m5
      · rw [m6 _ (by omega)]
        exact ih3 j (by omega)
    · intro q hq
      rw [hstep, m6 _ (hq k (by omega))]
      exact ih4 q (fun j hj => hq j (by omega))

theorem allocIndivLoop_spec :
    ∀ n (bm : Bitmap) (acc : List Nat),
      ∃ new,
        (allocIndivLoop n bm acc).1 = acc ++ new ∧
        new.Nodup ∧
        (∀ id ∈ new, 1 ≤ id ∧ id ≤ bm.totalBlocks ∧
          isBlockFree bm (id - 1) = true ∧
          isBlockFree (allocIndivLoop n bm acc).2 (id - 1) = false) ∧
        (allocIndivLoop n bm acc).2.totalBlocks = bm.totalBlocks ∧
        (allocIndivLoop n bm acc).2.data.length = bm.data.length ∧
        (∀ pos, isBlockFree (allocIndivLoop n bm acc).2 pos = true →
          isBlockFree bm pos = true) := by
  intro n
  induction n with
  | zero =>
    intro bm acc
    exact ⟨[], by simp [allocIndivLoop], List.nodup_nil, by simp, rfl, rfl, fun _ h => h⟩
  | succ m ih =>
    intro bm acc
    cases hscan : scanOne bm bm.searchPos 0 bm.totalBlocks with
    | none =>
      have hred : allocIndivLoop (m + 1) bm acc = allocIndivLoop m bm acc := by
        simp [allocIndivLoop, hscan]
      rw [hred]
      exact ih bm acc
    | some pos =>
      obtain ⟨hfree, hlt⟩ := scanOne_some bm bm.searchPos bm.totalBlocks (le_refl _) 0 pos hscan
      have hlen : pos / 8 < bm.data.length := isBlockFree_lt_length bm pos hfree
      obtain ⟨m1, m2, _, _, m5, m6⟩ := markBlockUsed_spec bm pos hlen
      have hred : allocIndivLoop (m + 1) bm acc =
          allocIndivLoop m { markBlockUsed bm pos with searchPos := pos + 1 } (acc ++ [pos + 1]) := by
        simp [allocIndivLoop, hscan]
      have hsame : ∀ q, isBlockFree { markBlockUsed bm pos with searchPos := pos + 1 } q =
          isBlockFree (markBlockUsed bm pos) q := fun q => rfl
      obtain ⟨new', h1, h2, h3, h4, h5, h6⟩ :=
        ih { markBlockUsed bm pos with searchPos := pos + 1 } (acc ++ [pos + 1])
      rw [hred]
      refine ⟨(pos + 1) :: new', ?_, ?_, ?_, ?_, ?_, ?_⟩
      · rw [h1]; simp
      · rw [List.nodup_cons]
        refine ⟨fun hmem => ?_, h2⟩
        have hf1 := (h3 _ hmem).2.2.1
        rw [hsame] at hf1
        have : pos + 1 - 1 = pos := by omega
        rw [this, m5] at hf1
        exact Bool.false_ne_true hf1
      · intro id hid
        rcases List.mem_cons.mp hid with heq | hmem
        · subst heq
          have hid1 : pos + 1 - 1 = pos := by omega
          refine ⟨by omega, by omega, by rw [hid1]; exact hfree, ?_⟩
          rw [hid1]
          by_cases hfin : isBlockFree (allocIndivLoop m
              { markBlockUsed bm pos with searchPos := pos + 1 } (acc ++ [pos + 1])).2 pos = true
          · have := h6 pos hfin
            rw [hsame, m5] at this
            exact absurd this Bool.false_ne_true
          · exact Bool.eq_false_iff.mpr (fun he => hfin he)
        · obtain ⟨g1, g2, g3, g4⟩ := h3 id hmem
          rw [hsame] at g3
          have hne : id - 1 ≠ pos := by
            intro he
            rw [he, m5] at g3
            exact Bool.false_ne_true g3
          rw [m6 _ hne] at g3
          have g2' : id ≤ bm.totalBlocks := by
            have : ({ markBlockUsed bm pos with searchPos := pos + 1 } : Bitmap).totalBlocks =
                (markBlockUsed bm pos).totalBlocks := rfl
            rw [this, m2] at g2
            exact g2
          exact ⟨g1, g2', g3, g4⟩
      · rw [h4]
        show (markBlockUsed bm pos).totalBlocks = bm.totalBlocks
        exact m2
      · rw [h5]
        show (markBlockUsed bm pos).data.length = bm.data.length
        exact m1
      · intro q hq
        have hq2 := h6 q hq
        rw [hsame] at hq2
        by_cases hqp : q = pos
        · subst hqp
          rw [m5] at hq2
          exact absurd hq2 Bool.false_ne_true
        · rw [m6 _ hqp] at hq2
          exact hq2

end YFS

namespace YFS

theorem allocateBlocksIndividual_ok (s : YFSState) (n : Nat) (ids : List Nat) (s' : YFSState)
    (h : allocateBlocksIndividual s n = (.ok ids, s')) :
    ids.length = n ∧ ids.Nodup ∧
    (∀ id ∈ ids, 1 ≤ id ∧ id ≤ s.bitmap.totalBlocks ∧
      isBlockFree s.bitmap (id - 1) = true ∧ isBlockFree s'.bitmap (id - 1) = false) ∧
    s'.bitmap.totalBlocks = s.bitmap.totalBlocks ∧
    s'.bitmap.data.length = s.bitmap.data.length ∧
    (∀ pos, isBlockFree s'.bitmap pos = true → isBlockFree s.bitmap pos = true) ∧
    s'.blocks = s.blocks ∧ s'.root = s.root ∧ s'.blockSize = s.blockSize ∧
    s'.checksumEnabled = s.checksumEnabled := by
  obtain ⟨new, h1, h2, h3, h4, h5, h6⟩ := allocIndivLoop_spec n s.bitmap []
  rw [List.nil_append] at h1
  unfold allocateBlocksIndividual at h
  by_cases hl : (allocIndivLoop n s.bitmap []).1.length ≠ n
  · rw [if_pos hl] at h
    exact absurd (congrArg Prod.fst h) (by simp)
  · rw [if_neg hl] at h
    push_neg at hl
    have hfst := congrArg Prod.fst h
    have hsnd := congrArg Prod.snd h
    simp only [Except.ok.injEq] at hfst
    subst hfst
    subst hsnd
    rw [h1]
    refine ⟨h1 ▸ hl, h2, ?_, h4, h5, h6, rfl, rfl, rfl, rfl⟩
    intro id hid
    exact h3 id hid

/-- Full behavioral specification of a successful `allocateBlocks` call:
exactly `n` pairwise-distinct 1-based IDs within capacity, each free
before and marked used after, with the bitmap sizes, the monotonicity of
marking, and all non-bitmap state preserved. -/
theorem allocateBlocks_ok (s : YFSState) (n : Nat) (ids : List Nat) (s' : YFSState)
    (h : allocateBlocks s n = (.ok ids, s')) :
    ids.length = n ∧ ids.Nodup ∧
    (∀ id ∈ ids, 1 ≤ id ∧ id ≤ s.bitmap.totalBlocks ∧
      isBlockFree s.bitmap (id - 1) = true ∧ isBlockFree s'.bitmap (id - 1) = false) ∧
    s'.bitmap.totalBlocks = s.bitmap.totalBlocks ∧
    s'.bitmap.data.length = s.bitmap.data.length ∧
    (∀ pos, isBlockFree s'.bitmap pos = true → isBlockFree s.bitmap pos = true) ∧
    s'.blocks = s.blocks ∧ s'.root = s.root ∧ s'.blockSize = s.blockSize ∧
    s'.checksumEnabled = s.checksumEnabled := by
  unfold allocateBlocks at h
  by_cases hn : n = 0
  · subst hn
    rw [if_pos rfl] at h
    have hfst := congrArg Prod.fst h
    have hsnd := congrArg Prod.snd h
    simp only [Except.ok.injEq] at hfst
    subst hfst
    subst hsnd
    exact ⟨rfl, List.nodup_nil, by simp, rfl, rfl, fun _ hp => hp, rfl, rfl, rfl, rfl⟩
  · rw [if_neg hn] at h
    cases hscan : scanContig s.bitmap n s.bitmap.searchPos 0 s.bitmap.totalBlocks with
    | some pos =>
      simp only [hscan] at h
      have hcan := scanContig_some s.bitmap n s.bitmap.searchPos _ 0 pos hscan
      have hrun := canAllocateRun_spec _ _ _ hcan
      obtain ⟨r1, r2, r3, r4⟩ := markRun_spec s.bitmap pos n hrun
      have hfst := congrArg Prod.fst h
      have hsnd := congrArg Prod.snd h
      simp only [Except.ok.injEq] at hfst
      subst hfst
      subst hsnd
      refine ⟨by simp, ?_, ?_, r1, r2, ?_, rfl, rfl, rfl, rfl⟩
      · exact List.Nodup.map (fun a b hab => by omega) (List.nodup_range n)
      · intro id hid
        obtain ⟨j, hjr, hje⟩ := List.mem_map.mp hid
        have hj : j < n := List.mem_range.mp hjr
        have hid1 : id - 1 = pos + j := by omega
        refine ⟨by omega, by have := (hrun j hj).1; omega, ?_, ?_⟩
        · rw [hid1]; exact (hrun j hj).2
        · rw [hid1]; exact r3 j hj
      · intro q hq
        have hq2 : isBlockFree (markRun s.bitmap pos n) q = true := hq
        by_cases hex : ∃ j, j < n ∧ q = pos + j
        · obtain ⟨j, hj, rfl⟩ := hex
          rw [r3 j hj] at hq2
          exact absurd hq2 Bool.false_ne_true
        · rw [r4 q (fun j hj hqe => hex ⟨j, hj, hqe⟩)] at hq2
          exact hq2
    | none =>
      simp only [hscan] at h
      by_cases hn1 : n > 1
      · rw [if_pos hn1] at h
        exact allocateBlocksIndividual_ok s n ids s' h
      · rw [if_neg hn1] at h
        exact absurd (congrArg Prod.fst h) (by simp)

end YFS

namespace YFS

set_option maxRecDepth 100000

/-- C3 counterexample: on a bitmap whose eight positions are all used,
`allocate(1)` does not grow the bitmap and retry — it fails with the
no-free-blocks error and leaves the state (in particular `total_blocks`
and the bitmap bytes) unchanged, contradicting the claim that a
single-block allocation never fails for lack of capacity. -/
theorem c3_counterexample :
    (let s : YFSState :=
      { version := 2, blockSize := 4096, checksumEnabled := true,
        root := .mk { name := "/", modTime := 0, createTime := 0,
                      permissions := 0, crc32 := 0 } [] .nil,
        bitmap := { data := [255], totalBlocks := 8, searchPos := 0, dirty := false },
        blocks := [] }
     allocateBlocks s 1 = (.error .noFreeBlocks, s)) := rfl

/-- C3 (amended): when no free block exists within the current bitmap
capacity, `allocate(1)` fails with the no-free-blocks error and leaves
the state unchanged; the bitmap is not grown and the allocation is not
retried (growth happens only inside `markBlockUsed`, which a failed scan
never reaches). -/
theorem c3_allocate_single_fails (s : YFSState)
    (H : ∀ pos, pos < s.bitmap.totalBlocks → isBlockFree s.bitmap pos = false) :
    allocateBlocks s 1 = (.error .noFreeBlocks, s) := by
  have hscan := scanContig_none s.bitmap 1 s.bitmap.searchPos H s.bitmap.totalBlocks
    (le_refl _) 0
  unfold allocateBlocks
  rw [hscan]
  rfl

/-- Witness for `c3_allocate_single_fails` at a concrete full bitmap. -/
theorem c3_witness :
    allocateBlocks
      { version := 2, blockSize := 4096, checksumEnabled := true,
        root := .mk { name := "/", modTime := 0, createTime := 0,
                      permissions := 0, crc32 := 0 } [] .nil,
        bitmap := { data := [255, 255], totalBlocks := 16, searchPos := 5, dirty := false },
        blocks := [] } 1
    = (.error .noFreeBlocks,
       { version := 2, blockSize := 4096, checksumEnabled := true,
         root := .mk { name := "/", modTime := 0, createTime := 0,
                       permissions := 0, crc32 := 0 } [] .nil,
         bitmap := { data := [255, 255], totalBlocks := 16, searchPos := 5, dirty := false },
         blocks := [] }) :=
  c3_allocate_single_fails _ (by decide)

/-- C7: every successful `allocate(n)` returns exactly `n` pairwise
distinct block IDs, each within `[1, total_blocks]` — on the contiguous
path and on the scattered fall-back alike. -/
theorem c7_allocate_distinct_in_range (s : YFSState) (n : Nat) (ids : List Nat)
    (s' : YFSState) (h : allocateBlocks s n = (.ok ids, s')) :
    ids.length = n ∧ ids.Nodup ∧ ∀ id ∈ ids, 1 ≤ id ∧ id ≤ s.bitmap.totalBlocks := by
  obtain ⟨h1, h2, h3, _⟩ := allocateBlocks_ok s n ids s' h
  exact ⟨h1, h2, fun id hid => ⟨(h3 id hid).1, (h3 id hid).2.1⟩⟩

/-- Witness for `c7_allocate_distinct_in_range` on a fresh filesystem:
`allocate(3)` returns `[1, 2, 3]`. -/
theorem c7_witness :
    [1, 2, 3].length = 3 ∧ [1, 2, 3].Nodup ∧
      ∀ id ∈ [1, 2, 3], 1 ≤ id ∧ id ≤ (initState 0).bitmap.totalBlocks :=
  c7_allocate_distinct_in_range (initState 0) 3 [1, 2, 3]
    (allocateBlocks (initState 0) 3).2 rfl

/-- C8: `delete_directory` fails with the not-empty error on every
directory that contains at least one file or subdirectory (leaving the
state unchanged), and fails on the root directory even when the root is
empty (again leaving the state unchanged). -/
theorem c8_delete_directory_refusals (s : YFSState) (path : String) :
    (∀ dp d, findEntryUnsafe s path = .ok (.dir dp d) →
      d.files.length > 0 ∨ dirLength d.directories > 0 →
      DeleteDirectory s path = (.error (.directoryNotEmpty path), s)) ∧
    (trimSlashes path = "" → s.root.files = [] → s.root.directories = .nil →
      DeleteDirectory s path = (.error .cannotDeleteRoot, s)) := by
  constructor
  · intro dp d hfind hne
    unfold DeleteDirectory
    rw [hfind]
    simp only [hne, if_true]
  · intro htrim hfiles hdirs
    have hfind : findEntryUnsafe s path = .ok (.dir [] s.root) := by
      unfold findEntryUnsafe
      rw [htrim]
      rfl
    have hempty : ¬ (s.root.files.length > 0 ∨ dirLength s.root.directories > 0) := by
      rw [hfiles, hdirs]
      simp [dirLength]
    have hparts : splitOnSlash (trimSlashes path) = [""] := by
      rw [htrim]
      rfl
    unfold DeleteDirectory
    simp only [hfind]
    rw [if_neg hempty]
    simp [hparts]

/-- Witness for `c8_delete_directory_refusals`: the not-empty refusal on a
root holding one subdirectory, and the root refusal on a fresh (empty)
filesystem. -/
theorem c8_witness :
    DeleteDirectory (CreateDirectory (initState 0) "/d" 0).2 "/"
      = (.error (.directoryNotEmpty "/"), (CreateDirectory (initState 0) "/d" 0).2) ∧
    DeleteDirectory (initState 0) "/" = (.error .cannotDeleteRoot, initState 0) := by
  constructor
  · exact (c8_delete_directory_refusals (CreateDirectory (initState 0) "/d" 0).2 "/").1
      [] (CreateDirectory (initState 0) "/d" 0).2.root rfl (by decide)
  · exact (c8_delete_directory_refusals (initState 0) "/").2 rfl rfl rfl

end YFS

namespace YFS

set_option maxRecDepth 100000

/-! ## C4: what `verify_integrity` accepts -/

theorem verifyChainLoop_eq_chainOkB (s : YFSState) :
    ∀ fuel visited current,
      exceptOk (verifyChainLoop s fuel visited current) = chainOkB s fuel visited current := by
  intro fuel
  induction fuel with
  | zero => intro visited current; rfl
  | succ n ih =>
    intro visited current
    by_cases h0 : current = 0
    · simp [verifyChainLoop, chainOkB, h0, exceptOk]
    · by_cases hv : current ∈ visited
      · simp [verifyChainLoop, chainOkB, h0, hv, exceptOk]
      · cases hread : readIndexBlock s current with
        | error e => simp [verifyChainLoop, chainOkB, h0, hv, hread, exceptOk]
        | ok ib =>
          cases hf1 : ib.blockIds.find? (fun id =>
              id == 0 || decide (s.bitmap.totalBlocks % 4294967296 < id)) with
          | some bad =>
            have hbadp := List.find?_some hf1
            have hbadm := List.mem_of_find?_eq_some hf1
            have hall : (ib.blockIds.all fun id =>
                id != 0 && decide (id ≤ s.bitmap.totalBlocks % 4294967296)) = false := by
              rw [List.all_eq_false]
              refine ⟨bad, hbadm, ?_⟩
              simp only [Bool.or_eq_true, beq_iff_eq, decide_eq_true_eq] at hbadp
              simp only [Bool.and_eq_true, bne_iff_ne, decide_eq_true_eq, not_and_or]
              rcases hbadp with hb | hb
              · exact Or.inl (by simp [hb])
              · exact Or.inr (by omega)
            simp [verifyChainLoop, chainOkB, h0, hv, hread, hf1, hall, exceptOk]
          | none =>
            have hall1 : (ib.blockIds.all fun id =>
                id != 0 && decide (id ≤ s.bitmap.totalBlocks % 4294967296)) = true := by
              rw [List.all_eq_true]
              intro id hid
              have := List.find?_eq_none.mp hf1 id hid
              simp only [Bool.or_eq_true, beq_iff_eq, decide_eq_true_eq, not_or] at this
              simp only [Bool.and_eq_true, bne_iff_ne, decide_eq_true_eq]
              exact ⟨this.1, by omega⟩
            cases hf2 : ib.extents.find? (fun e =>
                e.startBlockId == 0 ||
                decide (s.bitmap.totalBlocks % 4294967296 <
                  (e.startBlockId + e.blockCount) % 4294967296)) with
            | some e =>
              have hbadp := List.find?_some hf2
              have hbadm := List.mem_of_find?_eq_some hf2
              have hall : (ib.extents.all fun e =>
                  e.startBlockId != 0 &&
                  decide ((e.startBlockId + e.blockCount) % 4294967296 ≤
                    s.bitmap.totalBlocks % 4294967296)) = false := by
                rw [List.all_eq_false]
                refine ⟨e, hbadm, ?_⟩
                simp only [Bool.or_eq_true, beq_iff_eq, decide_eq_true_eq] at hbadp
                simp only [Bool.and_eq_true, bne_iff_ne, decide_eq_true_eq, not_and_or]
                rcases hbadp with hb | hb
                · exact Or.inl (by simp [hb])
                · exact Or.inr (by omega)
              simp [verifyChainLoop, chainOkB, h0, hv, hread, hf1, hf2, hall1, hall, exceptOk]
            | none =>
              have hall2 : (ib.extents.all fun e =>
                  e.startBlockId != 0 &&
                  decide ((e.startBlockId + e.blockCount) % 4294967296 ≤
                    s.bitmap.totalBlocks % 4294967296)) = true := by
                rw [List.all_eq_true]
                intro e he
                have := List.find?_eq_none.mp hf2 e he
                simp only [Bool.or_eq_true, beq_iff_eq, decide_eq_true_eq, not_or] at this
                simp only [Bool.and_eq_true, bne_iff_ne, decide_eq_true_eq]
                exact ⟨this.1, by omega⟩
              simp [verifyChainLoop, chainOkB, h0, hv, hread, hf1, hf2, hall1, hall2,
                exceptOk]
              exact ih _ _

theorem verifyFileIndexBlocks_eq (s : YFSState) (first : Nat) :
    exceptOk (verifyFileIndexBlocks s first) = fileChainOk s first := by
  by_cases h : first = 0
  · simp [verifyFileIndexBlocks, fileChainOk, h, exceptOk]
  · simp only [verifyFileIndexBlocks, fileChainOk, h, if_neg h]
    have : (first == 0) = false := by simp [h]
    rw [this, Bool.false_or]
    exact verifyChainLoop_eq_chainOkB s chainFuel [] first

theorem verifyFilesLoop_eq (s : YFSState) :
    ∀ l, exceptOk (verifyFilesLoop s l) = filesOkB s l := by
  intro l
  induction l with
  | nil => rfl
  | cons nf rest ih =>
    obtain ⟨name, f⟩ := nf
    by_cases hm : verifyMetadataChecksum s.checksumEnabled f.metadata = true
    · cases hc : verifyFileIndexBlocks s f.firstIndexBlockId with
      | error e =>
        have := verifyFileIndexBlocks_eq s f.firstIndexBlockId
        rw [hc] at this
        simp [verifyFilesLoop, filesOkB, hm, hc, exceptOk, ← this]
      | ok u =>
        have := verifyFileIndexBlocks_eq s f.firstIndexBlockId
        rw [hc] at this
        simp [verifyFilesLoop, filesOkB, hm, hc, exceptOk, ← this]
        exact ih
    · have hm2 : verifyMetadataChecksum s.checksumEnabled f.metadata = false := by
        revert hm; cases verifyMetadataChecksum s.checksumEnabled f.metadata <;> simp
      simp [verifyFilesLoop, filesOkB, hm2, exceptOk]

mutual

theorem verifyDirectoryIntegrity_eq (s : YFSState) :
    ∀ d, exceptOk (verifyDirectoryIntegrity s d) = dirOkB s d
  | .mk md files dirs => by
    by_cases hm : verifyMetadataChecksum s.checksumEnabled md = true
    · cases hf : verifyFilesLoop s files with
      | error e =>
        have := verifyFilesLoop_eq s files
        rw [hf] at this
        simp [verifyDirectoryIntegrity, dirOkB, hm, hf, exceptOk, ← this]
      | ok u =>
        have := verifyFilesLoop_eq s files
        rw [hf] at this
        simp [verifyDirectoryIntegrity, dirOkB, hm, hf, exceptOk, ← this]
        exact verifyDirsLoop_eq s dirs
    · have hm2 : verifyMetadataChecksum s.checksumEnabled md = false := by
        revert hm; cases verifyMetadataChecksum s.checksumEnabled md <;> simp
      simp [verifyDirectoryIntegrity, dirOkB, hm2, exceptOk]

theorem verifyDirsLoop_eq (s : YFSState) :
    ∀ dl, exceptOk (verifyDirsLoop s dl) = dirsOkB s dl
  | .nil => rfl
  | .cons n sub rest => by
    cases hd : verifyDirectoryIntegrity s sub with
    | error e =>
      have := verifyDirectoryIntegrity_eq s sub
      rw [hd] at this
      simp [verifyDirsLoop, dirsOkB, hd, exceptOk, ← this]
    | ok u =>
      have := verifyDirectoryIntegrity_eq s sub
      rw [hd] at this
      simp [verifyDirsLoop, dirsOkB, hd, exceptOk, ← this]
      exact verifyDirsLoop_eq s rest

end

/-- C4 (amended): `verify_integrity` succeeds exactly when every metadata
checksum in the tree verifies and every index chain reachable from a file
entry is fully valid: acyclic, every index block readable with a matching
checksum, every referenced data-block ID non-zero and within
`uint32(total_blocks)`, and every extent non-zero with its end within
`uint32(total_blocks)`.  (Checksum mismatches and cycles alone do not
characterize acceptance: out-of-range references are also rejected.) -/
theorem c4_verify_integrity_characterization (s : YFSState) :
    exceptOk (VerifyIntegrity s) = IntegrityOk s := by
  by_cases hm : verifyMetadataChecksum s.checksumEnabled s.root.metadata = true
  · simp [VerifyIntegrity, IntegrityOk, hm, verifyDirectoryIntegrity_eq s s.root]
  · have hm2 : verifyMetadataChecksum s.checksumEnabled s.root.metadata = false := by
      revert hm; cases verifyMetadataChecksum s.checksumEnabled s.root.metadata <;> simp
    simp [VerifyIntegrity, IntegrityOk, hm2, exceptOk]

/-- C4 counterexample: a state with no metadata or index-block checksum
mismatch (checksums disabled) and no cycle in any reachable chain, which
`verify_integrity` nevertheless rejects (the single index block references
data-block ID 0).  This refutes the claimed "if and only if". -/
theorem c4_counterexample :
    (let cex : YFSState :=
      { version := 2, blockSize := 4096, checksumEnabled := false,
        root := .mk { name := "/", modTime := 0, createTime := 0,
                      permissions := 0, crc32 := 0 }
          [("f", { metadata := { name := "f", modTime := 0, createTime := 0,
                                 permissions := 0, crc32 := 0 },
                   firstIndexBlockId := 1, size := 1,
                   indexBlockCount := 1, dataBlockCount := 1 })] .nil,
        bitmap := { data := [255], totalBlocks := 8, searchPos := 0, dirty := false },
        blocks := [(1, .index { blockIds := [0], extents := [],
                                nextIndexBlockId := 0, dataSize := 0, crc32 := 0 })] }
     NoChecksumMismatch cex = true ∧ NoCycleInChains cex = true ∧
       exceptOk (VerifyIntegrity cex) = false) := by
  refine ⟨?_, ?_, ?_⟩ <;> rfl

end YFS

namespace YFS

set_option maxRecDepth 100000

/-! ## Block-store lemmas -/

theorem storeLookup_insert_self (l : List (Nat × BlockContent)) (id : Nat) (c : BlockContent) :
    storeLookup (storeInsert l id c) id = some c := by
  induction l with
  | nil => simp [storeInsert, storeLookup]
  | cons p rest ih =>
    obtain ⟨i, c0⟩ := p
    by_cases h : i = id
    · subst h; simp [storeInsert, storeLookup]
    · simp [storeInsert, storeLookup, h, ih]

theorem storeLookup_insert_ne (l : List (Nat × BlockContent)) (id id' : Nat) (c : BlockContent)
    (h : id' ≠ id) : storeLookup (storeInsert l id c) id' = storeLookup l id' := by
  have hne : ¬ id = id' := fun he => h he.symm
  induction l with
  | nil =>
    simp only [storeInsert, storeLookup]
    rw [if_neg hne]
  | cons p rest ih =>
    obtain ⟨i, c0⟩ := p
    by_cases hi : i = id
    · subst hi
      simp only [storeInsert, if_pos rfl, storeLookup]
      rw [if_neg hne, if_neg hne]
    · simp only [storeInsert, if_neg hi, storeLookup, ih]

theorem readBlock_congr (s₁ s₂ : YFSState) (x : Nat)
    (hb : s₁.blocks = s₂.blocks) (hs : s₁.blockSize = s₂.blockSize) :
    readBlock s₁ x = readBlock s₂ x := by
  unfold readBlock
  rw [hb, hs]

theorem readIndexBlock_congr (s₁ s₂ : YFSState) (x : Nat)
    (hb : s₁.blocks = s₂.blocks) (hc : s₁.checksumEnabled = s₂.checksumEnabled) :
    readIndexBlock s₁ x = readIndexBlock s₂ x := by
  unfold readIndexBlock
  rw [hb, hc]

/-- Success conditions and effect of `writeBlock`. -/
theorem writeBlock_ok (s s₂ : YFSState) (id : Nat) (data : List Nat)
    (h : writeBlock s id data = .ok s₂) :
    id ≠ 0 ∧ (data.length : Int) ≤ (s.blockSize : Int) - 4 ∧
    s₂ = { s with blocks := storeInsert s.blocks id (.data data) } := by
  unfold writeBlock at h
  by_cases h0 : id = 0
  · rw [if_pos h0] at h; exact absurd h (by simp)
  · rw [if_neg h0] at h
    by_cases hlen : (data.length : Int) > (s.blockSize : Int) - 4
    · rw [if_pos hlen] at h; exact absurd h (by simp)
    · rw [if_neg hlen] at h
      simp only [Except.ok.injEq] at h
      exact ⟨h0, le_of_not_lt hlen, h.symm⟩

/-- The index-block checksum ignores the stored CRC field. -/
theorem indexBlockChecksum_crc_irrelevant (ib : IndexBlock) (x : Nat) :
    indexBlockChecksum { ib with crc32 := x } = indexBlockChecksum ib := rfl

/-- Effect of a successful `writeIndexBlock`, and that reading the block
back succeeds (the CRC written is the one verified). -/
theorem writeIndexBlock_ok (s s₂ : YFSState) (id : Nat) (ib : IndexBlock)
    (h : writeIndexBlock s id ib = .ok s₂) :
    ∃ ibw, ibw.blockIds = ib.blockIds ∧ ibw.extents = ib.extents ∧
      ibw.nextIndexBlockId = ib.nextIndexBlockId ∧
      s₂ = { s with blocks := storeInsert s.blocks id (.index ibw) } ∧
      id ≠ 0 ∧ readIndexBlock s₂ id = .ok ibw := by
  unfold writeIndexBlock at h
  by_cases h0 : id = 0
  · rw [if_pos h0] at h; exact absurd h (by simp)
  · rw [if_neg h0] at h
    set ibw := if s.checksumEnabled = true then { ib with crc32 := indexBlockChecksum ib } else ib
      with hibw
    by_cases hlen : (indexBlockEncodedSize ibw : Int) > (s.blockSize : Int) - 4
    · rw [if_pos hlen] at h; exact absurd h (by simp)
    · rw [if_neg hlen] at h
      simp only [Except.ok.injEq] at h
      have hids : ibw.blockIds = ib.blockIds := by
        rw [hibw]; by_cases hc : s.checksumEnabled = true <;> simp [hc]
      have hext : ibw.extents = ib.extents := by
        rw [hibw]; by_cases hc : s.checksumEnabled = true <;> simp [hc]
      have hnext : ibw.nextIndexBlockId = ib.nextIndexBlockId := by
        rw [hibw]; by_cases hc : s.checksumEnabled = true <;> simp [hc]
      have hcond : (s.checksumEnabled && ibw.crc32 != 0 &&
          ibw.crc32 != indexBlockChecksum ibw) = false := by
        by_cases hc : s.checksumEnabled = true
        · have hw : ibw = { ib with crc32 := indexBlockChecksum ib } := by rw [hibw, if_pos hc]
          rw [hw]
          by_cases hz : indexBlockChecksum ib = 0
          · simp [hz]
          · simp [indexBlockChecksum_crc_irrelevant, hz]
        · have hc2 : s.checksumEnabled = false := by
            revert hc; cases s.checksumEnabled <;> simp
          simp [hc2]
      refine ⟨ibw, hids, hext, hnext, h.symm, h0, ?_⟩
      rw [← h]
      simp [readIndexBlock, h0, storeLookup_insert_self, hcond]

end YFS

namespace YFS

set_option maxRecDepth 100000

/-! ## Frame lemmas for freeing -/

theorem foldl_markBlockFree_sizes (f : Nat → Nat) :
    ∀ (ids : List Nat) (bm : Bitmap),
      (ids.foldl (fun b id => if id ≠ 0 then markBlockFree b (f id) else b) bm).data.length
        = bm.data.length ∧
      (ids.foldl (fun b id => if id ≠ 0 then markBlockFree b (f id) else b) bm).totalBlocks
        = bm.totalBlocks := by
  intro ids
  induction ids with
  | nil => intro bm; exact ⟨rfl, rfl⟩
  | cons x rest ih =>
    intro bm
    by_cases hx : x ≠ 0
    · obtain ⟨m1, m2, _, _, _⟩ := markBlockFree_spec bm (f x)
      have := ih (markBlockFree bm (f x))
      simp only [List.foldl_cons, if_pos hx]
      exact ⟨this.1.trans m1, this.2.trans m2⟩
    · simp only [List.foldl_cons, if_neg hx]
      exact ih bm

theorem freeBlocks_frame (s : YFSState) (ids : List Nat) :
    (freeBlocks s ids).blocks = s.blocks ∧ (freeBlocks s ids).root = s.root ∧
    (freeBlocks s ids).blockSize = s.blockSize ∧
    (freeBlocks s ids).checksumEnabled = s.checksumEnabled ∧
    (freeBlocks s ids).bitmap.data.length = s.bitmap.data.length ∧
    (freeBlocks s ids).bitmap.totalBlocks = s.bitmap.totalBlocks := by
  have h := foldl_markBlockFree_sizes (fun id => id - 1) ids s.bitmap
  exact ⟨rfl, rfl, rfl, rfl, h.1, h.2⟩

theorem extentFold_frame (s : YFSState) (exts : List Extent) :
    ∀ s₀ : YFSState,
      (exts.foldl (fun st e =>
        freeBlocks st ((List.range e.blockCount).map fun i =>
          (e.startBlockId + i) % 4294967296)) s₀).blocks = s₀.blocks ∧
      (exts.foldl (fun st e =>
        freeBlocks st ((List.range e.blockCount).map fun i =>
          (e.startBlockId + i) % 4294967296)) s₀).root = s₀.root ∧
      (exts.foldl (fun st e =>
        freeBlocks st ((List.range e.blockCount).map fun i =>
          (e.startBlockId + i) % 4294967296)) s₀).blockSize = s₀.blockSize ∧
      (exts.foldl (fun st e =>
        freeBlocks st ((List.range e.blockCount).map fun i =>
          (e.startBlockId + i) % 4294967296)) s₀).checksumEnabled = s₀.checksumEnabled ∧
      (exts.foldl (fun st e =>
        freeBlocks st ((List.range e.blockCount).map fun i =>
          (e.startBlockId + i) % 4294967296)) s₀).bitmap.data.length
        = s₀.bitmap.data.length ∧
      (exts.foldl (fun st e =>
        freeBlocks st ((List.range e.blockCount).map fun i =>
          (e.startBlockId + i) % 4294967296)) s₀).bitmap.totalBlocks
        = s₀.bitmap.totalBlocks := by
  induction exts with
  | nil => intro s₀; exact ⟨rfl, rfl, rfl, rfl, rfl, rfl⟩
  | cons e rest ih =>
    intro s₀
    obtain ⟨f1, f2, f3, f4, f5, f6⟩ := freeBlocks_frame s₀
      ((List.range e.blockCount).map fun i => (e.startBlockId + i) % 4294967296)
    obtain ⟨g1, g2, g3, g4, g5, g6⟩ := ih (freeBlocks s₀
      ((List.range e.blockCount).map fun i => (e.startBlockId + i) % 4294967296))
    simp only [List.foldl_cons]
    exact ⟨g1.trans f1, g2.trans f2, g3.trans f3, g4.trans f4, g5.trans f5, g6.trans f6⟩

theorem freeFileLoop_frame :
    ∀ (fuel : Nat) (s : YFSState) (cur : Nat),
      (freeFileLoop fuel s cur).2.blocks = s.blocks ∧
      (freeFileLoop fuel s cur).2.root = s.root ∧
      (freeFileLoop fuel s cur).2.blockSize = s.blockSize ∧
      (freeFileLoop fuel s cur).2.checksumEnabled = s.checksumEnabled ∧
      (freeFileLoop fuel s cur).2.bitmap.data.length = s.bitmap.data.length ∧
      (freeFileLoop fuel s cur).2.bitmap.totalBlocks = s.bitmap.totalBlocks := by
  intro fuel
  induction fuel with
  | zero => intro s cur; exact ⟨rfl, rfl, rfl, rfl, rfl, rfl⟩
  | succ n ih =>
    intro s cur
    by_cases h0 : cur = 0
    · simp [freeFileLoop, h0]
    · cases hread : readIndexBlock s cur with
      | error e =>
        simp [freeFileLoop, h0, hread]
      | ok ib =>
        simp only [freeFileLoop, if_neg h0, hread]
        obtain ⟨a1, a2, a3, a4, a5, a6⟩ := freeBlocks_frame s ib.blockIds
        obtain ⟨b1, b2, b3, b4, b5, b6⟩ := extentFold_frame s ib.extents
          (freeBlocks s ib.blockIds)
        obtain ⟨c1, c2, c3, c4, c5, c6⟩ := freeBlocks_frame
          (ib.extents.foldl (fun st e =>
            freeBlocks st ((List.range e.blockCount).map fun i =>
              (e.startBlockId + i) % 4294967296)) (freeBlocks s ib.blockIds)) [cur]
        obtain ⟨d1, d2, d3, d4, d5, d6⟩ := ih (freeBlocks
          (ib.extents.foldl (fun st e =>
            freeBlocks st ((List.range e.blockCount).map fun i =>
              (e.startBlockId + i) % 4294967296)) (freeBlocks s ib.blockIds)) [cur])
          ib.nextIndexBlockId
        exact ⟨d1.trans (c1.trans (b1.trans a1)), d2.trans (c2.trans (b2.trans a2)),
          d3.trans (c3.trans (b3.trans a3)), d4.trans (c4.trans (b4.trans a4)),
          d5.trans (c5.trans (b5.trans a5)), d6.trans (c6.trans (b6.trans a6))⟩

end YFS

namespace YFS

set_option maxRecDepth 100000

theorem readBlock_of_lookup (s : YFSState) (d : Nat) (data : List Nat)
    (h0 : d ≠ 0) (hl : storeLookup s.blocks d = some (.data data))
    (hlen : (data.length : Int) ≤ (s.blockSize : Int) - 4) :
    readBlock s d = .ok data := by
  unfold readBlock
  rw [if_neg h0]
  simp [hl, not_lt.mpr hlen]

/-- A successful `createIndexBlocks` on a single data block builds exactly
one index block naming that block, readable back, freshly allocated. -/
theorem createIndexBlocks_single (s : YFSState) (d idx : Nat) (s' : YFSState)
    (h : createIndexBlocks s [d] = (.ok idx, s')) :
    ∃ ibw, readIndexBlock s' idx = .ok ibw ∧ ibw.blockIds = [d] ∧ ibw.extents = [] ∧
      ibw.nextIndexBlockId = 0 ∧
      s'.blocks = storeInsert s.blocks idx (.index ibw) ∧
      s'.root = s.root ∧ s'.blockSize = s.blockSize ∧
      s'.checksumEnabled = s.checksumEnabled ∧
      idx ≠ 0 ∧ isBlockFree s.bitmap (idx - 1) = true := by
  unfold createIndexBlocks createIndexLoop at h
  simp only [List.isEmpty_cons, Bool.false_eq_true, if_false, List.length_cons,
    List.length_nil, Nat.zero_add] at h
  rcases halloc : allocateBlocks s 1 with ⟨ra, sB⟩
  rw [halloc] at h
  cases ra with
  | error e => simp at h
  | ok ids =>
    obtain ⟨hlen1, _, hids, _, _, _, hblocks, hroot, hbsz, hce⟩ :=
      allocateBlocks_ok s 1 ids sB halloc
    obtain ⟨i, hi⟩ : ∃ i, ids = [i] := by
      cases ids with
      | nil => simp at hlen1
      | cons a b =>
        cases b with
        | nil => exact ⟨a, rfl⟩
        | cons c dd => simp at hlen1
    subst hi
    obtain ⟨hi1, hile, hifree, _⟩ := hids i (by simp)
    simp only [List.headD_cons] at h
    cases hwib : writeIndexBlock sB i
        { blockIds := [d].take 1000, extents := [],
          nextIndexBlockId := 0, dataSize := ([d].take 1000).length * s.blockSize,
          crc32 := 0 } with
    | error e =>
      rw [hwib] at h
      simp at h
    | ok sC =>
      rw [hwib] at h
      obtain ⟨ibw, wids, wext, wnext, wstate, wi0, wread⟩ :=
        writeIndexBlock_ok sB sC i _ hwib
      have hloop0 : createIndexLoop 0 sC ([d].drop 1000) ([] ++ [i]) = (.ok [i], sC) := rfl
      have hlink : linkIndexLoop [i] sC = (.ok (), sC) := rfl
      simp only [hloop0, hlink, List.headD_cons, Prod.mk.injEq, Except.ok.injEq] at h
      obtain ⟨hidx, hs'⟩ := h
      subst hidx
      subst hs'
      refine ⟨ibw, wread, by simpa using wids, by simpa using wext,
        by simpa using wnext, ?_, ?_, ?_, ?_, wi0, ?_⟩
      · rw [wstate, hblocks]
      · rw [wstate]
        show sB.root = s.root
        exact hroot
      · rw [wstate]
        show sB.blockSize = s.blockSize
        exact hbsz
      · rw [wstate]
        show sB.checksumEnabled = s.checksumEnabled
        exact hce
      · exact hifree

end YFS

namespace YFS

set_option maxRecDepth 100000

/-- One-step unfolding of `readFileLoop` at a successor fuel value (kept
as a lemma so that rewriting never unfolds into literal fuel values). -/
theorem readFileLoop_succ (s : YFSState) (fs : Int) (fuel cur : Nat) (br : Int)
    (acc : List Nat) :
    readFileLoop s fs (fuel + 1) cur br acc =
      if cur = 0 ∨ br ≥ fs then .ok acc
      else
        match readIndexBlock s cur with
        | .error e => .error e
        | .ok ib =>
          match readDataBlocksLoop s fs ib.blockIds br acc with
          | .error e => .error e
          | .ok res => readFileLoop s fs fuel ib.nextIndexBlockId res.1 res.2 := by
  simp only [readFileLoop]

theorem readFileLoop_zero_cur (s : YFSState) (fs : Int) (fuel : Nat) (br : Int)
    (acc : List Nat) :
    readFileLoop s fs (fuel + 1) 0 br acc = .ok acc := by
  rw [readFileLoop_succ, if_pos (Or.inl rfl)]

/-- Reading back a one-index-block, one-data-block chain returns exactly
the stored payload. -/
theorem readFileFromBlocks_single (s : YFSState) (i d : Nat) (data : List Nat)
    (ib : IndexBlock) (hi : i ≠ 0)
    (hread : readIndexBlock s i = .ok ib)
    (hids : ib.blockIds = [d])
    (hnext : ib.nextIndexBlockId = 0)
    (hreadd : readBlock s d = .ok data)
    (hpos : 0 < data.length) :
    readFileFromBlocks s i (data.length : Int) = .ok data := by
  have hposI : (0 : Int) < (data.length : Int) := by exact_mod_cast hpos
  have hnl : ¬ ((0 : Int) ≥ (data.length : Int)) := not_le.mpr hposI
  have hsz : ¬ ((data.length : Int) = 0) := by omega
  have hinner : readDataBlocksLoop s (data.length : Int) [d] 0 []
      = .ok (0 + min (data.length : Int) ((data.length : Int) - 0),
             [] ++ data.take (min (data.length : Int) ((data.length : Int) - 0)).toNat) := by
    simp only [readDataBlocksLoop, hreadd]
    rw [if_neg hnl]
  have htake : (0 + min (data.length : Int) ((data.length : Int) - 0),
      [] ++ data.take (min (data.length : Int) ((data.length : Int) - 0)).toNat)
      = ((data.length : Int), data) := by
    rw [Int.sub_zero, min_self, Int.zero_add, Int.toNat_natCast, List.take_length,
      List.nil_append]
  unfold readFileFromBlocks
  rw [if_neg (by push_neg; exact ⟨hi, hsz⟩)]
  have hcf : chainFuel = 4294967295 + 1 := rfl
  rw [hcf, readFileLoop_succ, if_neg (by push_neg; exact ⟨hi, hposI⟩), hread]
  show (match readDataBlocksLoop s (data.length : Int) ib.blockIds 0 [] with
    | .error e => .error e
    | .ok res => readFileLoop s (data.length : Int) 4294967295 ib.nextIndexBlockId
        res.1 res.2) = Except.ok data
  rw [hids, hinner, htake]
  show readFileLoop s (data.length : Int) 4294967295 ib.nextIndexBlockId
      (data.length : Int) data = Except.ok data
  rw [hnext]
  have h2 : (4294967295 : Nat) = 4294967294 + 1 := rfl
  rw [h2, readFileLoop_zero_cur]

end YFS

namespace YFS

set_option maxRecDepth 100000

/-- A successful `writeFileToBlocks` with a non-empty payload always uses
exactly one data block and one index block (the slice loop cuts the
payload in `blockSize` chunks while `writeBlock` refuses anything longer
than `blockSize - 4`, so success forces the whole payload below
`blockSize - 4`), and the chain reads back. -/
theorem writeFileToBlocks_ok_nonempty (s : YFSState) (data : List Nat)
    (existing head : Nat) (s₁ : YFSState) (hne : ¬ data.length = 0)
    (h : writeFileToBlocks s data existing = (.ok head, s₁)) :
    ∃ d i ib,
      head = i ∧ i ≠ 0 ∧ d ≠ 0 ∧
      readIndexBlock s₁ i = .ok ib ∧ ib.blockIds = [d] ∧ ib.extents = [] ∧
      ib.nextIndexBlockId = 0 ∧ readBlock s₁ d = .ok data ∧
      s₁.root = s.root ∧ s₁.blockSize = s.blockSize ∧
      s₁.checksumEnabled = s.checksumEnabled ∧
      (data.length : Int) ≤ (s.blockSize : Int) - 4 := by
  unfold writeFileToBlocks at h
  rw [if_neg hne] at h
  by_cases hbs : s.blockSize = 0
  · rw [if_pos hbs] at h
    exact absurd (congrArg Prod.fst h) (by simp)
  rw [if_neg hbs] at h
  have hbs1 : 0 < s.blockSize := Nat.pos_of_ne_zero hbs
  have hlen1 : 1 ≤ data.length := Nat.one_le_iff_ne_zero.mpr hne
  dsimp only at h
  split at h
  · exact absurd (congrArg Prod.fst h) (by simp)
  next dataBlocks sA halloc =>
    obtain ⟨hdlen, hdnodup, hdprops, hdtb, hdbl, hdmono, hdblocks, hdroot, hdbsz, hdce⟩ :=
      allocateBlocks_ok s _ dataBlocks sA halloc
    split at h
    · exact absurd (congrArg Prod.fst h) (by simp)
    next s₂ hwd =>
      have hbn : (data.length + s.blockSize - 1) / s.blockSize = 1 := by
        by_contra hbn
        have h1le : 1 ≤ (data.length + s.blockSize - 1) / s.blockSize := by
          rw [Nat.le_div_iff_mul_le hbs1]
          omega
        have hge2 : 2 ≤ (data.length + s.blockSize - 1) / s.blockSize := by omega
        have hlenge : s.blockSize + 1 ≤ data.length := by
          have := (Nat.le_div_iff_mul_le hbs1).mp hge2
          omega
        obtain ⟨d0, ds, hds⟩ : ∃ d0 ds, dataBlocks = d0 :: ds := by
          cases dataBlocks with
          | nil => rw [← hdlen] at hge2; simp at hge2
          | cons a b => exact ⟨a, b, rfl⟩
        rw [hds] at hwd
        simp only [writeDataLoop, Nat.zero_mul, List.drop_zero, Nat.zero_add,
          Nat.sub_zero] at hwd
        rcases hwb : writeBlock sA d0 (data.take (min sA.blockSize data.length))
          with _ | sB
        · rw [hwb] at hwd; simp at hwd
        · obtain ⟨_, hwlen, _⟩ := writeBlock_ok sA sB d0 _ hwb
          rw [List.length_take] at hwlen
          rw [hdbsz] at hwlen
          have hm : min (min s.blockSize data.length) data.length = s.blockSize := by
            omega
          rw [hm] at hwlen
          omega
      obtain ⟨d, hd⟩ : ∃ d, dataBlocks = [d] := by
        rw [hbn] at hdlen
        cases dataBlocks with
        | nil => simp at hdlen
        | cons a b =>
          cases b with
          | nil => exact ⟨a, rfl⟩
          | cons c e => simp at hdlen
      subst hd
      simp only [writeDataLoop, Nat.zero_mul, List.drop_zero, Nat.zero_add,
        Nat.sub_zero] at hwd
      have hlenle : data.length ≤ s.blockSize := by
        by_contra hgt
        push_neg at hgt
        have h2 : 2 ≤ (data.length + s.blockSize - 1) / s.blockSize := by
          rw [Nat.le_div_iff_mul_le hbs1]
          omega
        omega
      have hmin : min sA.blockSize data.length = data.length := by
        rw [hdbsz]
        omega
      rw [hmin, List.take_length] at hwd
      rcases hwb : writeBlock sA d data with _ | sB
      · rw [hwb] at hwd; simp at hwd
      · rw [hwb] at hwd
        simp only [writeDataLoop, Prod.mk.injEq] at hwd
        have hs₂ : sB = s₂ := hwd.2
        subst hs₂
        obtain ⟨hd0, hdlenle, hsB⟩ := writeBlock_ok sA sB d data hwb
        have hsBbs : sB.blockSize = sA.blockSize := by rw [hsB]
        have hsBroot : sB.root = sA.root := by rw [hsB]
        have hsBce : sB.checksumEnabled = sA.checksumEnabled := by rw [hsB]
        have hsBbm : sB.bitmap = sA.bitmap := by rw [hsB]
        have hsBblocks : sB.blocks = storeInsert sA.blocks d (.data data) := by rw [hsB]
        split at h
        · exact absurd (congrArg Prod.fst h) (by simp)
        next idx s₃ hcib =>
          obtain ⟨ibw, wread, wids, wext, wnext, wblocks3, wroot3, wbsz3, wce3,
            widx0, widxfree⟩ := createIndexBlocks_single sB d idx s₃ hcib
          have hdfalse : isBlockFree sA.bitmap (d - 1) = false :=
            (hdprops d (by simp)).2.2.2
          have hdne : d ≠ idx := by
            intro he
            rw [hsBbm] at widxfree
            rw [he] at hdfalse
            rw [widxfree] at hdfalse
            simp at hdfalse
          have hfst := congrArg Prod.fst h
          have hsnd := congrArg Prod.snd h
          simp only [Except.ok.injEq] at hfst
          simp only at hsnd
          have hstate : s₁ =
              if existing ≠ 0 then (freeFileBlocks s₃ existing).2 else s₃ := hsnd.symm
          have hfr : s₁.blocks = s₃.blocks ∧ s₁.root = s₃.root ∧
              s₁.blockSize = s₃.blockSize ∧ s₁.checksumEnabled = s₃.checksumEnabled := by
            rw [hstate]
            by_cases hex : existing ≠ 0
            · rw [if_pos hex]
              obtain ⟨a, b, c, dd, _, _⟩ := freeFileLoop_frame chainFuel s₃ existing
              exact ⟨a, b, c, dd⟩
            · rw [if_neg hex]
              exact ⟨rfl, rfl, rfl, rfl⟩
          have hlenfinal : (data.length : Int) ≤ (s.blockSize : Int) - 4 := by
            rw [hdbsz] at hdlenle
            exact hdlenle
          refine ⟨d, idx, ibw, hfst.symm, widx0, hd0, ?_, wids, wext, wnext, ?_, ?_, ?_, ?_,
            hlenfinal⟩
          · rw [readIndexBlock_congr s₁ s₃ idx hfr.1 hfr.2.2.2]
            exact wread
          · apply readBlock_of_lookup s₁ d data hd0
            · rw [hfr.1, wblocks3, storeLookup_insert_ne _ _ _ _ hdne, hsBblocks,
                storeLookup_insert_self]
            · rw [hfr.2.2.1, wbsz3, hsBbs, hdbsz]
              exact hlenfinal
          · rw [hfr.2.1, wroot3, hsBroot, hdroot]
          · rw [hfr.2.2.1, wbsz3, hsBbs, hdbsz]
          · rw [hfr.2.2.2, wce3, hsBce, hdce]

end YFS

namespace YFS

set_option maxRecDepth 100000

/-! ## Chain data-block counting and the per-block capacity boundary -/

/-- One-step unfolding of `chainDataCountLoop` at a successor fuel value. -/
theorem chainDataCountLoop_succ (s : YFSState) (fuel cur acc : Nat) :
    chainDataCountLoop s (fuel + 1) cur acc =
      if cur = 0 then some acc
      else
        match readIndexBlock s cur with
        | .error _ => none
        | .ok ib =>
          chainDataCountLoop s fuel ib.nextIndexBlockId
            (acc + ib.blockIds.length + ib.extents.foldl (fun a e => a + e.blockCount) 0) := by
  simp only [chainDataCountLoop]

/-- A one-node chain whose index block names one direct data block and has
no extents yields a data-block count of exactly one. -/
theorem chainDataCount_single (s : YFSState) (i : Nat) (ib : IndexBlock)
    (hi : i ≠ 0) (hread : readIndexBlock s i = .ok ib) (hlen : ib.blockIds.length = 1)
    (hext : ib.extents = []) (hnext : ib.nextIndexBlockId = 0) :
    chainDataCount s i = some 1 := by
  unfold chainDataCount
  have hcf : chainFuel = 4294967295 + 1 := rfl
  rw [hcf, chainDataCountLoop_succ, if_neg hi, hread]
  show chainDataCountLoop s 4294967295 ib.nextIndexBlockId
      (0 + ib.blockIds.length + ib.extents.foldl (fun a e => a + e.blockCount) 0) = some 1
  rw [hnext, hlen, hext]
  show chainDataCountLoop s 4294967295 0 1 = some 1
  have h2 : (4294967295 : Nat) = 4294967294 + 1 := rfl
  rw [h2, chainDataCountLoop_succ, if_pos rfl]

/-- C2: a payload of exactly `blockSize - 4` bytes that is successfully
written occupies exactly one data block; but a payload of `blockSize - 3`
bytes never succeeds: `writeFileToBlocks` slices the payload in chunks of
a full `blockSize` bytes, so the single chunk of `blockSize - 3` bytes is
rejected by `writeBlock`'s `blockSize - 4` capacity check.  The claimed
"two data blocks" behaviour does not exist in the code. -/
theorem c2_per_block_capacity (s : YFSState) (data : List Nat) (existing : Nat) :
    (data.length = s.blockSize - 4 → data.length ≠ 0 →
      ∀ head s₁, writeFileToBlocks s data existing = (.ok head, s₁) →
        chainDataCount s₁ head = some 1) ∧
    (data.length = s.blockSize - 3 → data.length ≠ 0 →
      exceptOk (writeFileToBlocks s data existing).1 = false) := by
  constructor
  · intro _ hne head s₁ h
    obtain ⟨d, i, ib, hhead, hi0, _, hrib, hbids, hbext, hbnext, _, _, _, _, _⟩ :=
      writeFileToBlocks_ok_nonempty s data existing head s₁ hne h
    rw [hhead]
    exact chainDataCount_single s₁ i ib hi0 hrib (by rw [hbids]; rfl) hbext hbnext
  · intro hlen hne
    have hlp : 0 < data.length := Nat.pos_of_ne_zero hne
    rcases hres : writeFileToBlocks s data existing with ⟨r, s₁⟩
    cases r with
    | error e => rfl
    | ok head =>
      exfalso
      obtain ⟨_, _, _, _, _, _, _, _, _, _, _, _, _, _, hlen4⟩ :=
        writeFileToBlocks_ok_nonempty s data existing head s₁ hne hres
      rw [hlen] at hlp hlen4
      omega

/-- A minimal concrete state: block size 16, checksums disabled, empty
root, an 8-block bitmap, an empty block store. -/
def tinyState : YFSState :=
  { version := 2, blockSize := 16, checksumEnabled := false,
    root := .mk { name := "/", modTime := 0, createTime := 0, permissions := 0, crc32 := 0 }
      [] .nil,
    bitmap := { data := [0], totalBlocks := 8, searchPos := 0, dirty := false },
    blocks := [] }

theorem c2_witness :
    chainDataCount (writeFileToBlocks tinyState (List.replicate 12 65) 0).2 2 = some 1 ∧
    exceptOk (writeFileToBlocks tinyState (List.replicate 13 65) 0).1 = false :=
  ⟨(c2_per_block_capacity tinyState (List.replicate 12 65) 0).1 (by decide) (by decide)
      2 (writeFileToBlocks tinyState (List.replicate 12 65) 0).2 rfl,
   (c2_per_block_capacity tinyState (List.replicate 13 65) 0).2 (by decide) (by decide)⟩

/-- C6: after a successful `WriteFile` the stored entry's
`dataBlockCount` is `0` even though walking its chain yields one data
block — `WriteFile` never sets `DataBlockCount` (nor `IndexBlockCount`),
so the claimed invariant fails for every file with data. -/
theorem c6_data_block_count_zero :
    exceptOk (WriteFile tinyState "/a" [65, 66] 0).1 = true ∧
    ((fileAt (WriteFile tinyState "/a" [65, 66] 0).2 "/a").map fun f =>
      (f.dataBlockCount, f.firstIndexBlockId,
        chainDataCount (WriteFile tinyState "/a" [65, 66] 0).2 f.firstIndexBlockId))
      = some (0, 2, some 1) := by
  exact ⟨rfl, rfl⟩

/-- C5 counterexample: `write_file("/", [])` does not succeed — the root
resolves to a directory and `WriteFile` refuses directory targets, so the
claim's "for every path p" fails at `p = "/"`. -/
theorem c5_counterexample :
    exceptOk (WriteFile tinyState "/" [] 0).1 = false := rfl

end YFS

namespace YFS

set_option maxRecDepth 40000

/-! ## Path-string lemmas: splitting, joining and trimming -/

/-- Rebuilding a string from its characters is the identity. -/
theorem string_mk_data (s : String) : String.mk s.data = s := by
  cases s
  rfl

/-- A string other than `""` has a nonempty character list. -/
theorem data_ne_nil_of_ne_empty (s : String) (h : s ≠ "") : s.data ≠ [] := by
  intro hd
  apply h
  rw [← string_mk_data s, hd]

/-- `splitSlashChars` never returns the empty list. -/
theorem splitSlashChars_ne_nil : ∀ (cs acc : List Char), splitSlashChars cs acc ≠ [] := by
  intro cs
  induction cs with
  | nil => intro acc; simp [splitSlashChars]
  | cons c rest ih =>
    intro acc
    by_cases hc : c = '/'
    · simp [splitSlashChars, hc]
    · simp only [splitSlashChars, if_neg hc]
      exact ih (c :: acc)

/-- `splitOnSlash` never returns the empty list. -/
theorem splitOnSlash_ne_nil (s : String) : splitOnSlash s ≠ [] :=
  splitSlashChars_ne_nil s.data []

/-- Pieces produced by `splitSlashChars` contain no `/` character
(provided the accumulator does not). -/
theorem splitSlashChars_no_slash :
    ∀ (cs acc : List Char), (∀ ch ∈ acc, ch ≠ '/') →
      ∀ p ∈ splitSlashChars cs acc, ∀ ch ∈ p.data, ch ≠ '/' := by
  intro cs
  induction cs with
  | nil =>
    intro acc hacc p hp ch hch
    simp only [splitSlashChars, List.mem_singleton] at hp
    subst hp
    simp only [List.mem_reverse] at hch
    exact hacc ch hch
  | cons c rest ih =>
    intro acc hacc p hp ch hch
    by_cases hc : c = '/'
    · simp only [splitSlashChars, if_pos hc, List.mem_cons] at hp
      rcases hp with hp | hp
      · subst hp
        simp only [List.mem_reverse] at hch
        exact hacc ch hch
      · exact ih [] (by simp) p hp ch hch
    · simp only [splitSlashChars, if_neg hc] at hp
      refine ih (c :: acc) ?_ p hp ch hch
      intro x hx
      rcases List.mem_cons.mp hx with hx | hx
      · rw [hx]; exact hc
      · exact hacc x hx

/-- Pieces of `splitOnSlash` contain no `/` character. -/
theorem splitOnSlash_no_slash (s : String) :
    ∀ p ∈ splitOnSlash s, ∀ ch ∈ p.data, ch ≠ '/' :=
  splitSlashChars_no_slash s.data [] (by simp)

/-- Consuming a slash-free chunk just accumulates it in reverse. -/
theorem splitSlashChars_chunk :
    ∀ (xs rest acc : List Char), (∀ ch ∈ xs, ch ≠ '/') →
      splitSlashChars (xs ++ rest) acc = splitSlashChars rest (xs.reverse ++ acc) := by
  intro xs
  induction xs with
  | nil => intro rest acc _; simp
  | cons x xs' ih =>
    intro rest acc hx
    have hx0 : x ≠ '/' := hx x (by simp)
    simp only [List.cons_append, splitSlashChars, if_neg hx0]
    show splitSlashChars (xs' ++ rest) (x :: acc)
      = splitSlashChars rest ((x :: xs').reverse ++ acc)
    rw [ih rest (x :: acc) (fun ch hch => hx ch (by simp [hch]))]
    simp [List.append_assoc]

/-- `splitOnSlash` is a left inverse of `joinSlash` on nonempty lists of
nonempty slash-free pieces. -/
theorem splitOnSlash_joinSlash :
    ∀ (l : List String), l ≠ [] → (∀ p ∈ l, ∀ ch ∈ p.data, ch ≠ '/') →
      splitOnSlash (joinSlash l) = l := by
  intro l
  induction l with
  | nil => intro h; exact absurd rfl h
  | cons x rest ih =>
    intro _ hns
    cases rest with
    | nil =>
      show splitSlashChars x.data [] = [x]
      rw [show x.data = x.data ++ [] by simp,
        splitSlashChars_chunk x.data [] [] (hns x (by simp))]
      simp only [splitSlashChars]
      rw [List.append_nil, List.reverse_reverse, string_mk_data]
    | cons y rest' =>
      show splitOnSlash (x ++ "/" ++ joinSlash (y :: rest')) = x :: y :: rest'
      have hdata : (x ++ "/" ++ joinSlash (y :: rest')).data
          = x.data ++ '/' :: (joinSlash (y :: rest')).data := by
        simp [String.data_append]
      show splitSlashChars (x ++ "/" ++ joinSlash (y :: rest')).data [] = x :: y :: rest'
      rw [hdata,
        splitSlashChars_chunk x.data _ [] (hns x (by simp))]
      rw [List.append_nil]
      show String.mk x.data.reverse.reverse
          :: splitSlashChars (joinSlash (y :: rest')).data [] = x :: y :: rest'
      rw [List.reverse_reverse, string_mk_data]
      have := ih (by simp) (fun p hp => hns p (by simp [hp]))
      exact congrArg (fun z => x :: z) this

/-- `trimSlashes` is the identity on a string that neither starts nor
ends with `/`. -/
theorem trimSlashes_eq_self (s : String)
    (hh : ∀ c, s.data.head? = some c → c ≠ '/')
    (hl : ∀ c, s.data.getLast? = some c → c ≠ '/') :
    trimSlashes s = s := by
  unfold trimSlashes
  have h1 : s.data.dropWhile (fun c => c = '/') = s.data := by
    cases hd : s.data with
    | nil => simp
    | cons c t =>
      have hc : c ≠ '/' := hh c (by rw [hd]; rfl)
      simp [List.dropWhile_cons, hc]
  rw [h1]
  have h2 : s.data.reverse.dropWhile (fun c => c = '/') = s.data.reverse := by
    cases hr : s.data.reverse with
    | nil => simp
    | cons c t =>
      have hc : c ≠ '/' := by
        apply hl
        rw [← List.head?_reverse, hr]
        rfl
      simp [List.dropWhile_cons, hc]
  rw [h2, List.reverse_reverse, string_mk_data]

/-- The character list of a join of nonempty pieces is nonempty. -/
theorem joinSlash_data_ne_nil :
    ∀ (l : List String), l ≠ [] → (∀ p ∈ l, p ≠ "") → (joinSlash l).data ≠ [] := by
  intro l
  induction l with
  | nil => intro h; exact absurd rfl h
  | cons x rest _ =>
    intro _ hne
    cases rest with
    | nil => exact data_ne_nil_of_ne_empty x (hne x (by simp))
    | cons y rest' =>
      show (x ++ "/" ++ joinSlash (y :: rest')).data ≠ []
      have hx := data_ne_nil_of_ne_empty x (hne x (by simp))
      simp only [String.data_append]
      intro hcontra
      rcases List.append_eq_nil.mp hcontra with ⟨h1, _⟩
      exact hx (List.append_eq_nil.mp h1).1

/-- The first character of a join of nonempty slash-free pieces is not `/`. -/
theorem joinSlash_head_no_slash :
    ∀ (l : List String), (∀ p ∈ l, p ≠ "") → (∀ p ∈ l, ∀ ch ∈ p.data, ch ≠ '/') →
      ∀ c, (joinSlash l).data.head? = some c → c ≠ '/' := by
  intro l
  cases l with
  | nil => intro _ _ c hc; simp only [joinSlash] at hc; simp at hc
  | cons x rest =>
    intro hne hns c hc
    have hx := data_ne_nil_of_ne_empty x (hne x (by simp))
    cases rest with
    | nil =>
      apply hns x (by simp)
      exact List.mem_of_mem_head? hc
    | cons y rest' =>
      apply hns x (by simp)
      have hd : (joinSlash (x :: y :: rest')).data
          = x.data ++ ('/' :: (joinSlash (y :: rest')).data) := by
        show (x ++ "/" ++ joinSlash (y :: rest')).data = _
        simp [String.data_append]
      rw [hd] at hc
      cases hxd : x.data with
      | nil => exact absurd hxd hx
      | cons a t =>
        rw [hxd] at hc
        simp only [List.cons_append, List.head?_cons, Option.some.injEq] at hc
        rw [← hc]
        simp

/-- Appending to a nonempty tail keeps the tail's last element. -/
theorem getLast_append_cons : ∀ (l : List Char) (a : Char) (t : List Char),
    (l ++ a :: t).getLast? = (a :: t).getLast? := by
  intro l
  induction l with
  | nil => intro a t; rfl
  | cons b u ih =>
    intro a t
    cases u with
    | nil => exact List.getLast?_cons_cons
    | cons c v =>
      rw [List.cons_append, List.cons_append, List.getLast?_cons_cons]
      have := ih a t
      rw [List.cons_append] at this
      exact this

/-- The last character of a join of nonempty slash-free pieces is not `/`. -/
theorem joinSlash_last_no_slash :
    ∀ (l : List String), (∀ p ∈ l, p ≠ "") → (∀ p ∈ l, ∀ ch ∈ p.data, ch ≠ '/') →
      ∀ c, (joinSlash l).data.getLast? = some c → c ≠ '/' := by
  intro l
  induction l with
  | nil => intro _ _ c hc; simp only [joinSlash] at hc; simp at hc
  | cons x rest ih =>
    intro hne hns c hc
    cases rest with
    | nil =>
      apply hns x (by simp)
      exact List.mem_of_mem_getLast? hc
    | cons y rest' =>
      have hd : (joinSlash (x :: y :: rest')).data
          = x.data ++ ('/' :: (joinSlash (y :: rest')).data) := by
        show (x ++ "/" ++ joinSlash (y :: rest')).data = _
        simp [String.data_append]
      rw [hd, getLast_append_cons] at hc
      have hj := joinSlash_data_ne_nil (y :: rest') (by simp)
        (fun p hp => hne p (by simp [hp]))
      cases hjd : (joinSlash (y :: rest')).data with
      | nil => exact absurd hjd hj
      | cons b u =>
        rw [hjd, List.getLast?_cons_cons] at hc
        apply ih (fun p hp => hne p (by simp [hp]))
          (fun p hp => hns p (by simp [hp])) c
        rw [hjd]
        exact hc

/-- `trimSlashes` leaves a join of nonempty slash-free pieces unchanged. -/
theorem trimSlashes_joinSlash (l : List String) (hl : l ≠ [])
    (hne : ∀ p ∈ l, p ≠ "") (hns : ∀ p ∈ l, ∀ ch ∈ p.data, ch ≠ '/') :
    trimSlashes (joinSlash l) = joinSlash l :=
  trimSlashes_eq_self _ (joinSlash_head_no_slash l hne hns)
    (joinSlash_last_no_slash l hne hns)

/-- A join of nonempty pieces is not the empty string. -/
theorem joinSlash_ne_empty (l : List String) (hl : l ≠ [])
    (hne : ∀ p ∈ l, p ≠ "") : joinSlash l ≠ "" := by
  intro h
  have := joinSlash_data_ne_nil l hl hne
  rw [h] at this
  exact this rfl

end YFS

namespace YFS

set_option maxRecDepth 40000

/-! ## Directory-tree lemmas: projections, map operations, walks -/

theorem files_withFiles (d : DirectoryEntry) (fs : List (String × FileEntry)) :
    (d.withFiles fs).files = fs := by
  cases d; rfl

theorem directories_withFiles (d : DirectoryEntry) (fs : List (String × FileEntry)) :
    (d.withFiles fs).directories = d.directories := by
  cases d; rfl

theorem files_withDirs (d : DirectoryEntry) (ds : DirList) :
    (d.withDirs ds).files = d.files := by
  cases d; rfl

theorem directories_withDirs (d : DirectoryEntry) (ds : DirList) :
    (d.withDirs ds).directories = ds := by
  cases d; rfl

theorem files_withMetadata (d : DirectoryEntry) (m : FileMetadata) :
    (d.withMetadata m).files = d.files := by
  cases d; rfl

theorem directories_withMetadata (d : DirectoryEntry) (m : FileMetadata) :
    (d.withMetadata m).directories = d.directories := by
  cases d; rfl

theorem dirLookup_insert_self : ∀ (m : DirList) (n : String) (d : DirectoryEntry),
    dirLookup (dirInsert m n d) n = some d
  | .nil, n, d => by simp [dirInsert, dirLookup]
  | .cons n0 d0 rest, n, d => by
    by_cases h : n0 = n
    · subst h; simp [dirInsert, dirLookup]
    · simp [dirInsert, dirLookup, h, dirLookup_insert_self rest n d]

theorem dirLookup_insert_ne : ∀ (m : DirList) (n n' : String) (d : DirectoryEntry),
    n' ≠ n → dirLookup (dirInsert m n d) n' = dirLookup m n'
  | .nil, n, n', d, h => by
    have hne : ¬ n = n' := fun he => h he.symm
    simp only [dirInsert, dirLookup]
    rw [if_neg hne]
  | .cons n0 d0 rest, n, n', d, h => by
    have hne : ¬ n = n' := fun he => h he.symm
    by_cases hi : n0 = n
    · subst hi
      simp only [dirInsert, if_pos rfl, dirLookup]
      rw [if_neg hne, if_neg hne]
    · simp only [dirInsert, if_neg hi, dirLookup, dirLookup_insert_ne rest n n' d h]

theorem lookupF_insert_self (m : List (String × FileEntry)) (n : String) (f : FileEntry) :
    lookupF (insertF m n f) n = some f := by
  induction m with
  | nil => simp [insertF, lookupF]
  | cons p rest ih =>
    obtain ⟨n0, f0⟩ := p
    by_cases h : n0 = n
    · subst h; simp [insertF, lookupF]
    · simp [insertF, lookupF, h, ih]

theorem lookupF_insert_ne (m : List (String × FileEntry)) (n n' : String) (f : FileEntry)
    (h : n' ≠ n) : lookupF (insertF m n f) n' = lookupF m n' := by
  have hne : ¬ n = n' := fun he => h he.symm
  induction m with
  | nil =>
    simp only [insertF, lookupF]
    rw [if_neg hne]
  | cons p rest ih =>
    obtain ⟨n0, f0⟩ := p
    by_cases hi : n0 = n
    · subst hi
      simp only [insertF, if_pos rfl, lookupF]
      rw [if_neg hne, if_neg hne]
    · simp only [insertF, if_neg hi, lookupF, ih]

theorem lookupF_erase_self (m : List (String × FileEntry)) (n : String) :
    lookupF (eraseF m n) n = none := by
  induction m with
  | nil => simp [eraseF, lookupF]
  | cons p rest ih =>
    obtain ⟨n0, f0⟩ := p
    by_cases h : n0 = n
    · simp [eraseF, h, ih]
    · simp [eraseF, lookupF, h, ih]

/-- A nonempty list is its `dropLast` followed by its last element. -/
theorem dropLast_append_getLastD :
    ∀ (l : List String), l ≠ [] → l.dropLast ++ [l.getLastD ""] = l := by
  intro l
  induction l with
  | nil => intro h; exact absurd rfl h
  | cons x rest ih =>
    intro _
    cases rest with
    | nil => rfl
    | cons y rest' =>
      have := ih (by simp)
      show x :: ((y :: rest').dropLast ++ [(y :: rest').getLastD ""]) = x :: y :: rest'
      rw [this]

/-- Updating the tree at a resolvable component path and re-walking that
path reaches the updated directory. -/
theorem walkDirs_updateDirAt :
    ∀ (ps : List String) (d q : DirectoryEntry) (g : DirectoryEntry → DirectoryEntry),
      walkDirs d ps = some q →
      walkDirs (updateDirAt d ps g) ps = some (g q) := by
  intro ps
  induction ps with
  | nil =>
    intro d q g h
    simp only [walkDirs, Option.some.injEq] at h
    subst h
    rfl
  | cons c rest ih =>
    intro d q g h
    simp only [walkDirs] at h
    cases hlk : dirLookup d.directories c with
    | none => rw [hlk] at h; simp at h
    | some sub =>
      rw [hlk] at h
      have h' : walkDirs sub rest = some q := h
      simp only [updateDirAt, hlk]
      show walkDirs (d.withDirs (dirInsert d.directories c (updateDirAt sub rest g)))
        (c :: rest) = some (g q)
      simp only [walkDirs, directories_withDirs, dirLookup_insert_self]
      exact ih sub q g h'

/-- Replacing the metadata of the walk's start preserves the walk up to
the reached node's two maps. -/
theorem walkDirs_withMetadata (d : DirectoryEntry) (m : FileMetadata)
    (ps : List String) (q : DirectoryEntry) (h : walkDirs d ps = some q) :
    ∃ q2, walkDirs (d.withMetadata m) ps = some q2 ∧ q2.files = q.files ∧
      q2.directories = q.directories := by
  cases ps with
  | nil =>
    simp only [walkDirs, Option.some.injEq] at h
    subst h
    exact ⟨d.withMetadata m, rfl, files_withMetadata d m, directories_withMetadata d m⟩
  | cons c rest =>
    refine ⟨q, ?_, rfl, rfl⟩
    have h2 := h
    simp only [walkDirs] at h2 ⊢
    rw [directories_withMetadata]
    exact h2

/-- `findLoop` resolves a walkable component path as a directory. -/
theorem findLoop_dir_of_walk :
    ∀ (ps : List String) (d q : DirectoryEntry) (seen : List String),
      walkDirs d ps = some q → findLoop d seen ps = .ok (.dir (seen ++ ps) q) := by
  intro ps
  induction ps with
  | nil =>
    intro d q seen h
    simp only [walkDirs, Option.some.injEq] at h
    subst h
    simp [findLoop]
  | cons c rest ih =>
    intro d q seen h
    simp only [walkDirs] at h
    cases rest with
    | nil =>
      cases hlk : dirLookup d.directories c with
      | none => rw [hlk] at h; simp at h
      | some sub =>
        rw [hlk] at h
        have h' : walkDirs sub [] = some q := h
        simp only [walkDirs, Option.some.injEq] at h'
        subst h'
        simp [findLoop, hlk]
    | cons c2 r2 =>
      cases hlk : dirLookup d.directories c with
      | none => rw [hlk] at h; simp at h
      | some sub =>
        rw [hlk] at h
        have h' : walkDirs sub (c2 :: r2) = some q := h
        have := ih sub q (seen ++ [c]) h'
        simp only [findLoop, hlk]
        rw [this]
        simp [List.append_assoc]

/-- `findLoop` on a path ending in `last`, once the walk to the parent is
known: directories-first resolution of the final component. -/
theorem findLoop_last :
    ∀ (front : List String) (last : String) (d q : DirectoryEntry) (seen : List String),
      walkDirs d front = some q →
      findLoop d seen (front ++ [last]) =
        match dirLookup q.directories last with
        | some sub => .ok (.dir (seen ++ front ++ [last]) sub)
        | none =>
          match lookupF q.files last with
          | some f => .ok (.file (seen ++ front) q f)
          | none => .ok (.missing (seen ++ front) q) := by
  intro front
  induction front with
  | nil =>
    intro last d q seen h
    simp only [walkDirs, Option.some.injEq] at h
    subst h
    cases hlk : dirLookup d.directories last with
    | some sub => simp [findLoop, hlk]
    | none =>
      cases hlf : lookupF d.files last with
      | some f => simp [findLoop, hlk, hlf]
      | none => simp [findLoop, hlk, hlf]
  | cons c front' ih =>
    intro last d q seen h
    simp only [walkDirs] at h
    cases hlk : dirLookup d.directories c with
    | none => rw [hlk] at h; simp at h
    | some sub =>
      rw [hlk] at h
      have h' : walkDirs sub front' = some q := h
      rcases hsh : front' ++ [last] with _ | ⟨z, zs⟩
      · exact absurd hsh (by simp)
      · show findLoop d seen (c :: (front' ++ [last])) = _
        rw [hsh]
        simp only [findLoop, hlk]
        rw [← hsh, ih last sub q (seen ++ [c]) h']
        cases dirLookup q.directories last with
        | some sub2 => simp [List.append_assoc]
        | none =>
          cases lookupF q.files last with
          | some f => simp [List.append_assoc]
          | none => simp [List.append_assoc]

/-- Inversion of a successful `findLoop` on a nonempty path: the walk to
the parent succeeded and the result is determined by the two lookups of
the final component. -/
theorem findLoop_ok_last :
    ∀ (ps : List String) (d : DirectoryEntry) (seen : List String) (r : FindR),
      findLoop d seen ps = .ok r → ps ≠ [] →
      ∃ q, walkDirs d ps.dropLast = some q ∧
        ((∃ sub, dirLookup q.directories (ps.getLastD "") = some sub ∧
            r = .dir (seen ++ ps) sub) ∨
         (∃ f, dirLookup q.directories (ps.getLastD "") = none ∧
            lookupF q.files (ps.getLastD "") = some f ∧
            r = .file (seen ++ ps.dropLast) q f) ∨
         (dirLookup q.directories (ps.getLastD "") = none ∧
            lookupF q.files (ps.getLastD "") = none ∧
            r = .missing (seen ++ ps.dropLast) q)) := by
  intro ps
  induction ps with
  | nil => intro d seen r _ hne; exact absurd rfl hne
  | cons c rest ih =>
    intro d seen r h _
    cases rest with
    | nil =>
      refine ⟨d, rfl, ?_⟩
      simp only [findLoop] at h
      cases hlk : dirLookup d.directories c with
      | some sub =>
        rw [hlk] at h
        have h' : (Except.ok (FindR.dir (seen ++ [c]) sub) : Except Err FindR) = .ok r := h
        simp only [Except.ok.injEq] at h'
        exact Or.inl ⟨sub, hlk, h'.symm⟩
      | none =>
        rw [hlk] at h
        cases hlf : lookupF d.files c with
        | some f =>
          rw [hlf] at h
          have h' : (Except.ok (FindR.file seen d f) : Except Err FindR) = .ok r := h
          simp only [Except.ok.injEq] at h'
          refine Or.inr (Or.inl ⟨f, hlk, hlf, ?_⟩)
          rw [← h']
          simp
        | none =>
          rw [hlf] at h
          have h' : (Except.ok (FindR.missing seen d) : Except Err FindR) = .ok r := h
          simp only [Except.ok.injEq] at h'
          refine Or.inr (Or.inr ⟨hlk, hlf, ?_⟩)
          rw [← h']
          simp
    | cons c2 r2 =>
      simp only [findLoop] at h
      cases hlk : dirLookup d.directories c with
      | none => rw [hlk] at h; exact absurd h (by simp)
      | some sub =>
        rw [hlk] at h
        have h' : findLoop sub (seen ++ [c]) (c2 :: r2) = .ok r := h
        obtain ⟨q, hwalk, hdisj⟩ := ih sub (seen ++ [c]) r h' (by simp)
        refine ⟨q, ?_, ?_⟩
        · show walkDirs d (c :: (c2 :: r2).dropLast) = some q
          simp only [walkDirs, hlk]
          exact hwalk
        · rcases hdisj with ⟨sub2, h1, h2⟩ | ⟨f, h1, h2, h3⟩ | ⟨h1, h2, h3⟩
          · refine Or.inl ⟨sub2, h1, ?_⟩
            rw [h2]
            simp [List.append_assoc]
          · refine Or.inr (Or.inl ⟨f, h1, h2, ?_⟩)
            rw [h3]
            simp [List.append_assoc]
          · refine Or.inr (Or.inr ⟨h1, h2, ?_⟩)
            rw [h3]
            simp [List.append_assoc]

end YFS

namespace YFS

set_option maxRecDepth 40000

/-! ## `findEntryUnsafe`-level lemmas and state-persistence frames -/

/-- Forward resolution of the final component as a file. -/
theorem findLoop_file_of (d : DirectoryEntry) (parts : List String) (hne : parts ≠ [])
    (q : DirectoryEntry) (f : FileEntry)
    (hwalk : walkDirs d parts.dropLast = some q)
    (hdl : dirLookup q.directories (parts.getLastD "") = none)
    (hlf : lookupF q.files (parts.getLastD "") = some f) :
    findLoop d [] parts = .ok (.file parts.dropLast q f) := by
  have hsplit := dropLast_append_getLastD parts hne
  conv_lhs => rw [← hsplit]
  rw [findLoop_last parts.dropLast (parts.getLastD "") d q [] hwalk]
  simp only [hdl, hlf, List.nil_append]

/-- Forward resolution of the final component as missing. -/
theorem findLoop_missing_of (d : DirectoryEntry) (parts : List String) (hne : parts ≠ [])
    (q : DirectoryEntry)
    (hwalk : walkDirs d parts.dropLast = some q)
    (hdl : dirLookup q.directories (parts.getLastD "") = none)
    (hlf : lookupF q.files (parts.getLastD "") = none) :
    findLoop d [] parts = .ok (.missing parts.dropLast q) := by
  have hsplit := dropLast_append_getLastD parts hne
  conv_lhs => rw [← hsplit]
  rw [findLoop_last parts.dropLast (parts.getLastD "") d q [] hwalk]
  simp only [hdl, hlf, List.nil_append]

/-- `findEntryUnsafe` on the join of a walkable component path resolves
to the reached directory with exactly that location. -/
theorem findEntryUnsafe_dir_join (s : YFSState) (pp : List String) (q : DirectoryEntry)
    (hne : ∀ x ∈ pp, x ≠ "") (hns : ∀ x ∈ pp, ∀ ch ∈ x.data, ch ≠ '/')
    (hwalk : walkDirs s.root pp = some q) :
    findEntryUnsafe s (joinSlash pp) = .ok (.dir pp q) := by
  cases pp with
  | nil =>
    simp only [walkDirs, Option.some.injEq] at hwalk
    subst hwalk
    rfl
  | cons x pp' =>
    unfold findEntryUnsafe
    dsimp only
    rw [trimSlashes_joinSlash _ (by simp) hne hns,
      if_neg (joinSlash_ne_empty _ (by simp) hne),
      splitOnSlash_joinSlash _ (by simp) hns]
    have := findLoop_dir_of_walk (x :: pp') s.root q [] hwalk
    rw [this]
    simp

/-- Inversion of `findEntryUnsafe` resolving a file. -/
theorem findEntryUnsafe_file_inv (s : YFSState) (p : String) (pp : List String)
    (parent : DirectoryEntry) (f : FileEntry)
    (h : findEntryUnsafe s p = .ok (.file pp parent f)) :
    trimSlashes p ≠ "" ∧
    pp = (splitOnSlash (trimSlashes p)).dropLast ∧
    walkDirs s.root pp = some parent ∧
    dirLookup parent.directories ((splitOnSlash (trimSlashes p)).getLastD "") = none ∧
    lookupF parent.files ((splitOnSlash (trimSlashes p)).getLastD "") = some f := by
  unfold findEntryUnsafe at h
  dsimp only at h
  by_cases ht : trimSlashes p = ""
  · rw [if_pos ht] at h
    exact absurd h (by simp)
  · rw [if_neg ht] at h
    obtain ⟨q, hwalk, hdisj⟩ := findLoop_ok_last _ s.root [] _ h (splitOnSlash_ne_nil _)
    rcases hdisj with ⟨sub, _, heq⟩ | ⟨f0, h1, h2, heq⟩ | ⟨_, _, heq⟩
    · exact absurd heq (by simp)
    · simp only [FindR.file.injEq, List.nil_append] at heq
      obtain ⟨e1, e2, e3⟩ := heq
      subst e1
      exact ⟨ht, rfl, by rw [e2]; exact hwalk, by rw [e2]; exact h1,
        by rw [e2, e3]; exact h2⟩
    · exact absurd heq (by simp)

/-- Inversion of `findEntryUnsafe` resolving a missing final component. -/
theorem findEntryUnsafe_missing_inv (s : YFSState) (p : String) (pp : List String)
    (parent : DirectoryEntry)
    (h : findEntryUnsafe s p = .ok (.missing pp parent)) :
    trimSlashes p ≠ "" ∧
    pp = (splitOnSlash (trimSlashes p)).dropLast ∧
    walkDirs s.root pp = some parent ∧
    dirLookup parent.directories ((splitOnSlash (trimSlashes p)).getLastD "") = none ∧
    lookupF parent.files ((splitOnSlash (trimSlashes p)).getLastD "") = none := by
  unfold findEntryUnsafe at h
  dsimp only at h
  by_cases ht : trimSlashes p = ""
  · rw [if_pos ht] at h
    exact absurd h (by simp)
  · rw [if_neg ht] at h
    obtain ⟨q, hwalk, hdisj⟩ := findLoop_ok_last _ s.root [] _ h (splitOnSlash_ne_nil _)
    rcases hdisj with ⟨sub, _, heq⟩ | ⟨f0, _, _, heq⟩ | ⟨h1, h2, heq⟩
    · exact absurd heq (by simp)
    · exact absurd heq (by simp)
    · simp only [FindR.missing.injEq, List.nil_append] at heq
      obtain ⟨e1, e2⟩ := heq
      subst e1
      exact ⟨ht, rfl, by rw [e2]; exact hwalk, by rw [e2]; exact h1,
        by rw [e2]; exact h2⟩

/-- `findEntryUnsafe` after re-walking a path whose parent and final
lookups are known: file resolution. -/
theorem findEntryUnsafe_file_of (s : YFSState) (p : String) (q : DirectoryEntry)
    (f : FileEntry) (ht : trimSlashes p ≠ "")
    (hwalk : walkDirs s.root (splitOnSlash (trimSlashes p)).dropLast = some q)
    (hdl : dirLookup q.directories ((splitOnSlash (trimSlashes p)).getLastD "") = none)
    (hlf : lookupF q.files ((splitOnSlash (trimSlashes p)).getLastD "") = some f) :
    findEntryUnsafe s p = .ok (.file (splitOnSlash (trimSlashes p)).dropLast q f) := by
  unfold findEntryUnsafe
  dsimp only
  rw [if_neg ht]
  exact findLoop_file_of s.root _ (splitOnSlash_ne_nil _) q f hwalk hdl hlf

/-- `findEntryUnsafe` after re-walking: missing resolution. -/
theorem findEntryUnsafe_missing_of (s : YFSState) (p : String) (q : DirectoryEntry)
    (ht : trimSlashes p ≠ "")
    (hwalk : walkDirs s.root (splitOnSlash (trimSlashes p)).dropLast = some q)
    (hdl : dirLookup q.directories ((splitOnSlash (trimSlashes p)).getLastD "") = none)
    (hlf : lookupF q.files ((splitOnSlash (trimSlashes p)).getLastD "") = none) :
    findEntryUnsafe s p = .ok (.missing (splitOnSlash (trimSlashes p)).dropLast q) := by
  unfold findEntryUnsafe
  dsimp only
  rw [if_neg ht]
  exact findLoop_missing_of s.root _ (splitOnSlash_ne_nil _) q hwalk hdl hlf

/-- `saveBitmap` changes at most the bitmap dirty flag. -/
theorem saveBitmap_frame (s : YFSState) :
    (saveBitmap s).root = s.root ∧ (saveBitmap s).blocks = s.blocks ∧
    (saveBitmap s).blockSize = s.blockSize ∧
    (saveBitmap s).checksumEnabled = s.checksumEnabled ∧
    (saveBitmap s).bitmap.data = s.bitmap.data ∧
    (saveBitmap s).bitmap.totalBlocks = s.bitmap.totalBlocks := by
  unfold saveBitmap
  by_cases h : s.bitmap.dirty = true
  · simp [h]
  · simp [h]

/-- `saveRoot` changes at most the root metadata. -/
theorem saveRoot_frame (s : YFSState) :
    (saveRoot s).blocks = s.blocks ∧ (saveRoot s).blockSize = s.blockSize ∧
    (saveRoot s).checksumEnabled = s.checksumEnabled ∧
    (saveRoot s).bitmap = s.bitmap := by
  unfold saveRoot
  by_cases h : s.checksumEnabled = true
  · simp [h]
  · simp [h]

/-- The root after `saveRoot`. -/
theorem saveRoot_root (s : YFSState) :
    (saveRoot s).root = if s.checksumEnabled then
      s.root.withMetadata (updateMetadataChecksum true s.root.metadata) else s.root := by
  unfold saveRoot
  by_cases h : s.checksumEnabled = true
  · simp [h]
  · simp [h]

/-- A freshly updated metadata checksum always verifies. -/
theorem verifyMetadata_update (ck : Bool) (m : FileMetadata) :
    verifyMetadataChecksum ck (updateMetadataChecksum ck m) = true := by
  cases ck with
  | false => rfl
  | true => simp [verifyMetadataChecksum, updateMetadataChecksum, metadataChecksum,
      metadataChecksumStr]

/-- The empty-payload branch of `writeFileToBlocks`: null head, state
changed at most by freeing the old chain. -/
theorem writeFileToBlocks_nil (s : YFSState) (existing : Nat) :
    (writeFileToBlocks s [] existing).1 = .ok 0 ∧
    (writeFileToBlocks s [] existing).2.root = s.root ∧
    (writeFileToBlocks s [] existing).2.blocks = s.blocks ∧
    (writeFileToBlocks s [] existing).2.blockSize = s.blockSize ∧
    (writeFileToBlocks s [] existing).2.checksumEnabled = s.checksumEnabled ∧
    (writeFileToBlocks s [] existing).2 =
      (if existing ≠ 0 then (freeFileBlocks s existing).2 else s) := by
  have hred : writeFileToBlocks s [] existing =
      if existing ≠ 0 then ((.ok 0 : Except Err Nat), (freeFileBlocks s existing).2)
      else (.ok 0, s) := rfl
  rw [hred]
  by_cases he : existing ≠ 0
  · rw [if_pos he]
    obtain ⟨h1, h2, h3, h4, _, _⟩ := freeFileLoop_frame chainFuel s existing
    exact ⟨rfl, h2, h1, h3, h4, (if_pos he).symm⟩
  · rw [if_neg he]
    exact ⟨rfl, rfl, rfl, rfl, rfl, (if_neg he).symm⟩

end YFS

namespace YFS

set_option maxRecDepth 40000

/-- The entry-update/persist tail shared by `WriteFile`'s success paths:
insert entry `f2` under name `nm` at the directory at `pp`, then
`saveRoot` and `saveBitmap`. -/
def persistRootInsert (s₂ : YFSState) (pp : List String) (nm : String)
    (f2 : FileEntry) : YFSState :=
  saveBitmap (saveRoot
    { s₂ with root :=
        updateDirAt s₂.root pp (fun dd => dd.withFiles (insertF dd.files nm f2)) })

/-- `persistRootInsert` preserves everything except the root and the
bitmap dirty flag. -/
theorem persistRootInsert_frame (s₂ : YFSState) (pp : List String) (nm : String)
    (f2 : FileEntry) :
    (persistRootInsert s₂ pp nm f2).blocks = s₂.blocks ∧
    (persistRootInsert s₂ pp nm f2).blockSize = s₂.blockSize ∧
    (persistRootInsert s₂ pp nm f2).checksumEnabled = s₂.checksumEnabled ∧
    (persistRootInsert s₂ pp nm f2).bitmap.data = s₂.bitmap.data ∧
    (persistRootInsert s₂ pp nm f2).bitmap.totalBlocks = s₂.bitmap.totalBlocks := by
  unfold persistRootInsert
  obtain ⟨_, sb2, sb3, sb4, sb5, sb6⟩ := saveBitmap_frame (saveRoot
    { s₂ with root :=
        updateDirAt s₂.root pp (fun dd => dd.withFiles (insertF dd.files nm f2)) })
  obtain ⟨sr1, sr2, sr3, sr4⟩ := saveRoot_frame
    { s₂ with root :=
        updateDirAt s₂.root pp (fun dd => dd.withFiles (insertF dd.files nm f2)) }
  refine ⟨sb2.trans sr1, sb3.trans sr2, sb4.trans sr3, ?_, ?_⟩
  · rw [sb5, sr4]
  · rw [sb6, sr4]

/-- After the entry-update/persist tail the written path resolves to the
inserted entry; the parent keeps its directories map. -/
theorem find_after_update (s₂ : YFSState) (p : String)
    (parent : DirectoryEntry) (f2 : FileEntry)
    (ht : trimSlashes p ≠ "")
    (hwalk : walkDirs s₂.root (splitOnSlash (trimSlashes p)).dropLast = some parent)
    (hdl : dirLookup parent.directories
      ((splitOnSlash (trimSlashes p)).getLastD "") = none) :
    ∃ parent2,
      findEntryUnsafe (persistRootInsert s₂ (splitOnSlash (trimSlashes p)).dropLast
          ((splitOnSlash (trimSlashes p)).getLastD "") f2) p
        = .ok (.file (splitOnSlash (trimSlashes p)).dropLast parent2 f2) ∧
      walkDirs (persistRootInsert s₂ (splitOnSlash (trimSlashes p)).dropLast
          ((splitOnSlash (trimSlashes p)).getLastD "") f2).root
          (splitOnSlash (trimSlashes p)).dropLast = some parent2 ∧
      parent2.files = insertF parent.files ((splitOnSlash (trimSlashes p)).getLastD "") f2 ∧
      parent2.directories = parent.directories := by
  set parts := splitOnSlash (trimSlashes p) with hparts
  set lastc := parts.getLastD "" with hlast
  set g : DirectoryEntry → DirectoryEntry :=
    fun dd => dd.withFiles (insertF dd.files lastc f2) with hg
  set S : YFSState := { s₂ with root := updateDirAt s₂.root parts.dropLast g } with hS
  have hwx : walkDirs S.root parts.dropLast = some (g parent) := by
    show walkDirs (updateDirAt s₂.root parts.dropLast g) parts.dropLast = some (g parent)
    exact walkDirs_updateDirAt parts.dropLast s₂.root parent g hwalk
  obtain ⟨sb1, sb2, sb3, sb4, sb5, sb6⟩ := saveBitmap_frame (saveRoot S)
  have hsr := saveRoot_root S
  obtain ⟨q2, hw2, hqf, hqd⟩ :
      ∃ q2, walkDirs (saveBitmap (saveRoot S)).root parts.dropLast = some q2 ∧
        q2.files = (g parent).files ∧ q2.directories = (g parent).directories := by
    rw [sb1, hsr]
    by_cases hck : S.checksumEnabled = true
    · rw [if_pos hck]
      exact walkDirs_withMetadata S.root _ parts.dropLast (g parent) hwx
    · rw [if_neg hck]
      exact ⟨g parent, hwx, rfl, rfl⟩
  refine ⟨q2, ?_, hw2, ?_, ?_⟩
  · apply findEntryUnsafe_file_of _ p q2 f2 ht
    · exact hw2
    · rw [hqd]
      show dirLookup (parent.withFiles (insertF parent.files lastc f2)).directories
        lastc = none
      rw [directories_withFiles]
      exact hdl
    · rw [hqf]
      show lookupF (parent.withFiles (insertF parent.files lastc f2)).files lastc = some f2
      rw [files_withFiles]
      exact lookupF_insert_self parent.files lastc f2
  · rw [hqf]
    show (parent.withFiles (insertF parent.files lastc f2)).files
      = insertF parent.files lastc f2
    exact files_withFiles parent _
  · rw [hqd]
    exact directories_withFiles parent _

end YFS

namespace YFS

set_option maxRecDepth 100000

/-- `ReadFile` of a path resolving to a file with a verifying metadata
checksum reduces to the chain read. -/
theorem read_back (s' : YFSState) (p : String) (pp : List String)
    (parent2 : DirectoryEntry) (f2 : FileEntry) (data : List Nat)
    (hfind : findEntryUnsafe s' p = .ok (.file pp parent2 f2))
    (hver : verifyMetadataChecksum s'.checksumEnabled f2.metadata = true)
    (hrfb : readFileFromBlocks s' f2.firstIndexBlockId f2.size = .ok data) :
    ReadFile s' p = .ok data := by
  unfold ReadFile
  rw [hfind]
  dsimp only
  rw [if_pos hver]
  exact hrfb

/-- The common tail of the `WriteFile` round-trip: after the entry
insertion persists, re-reading the path returns whatever the chain read
of the new entry yields. -/
theorem write_tail_read (s₂ s' : YFSState) (p : String) (parent : DirectoryEntry)
    (f2 : FileEntry) (data : List Nat)
    (ht : trimSlashes p ≠ "")
    (hwalk : walkDirs s₂.root (splitOnSlash (trimSlashes p)).dropLast = some parent)
    (hdl : dirLookup parent.directories
      ((splitOnSlash (trimSlashes p)).getLastD "") = none)
    (hs' : s' = persistRootInsert s₂ (splitOnSlash (trimSlashes p)).dropLast
      ((splitOnSlash (trimSlashes p)).getLastD "") f2)
    (hver : verifyMetadataChecksum s₂.checksumEnabled f2.metadata = true)
    (hrfb : ∀ s3 : YFSState, s3.blocks = s₂.blocks → s3.blockSize = s₂.blockSize →
      s3.checksumEnabled = s₂.checksumEnabled →
      readFileFromBlocks s3 f2.firstIndexBlockId f2.size = .ok data) :
    ReadFile s' p = .ok data := by
  obtain ⟨parent2, hfind2, _, _, _⟩ := find_after_update s₂ p parent f2 ht hwalk hdl
  rw [← hs'] at hfind2
  obtain ⟨pf1, pf2, pf3, _, _⟩ := persistRootInsert_frame s₂
    (splitOnSlash (trimSlashes p)).dropLast ((splitOnSlash (trimSlashes p)).getLastD "") f2
  have hbl : s'.blocks = s₂.blocks := by rw [hs']; exact pf1
  have hbs : s'.blockSize = s₂.blockSize := by rw [hs']; exact pf2
  have hce : s'.checksumEnabled = s₂.checksumEnabled := by rw [hs']; exact pf3
  apply read_back s' p _ parent2 f2 data hfind2
  · rw [hce]; exact hver
  · exact hrfb s' hbl hbs hce

/-- C1: whenever `WriteFile` succeeds on a path with no empty components,
a subsequent `ReadFile` of the same path returns exactly the written
payload (any length; successful multi-block writes do not exist, but the
statement does not assume single-block). -/
theorem c1_write_read_roundtrip (s : YFSState) (p : String) (data : List Nat)
    (now : Int) (s' : YFSState)
    (hcomp : ∀ c ∈ splitOnSlash (trimSlashes p), c ≠ "")
    (hw : WriteFile s p data now = (.ok (), s')) :
    ReadFile s' p = .ok data := by
  unfold WriteFile at hw
  rcases hfind : findEntryUnsafe s p with e | fr
  · rw [hfind] at hw
    simp at hw
  · rw [hfind] at hw
    cases fr with
    | dir dp dd => simp at hw
    | file pp parent f =>
      obtain ⟨ht, hppd, hwalk, hdl, hlf⟩ := findEntryUnsafe_file_inv s p pp parent f hfind
      dsimp only at hw
      have hparf : findEntryUnsafe s (joinSlash (splitOnSlash (trimSlashes p)).dropLast)
          = .ok (.dir (splitOnSlash (trimSlashes p)).dropLast parent) := by
        apply findEntryUnsafe_dir_join s _ parent
        · intro x hx
          exact hcomp x ((List.dropLast_sublist _).subset hx)
        · intro x hx ch hch
          exact splitOnSlash_no_slash _ x ((List.dropLast_sublist _).subset hx) ch hch
        · rw [← hppd]
          exact hwalk
      rw [hparf] at hw
      dsimp only [FindR.loc] at hw
      split at hw
      · simp at hw
      next head s₂ hwfb =>
        unfold writeFileUpdate at hw
        dsimp only at hw
        rw [hppd] at hwalk
        have hs' : s' = persistRootInsert s₂ (splitOnSlash (trimSlashes p)).dropLast
            ((splitOnSlash (trimSlashes p)).getLastD "")
            { f with firstIndexBlockId := head
                     size := (data.length : Int)
                     metadata := updateMetadataChecksum s₂.checksumEnabled
                       { f.metadata with modTime := now } } := by
          have h2 := congrArg Prod.snd hw
          rw [hppd] at h2
          exact h2.symm
        by_cases hdn : data.length = 0
        · have hdata : data = [] := List.length_eq_zero.mp hdn
          subst hdata
          obtain ⟨hok0, hr2, hb2, hbs2, hce2, _⟩ := writeFileToBlocks_nil s f.firstIndexBlockId
          rw [hwfb] at hok0 hr2 hb2 hbs2 hce2
          have hhead : head = 0 := by
            have : (Except.ok head : Except Err Nat) = .ok 0 := hok0
            simpa using this
          subst hhead
          have hr2' : s₂.root = s.root := hr2
          have hce2' : s₂.checksumEnabled = s.checksumEnabled := hce2
          have hwalk2 : walkDirs s₂.root (splitOnSlash (trimSlashes p)).dropLast
              = some parent := by rw [hr2']; exact hwalk
          apply write_tail_read s₂ s' p parent _ [] ht hwalk2 hdl hs'
          · exact verifyMetadata_update s₂.checksumEnabled { f.metadata with modTime := now }
          · intro s3 _ _ _
            rfl
        · obtain ⟨d, i, ib, hhead, hi0, hd0, hrib, hbids, hbext, hbnext, hrd, hr2,
            hbs2, hce2, hlen4⟩ :=
            writeFileToBlocks_ok_nonempty s data f.firstIndexBlockId head s₂ hdn hwfb
          have hwalk2 : walkDirs s₂.root (splitOnSlash (trimSlashes p)).dropLast
              = some parent := by rw [hr2]; exact hwalk
          apply write_tail_read s₂ s' p parent _ data ht hwalk2 hdl hs'
          · exact verifyMetadata_update s₂.checksumEnabled { f.metadata with modTime := now }
          · intro s3 h1 h2 h3
            show readFileFromBlocks s3 head (data.length : Int) = .ok data
            rw [hhead]
            apply readFileFromBlocks_single s3 i d data ib hi0
            · rw [readIndexBlock_congr s3 s₂ i h1 h3]
              exact hrib
            · exact hbids
            · exact hbnext
            · rw [readBlock_congr s3 s₂ d h1 h2]
              exact hrd
            · exact Nat.pos_of_ne_zero hdn
    | missing pp parent =>
      obtain ⟨ht, hppd, hwalk, hdl, hlf⟩ := findEntryUnsafe_missing_inv s p pp parent hfind
      dsimp only at hw
      have hparf : findEntryUnsafe s (joinSlash (splitOnSlash (trimSlashes p)).dropLast)
          = .ok (.dir (splitOnSlash (trimSlashes p)).dropLast parent) := by
        apply findEntryUnsafe_dir_join s _ parent
        · intro x hx
          exact hcomp x ((List.dropLast_sublist _).subset hx)
        · intro x hx ch hch
          exact splitOnSlash_no_slash _ x ((List.dropLast_sublist _).subset hx) ch hch
        · rw [← hppd]
          exact hwalk
      rw [hparf] at hw
      dsimp only [FindR.loc] at hw
      split at hw
      · simp at hw
      next head s₂ hwfb =>
        unfold writeFileUpdate at hw
        dsimp only at hw
        rw [hppd] at hwalk
        have hs' : s' = persistRootInsert s₂ (splitOnSlash (trimSlashes p)).dropLast
            ((splitOnSlash (trimSlashes p)).getLastD "")
            { metadata := updateMetadataChecksum s₂.checksumEnabled
                { name := (splitOnSlash (trimSlashes p)).getLastD ""
                  modTime := now
                  createTime := now
                  permissions := 0
                  crc32 := 0 }
              firstIndexBlockId := head
              size := (data.length : Int)
              indexBlockCount := 0
              dataBlockCount := 0 } := by
          have h2 := congrArg Prod.snd hw
          exact h2.symm
        by_cases hdn : data.length = 0
        · have hdata : data = [] := List.length_eq_zero.mp hdn
          subst hdata
          obtain ⟨hok0, hr2, hb2, hbs2, hce2, _⟩ := writeFileToBlocks_nil s 0
          rw [hwfb] at hok0 hr2 hb2 hbs2 hce2
          have hhead : head = 0 := by
            have : (Except.ok head : Except Err Nat) = .ok 0 := hok0
            simpa using this
          subst hhead
          have hr2' : s₂.root = s.root := hr2
          have hwalk2 : walkDirs s₂.root (splitOnSlash (trimSlashes p)).dropLast
              = some parent := by rw [hr2']; exact hwalk
          apply write_tail_read s₂ s' p parent _ [] ht hwalk2 hdl hs'
          · exact verifyMetadata_update s₂.checksumEnabled _
          · intro s3 _ _ _
            rfl
        · obtain ⟨d, i, ib, hhead, hi0, hd0, hrib, hbids, hbext, hbnext, hrd, hr2,
            hbs2, hce2, hlen4⟩ :=
            writeFileToBlocks_ok_nonempty s data 0 head s₂ hdn hwfb
          have hwalk2 : walkDirs s₂.root (splitOnSlash (trimSlashes p)).dropLast
              = some parent := by rw [hr2]; exact hwalk
          apply write_tail_read s₂ s' p parent _ data ht hwalk2 hdl hs'
          · exact verifyMetadata_update s₂.checksumEnabled _
          · intro s3 h1 h2 h3
            show readFileFromBlocks s3 head (data.length : Int) = .ok data
            rw [hhead]
            apply readFileFromBlocks_single s3 i d data ib hi0
            · rw [readIndexBlock_congr s3 s₂ i h1 h3]
              exact hrib
            · exact hbids
            · exact hbnext
            · rw [readBlock_congr s3 s₂ d h1 h2]
              exact hrd
            · exact Nat.pos_of_ne_zero hdn

theorem c1_witness :
    ReadFile (WriteFile tinyState "/a" [65] 0).2 "/a" = .ok [65] :=
  c1_write_read_roundtrip tinyState "/a" [65] 0 _ (by decide) rfl

end YFS

namespace YFS

set_option maxRecDepth 40000

/-! ## Freed-bit lemmas for `freeFileBlocks` -/

/-- `isBlockFree` depends only on the bitmap bytes. -/
theorem isBlockFree_congr (bm1 bm2 : Bitmap) (h : bm1.data = bm2.data) (pos : Nat) :
    isBlockFree bm1 pos = isBlockFree bm2 pos := by
  unfold isBlockFree
  rw [h]

/-- Clearing one bit never makes a free position used. -/
theorem markBlockFree_mono (bm : Bitmap) (pos q : Nat)
    (h : isBlockFree bm q = true) : isBlockFree (markBlockFree bm pos) q = true := by
  by_cases hq : q = pos
  · subst hq
    by_cases hr : q / 8 < bm.data.length
    · exact (markBlockFree_spec bm q).2.2.2.1 hr
    · have : markBlockFree bm q = bm := by
        unfold markBlockFree
        rw [if_neg hr]
      rw [this]
      exact h
  · rw [(markBlockFree_spec bm pos).2.2.2.2 q hq]
    exact h

/-- The fold of `freeBlocks` preserves free positions. -/
theorem foldFree_mono :
    ∀ (l : List Nat) (bm : Bitmap) (q : Nat), isBlockFree bm q = true →
      isBlockFree (l.foldl (fun b id => if id ≠ 0 then markBlockFree b (id - 1) else b) bm)
        q = true := by
  intro l
  induction l with
  | nil => intro bm q h; exact h
  | cons x rest ih =>
    intro bm q h
    simp only [List.foldl_cons]
    by_cases hx : x ≠ 0
    · rw [if_pos hx]
      exact ih _ q (markBlockFree_mono bm (x - 1) q h)
    · rw [if_neg hx]
      exact ih bm q h

/-- The fold of `freeBlocks` frees every listed non-null in-range ID. -/
theorem foldFree_mem :
    ∀ (l : List Nat) (bm : Bitmap) (id : Nat), id ∈ l → id ≠ 0 →
      (id - 1) / 8 < bm.data.length →
      isBlockFree (l.foldl (fun b id => if id ≠ 0 then markBlockFree b (id - 1) else b) bm)
        (id - 1) = true := by
  intro l
  induction l with
  | nil => intro bm id h; simp at h
  | cons x rest ih =>
    intro bm id hm h0 hr
    simp only [List.foldl_cons]
    rcases List.mem_cons.mp hm with he | hm'
    · subst he
      rw [if_pos h0]
      exact foldFree_mono rest _ _ ((markBlockFree_spec bm (id - 1)).2.2.2.1 hr)
    · by_cases hx : x ≠ 0
      · rw [if_pos hx]
        refine ih _ id hm' h0 ?_
        rw [(markBlockFree_spec bm (x - 1)).1]
        exact hr
      · rw [if_neg hx]
        exact ih bm id hm' h0 hr

/-- `freeBlocks` preserves free positions. -/
theorem freeBlocks_mono (s : YFSState) (l : List Nat) (q : Nat)
    (h : isBlockFree s.bitmap q = true) : isBlockFree (freeBlocks s l).bitmap q = true := by
  rw [isBlockFree_congr (freeBlocks s l).bitmap
    (l.foldl (fun b id => if id ≠ 0 then markBlockFree b (id - 1) else b) s.bitmap) rfl q]
  exact foldFree_mono l s.bitmap q h

/-- `freeBlocks` frees every listed non-null in-range ID. -/
theorem freeBlocks_mem (s : YFSState) (l : List Nat) (id : Nat) (hm : id ∈ l)
    (h0 : id ≠ 0) (hr : (id - 1) / 8 < s.bitmap.data.length) :
    isBlockFree (freeBlocks s l).bitmap (id - 1) = true := by
  rw [isBlockFree_congr (freeBlocks s l).bitmap
    (l.foldl (fun b id => if id ≠ 0 then markBlockFree b (id - 1) else b) s.bitmap) rfl
    (id - 1)]
  exact foldFree_mem l s.bitmap id hm h0 hr

/-- Membership in a fold that appends generated chunks. -/
theorem mem_foldl_append (g : Extent → List Nat) :
    ∀ (l : List Extent) (L : List Nat) (x : Nat),
      x ∈ l.foldl (fun acc e => acc ++ g e) L ↔ x ∈ L ∨ ∃ e ∈ l, x ∈ g e := by
  intro l
  induction l with
  | nil => intro L x; simp
  | cons e rest ih =>
    intro L x
    simp only [List.foldl_cons]
    rw [ih (L ++ g e) x]
    simp only [List.mem_append]
    constructor
    · rintro (⟨h | h⟩ | ⟨e2, he2, hx⟩)
      · exact Or.inl h
      · exact Or.inr ⟨e, by simp, h⟩
      · exact Or.inr ⟨e2, by simp [he2], hx⟩
    · rintro (h | ⟨e2, he2, hx⟩)
      · exact Or.inl (Or.inl h)
      · rcases List.mem_cons.mp he2 with he | he
        · subst he
          exact Or.inl (Or.inr hx)
        · exact Or.inr ⟨e2, he, hx⟩

/-- The per-extent freeing fold preserves free positions. -/
theorem extFold_mono :
    ∀ (exts : List Extent) (s0 : YFSState) (q : Nat), isBlockFree s0.bitmap q = true →
      isBlockFree (exts.foldl (fun st e =>
        freeBlocks st ((List.range e.blockCount).map fun i =>
          (e.startBlockId + i) % 4294967296)) s0).bitmap q = true := by
  intro exts
  induction exts with
  | nil => intro s0 q h; exact h
  | cons e rest ih =>
    intro s0 q h
    simp only [List.foldl_cons]
    exact ih _ q (freeBlocks_mono s0 _ q h)

/-- The per-extent freeing fold frees every generated non-null in-range
ID. -/
theorem extFold_mem :
    ∀ (exts : List Extent) (s0 : YFSState) (id : Nat) (e : Extent), e ∈ exts →
      id ∈ (List.range e.blockCount).map (fun i => (e.startBlockId + i) % 4294967296) →
      id ≠ 0 → (id - 1) / 8 < s0.bitmap.data.length →
      isBlockFree (exts.foldl (fun st e =>
        freeBlocks st ((List.range e.blockCount).map fun i =>
          (e.startBlockId + i) % 4294967296)) s0).bitmap (id - 1) = true := by
  intro exts
  induction exts with
  | nil => intro s0 id e he; simp at he
  | cons e0 rest ih =>
    intro s0 id e he hid h0 hr
    simp only [List.foldl_cons]
    rcases List.mem_cons.mp he with he' | he'
    · subst he'
      exact extFold_mono rest _ _ (freeBlocks_mem s0 _ id hid h0 hr)
    · refine ih _ id e he' hid h0 ?_
      rw [(freeBlocks_frame s0 _).2.2.2.2.1]
      exact hr

/-- `freeFileLoop` never makes a free position used. -/
theorem freeFileLoop_mono :
    ∀ (fuel : Nat) (s : YFSState) (cur q : Nat), isBlockFree s.bitmap q = true →
      isBlockFree (freeFileLoop fuel s cur).2.bitmap q = true := by
  intro fuel
  induction fuel with
  | zero => intro s cur q h; exact h
  | succ n ih =>
    intro s cur q h
    by_cases h0 : cur = 0
    · simp only [freeFileLoop, if_pos h0]
      exact h
    · cases hread : readIndexBlock s cur with
      | error e =>
        simp only [freeFileLoop, if_neg h0, hread]
        exact h
      | ok ib =>
        simp only [freeFileLoop, if_neg h0, hread]
        exact ih _ _ q (freeBlocks_mono _ [cur] q (extFold_mono ib.extents _ q
          (freeBlocks_mono s ib.blockIds q h)))

/-- One-step unfolding of `chainBlocksLoop`. -/
theorem chainBlocksLoop_succ (s : YFSState) (fuel cur : Nat) (acc : List Nat) :
    chainBlocksLoop s (fuel + 1) cur acc =
      if cur = 0 then some acc
      else
        match readIndexBlock s cur with
        | .error _ => none
        | .ok ib =>
          chainBlocksLoop s fuel ib.nextIndexBlockId
            (acc ++ ib.blockIds ++
             ib.extents.foldl (fun l e =>
               l ++ (List.range e.blockCount).map fun i =>
                 (e.startBlockId + i) % 4294967296) [] ++
             [cur]) := by
  simp only [chainBlocksLoop]

/-- `chainBlocksLoop` depends only on the block store and the checksum
flag. -/
theorem chainBlocksLoop_congr (s3 s : YFSState) (hb : s3.blocks = s.blocks)
    (hc : s3.checksumEnabled = s.checksumEnabled) :
    ∀ (fuel cur : Nat) (acc : List Nat),
      chainBlocksLoop s3 fuel cur acc = chainBlocksLoop s fuel cur acc := by
  intro fuel
  induction fuel with
  | zero => intro cur acc; rfl
  | succ n ih =>
    intro cur acc
    rw [chainBlocksLoop_succ, chainBlocksLoop_succ,
      readIndexBlock_congr s3 s cur hb hc]
    by_cases h0 : cur = 0
    · rw [if_pos h0, if_pos h0]
    · rw [if_neg h0, if_neg h0]
      cases readIndexBlock s cur with
      | error e => rfl
      | ok ib => exact ih _ _

/-- One-step unfolding of `freeFileLoop` on a readable index block. -/
theorem freeFileLoop_succ (fuel : Nat) (s : YFSState) (cur : Nat) (h0 : cur ≠ 0)
    (ib : IndexBlock) (hread : readIndexBlock s cur = .ok ib) :
    freeFileLoop (fuel + 1) s cur =
      freeFileLoop fuel
        (freeBlocks (ib.extents.foldl
          (fun st e => freeBlocks st ((List.range e.blockCount).map fun i =>
            (e.startBlockId + i) % 4294967296)) (freeBlocks s ib.blockIds)) [cur])
        ib.nextIndexBlockId := by
  simp only [freeFileLoop, if_neg h0, hread]

/-- Walking a chain and then freeing it through `freeFileLoop` leaves
every enumerated non-null in-range block ID free in the bitmap. -/
theorem freeFileLoop_frees :
    ∀ (fuel : Nat) (s : YFSState) (cur : Nat) (acc out : List Nat),
      chainBlocksLoop s fuel cur acc = some out →
      ∀ id ∈ out, id ∉ acc → id ≠ 0 → (id - 1) / 8 < s.bitmap.data.length →
        isBlockFree (freeFileLoop fuel s cur).2.bitmap (id - 1) = true := by
  intro fuel
  induction fuel with
  | zero =>
    intro s cur acc out hcb
    exact absurd hcb (by simp [chainBlocksLoop])
  | succ n ih =>
    intro s cur acc out hcb id hm hnacc h0 hr
    rw [chainBlocksLoop_succ] at hcb
    by_cases hc0 : cur = 0
    · rw [if_pos hc0] at hcb
      simp only [Option.some.injEq] at hcb
      subst hcb
      exact absurd hm hnacc
    · rw [if_neg hc0] at hcb
      cases hread : readIndexBlock s cur with
      | error e => rw [hread] at hcb; simp at hcb
      | ok ib =>
        rw [hread] at hcb
        have hcb' : chainBlocksLoop s n ib.nextIndexBlockId
            (acc ++ ib.blockIds ++
             ib.extents.foldl (fun l e =>
               l ++ (List.range e.blockCount).map fun i =>
                 (e.startBlockId + i) % 4294967296) [] ++
             [cur]) = some out := hcb
        rw [freeFileLoop_succ n s cur hc0 ib hread]
        obtain ⟨fb1, _, _, fb4, fb5, _⟩ := freeBlocks_frame s ib.blockIds
        obtain ⟨xb1, _, _, xb4, xb5, _⟩ := extentFold_frame s ib.extents
          (freeBlocks s ib.blockIds)
        obtain ⟨cb1, _, _, cb4, cb5, _⟩ := freeBlocks_frame
          (ib.extents.foldl (fun st e =>
            freeBlocks st ((List.range e.blockCount).map fun i =>
              (e.startBlockId + i) % 4294967296)) (freeBlocks s ib.blockIds)) [cur]
        by_cases hin : id ∈ (acc ++ ib.blockIds ++
            ib.extents.foldl (fun l e =>
              l ++ (List.range e.blockCount).map fun i =>
                (e.startBlockId + i) % 4294967296) [] ++ [cur])
        · -- the id is freed during this step; freeing below only preserves it
          apply freeFileLoop_mono
          rcases List.mem_append.mp hin with hin' | hcur
          · rcases List.mem_append.mp hin' with hin'' | hext
            · rcases List.mem_append.mp hin'' with hacc | hbid
              · exact absurd hacc hnacc
              · -- freed by the first freeBlocks
                apply freeBlocks_mono
                apply extFold_mono
                exact freeBlocks_mem s ib.blockIds id hbid h0 hr
            · -- freed by the extent fold
              apply freeBlocks_mono
              rcases (mem_foldl_append _ ib.extents [] id).mp hext with hnil | ⟨e, he, hgen⟩
              · simp at hnil
              · refine extFold_mem ib.extents _ id e he hgen h0 ?_
                rw [fb5]
                exact hr
          · -- the index block itself
            have hcur' : id = cur := by simpa using hcur
            subst hcur'
            refine freeBlocks_mem _ [id] id (by simp) h0 ?_
            rw [xb5, fb5]
            exact hr
        · -- freed later in the chain
          refine ih _ ib.nextIndexBlockId _ out ?_ id hm hin h0 ?_
          · rw [chainBlocksLoop_congr _ s (by rw [cb1, xb1, fb1]) (by rw [cb4, xb4, fb4])]
            exact hcb'
          · rw [cb5, xb5, fb5]
            exact hr

/-- `freeFileBlocks` frees every block the chain walk enumerates. -/
theorem freeFileBlocks_frees (s : YFSState) (first : Nat) (ids : List Nat)
    (hchain : chainAllBlocks s first = some ids) :
    ∀ id ∈ ids, id ≠ 0 → (id - 1) / 8 < s.bitmap.data.length →
      isBlockFree (freeFileBlocks s first).2.bitmap (id - 1) = true := by
  intro id hm h0 hr
  exact freeFileLoop_frees chainFuel s first [] ids hchain id hm (by simp) h0 hr

end YFS

namespace YFS

set_option maxRecDepth 100000

/-- The chain walk from the null head enumerates nothing. -/
theorem chainAllBlocks_zero (s : YFSState) : chainAllBlocks s 0 = some [] := by
  unfold chainAllBlocks
  have hcf : chainFuel = 4294967295 + 1 := rfl
  rw [hcf, chainBlocksLoop_succ, if_pos rfl]

/-- C5 (amended): an empty-payload `WriteFile` that succeeds stores an
entry whose `firstIndexBlockId` is null, and every non-null in-range
block of the chain the file previously had (as enumerated by a
successful chain walk) is free in the resulting bitmap.  (The original
claim's "for every path p" fails: see the counterexample at `p = "/"`.) -/
theorem c5_empty_write_frees (s : YFSState) (p : String) (now : Int) (s' : YFSState)
    (ids : List Nat)
    (hcomp : ∀ c ∈ splitOnSlash (trimSlashes p), c ≠ "")
    (hw : WriteFile s p [] now = (.ok (), s')) :
    (∃ f', fileAt s' p = some f' ∧ f'.firstIndexBlockId = 0) ∧
    (∀ f, fileAt s p = some f → chainAllBlocks s f.firstIndexBlockId = some ids →
      ∀ id ∈ ids, id ≠ 0 → (id - 1) / 8 < s.bitmap.data.length →
        isBlockFree s'.bitmap (id - 1) = true) := by
  unfold WriteFile at hw
  rcases hfind : findEntryUnsafe s p with e | fr
  · rw [hfind] at hw
    simp at hw
  · rw [hfind] at hw
    cases fr with
    | dir dp dd => simp at hw
    | file pp parent f =>
      obtain ⟨ht, hppd, hwalk, hdl, hlf⟩ := findEntryUnsafe_file_inv s p pp parent f hfind
      dsimp only at hw
      have hparf : findEntryUnsafe s (joinSlash (splitOnSlash (trimSlashes p)).dropLast)
          = .ok (.dir (splitOnSlash (trimSlashes p)).dropLast parent) := by
        apply findEntryUnsafe_dir_join s _ parent
        · intro x hx
          exact hcomp x ((List.dropLast_sublist _).subset hx)
        · intro x hx ch hch
          exact splitOnSlash_no_slash _ x ((List.dropLast_sublist _).subset hx) ch hch
        · rw [← hppd]
          exact hwalk
      rw [hparf] at hw
      dsimp only [FindR.loc] at hw
      split at hw
      · simp at hw
      next head s₂ hwfb =>
        unfold writeFileUpdate at hw
        dsimp only at hw
        rw [hppd] at hwalk
        obtain ⟨hok0, hr2, hb2, hbs2, hce2, hst2⟩ := writeFileToBlocks_nil s f.firstIndexBlockId
        rw [hwfb] at hok0 hr2 hb2 hbs2 hce2 hst2
        have hhead : head = 0 := by
          have : (Except.ok head : Except Err Nat) = .ok 0 := hok0
          simpa using this
        subst hhead
        have hr2' : s₂.root = s.root := hr2
        have hst2' : s₂ = if f.firstIndexBlockId ≠ 0 then
            (freeFileBlocks s f.firstIndexBlockId).2 else s := hst2
        have hs' : s' = persistRootInsert s₂ (splitOnSlash (trimSlashes p)).dropLast
            ((splitOnSlash (trimSlashes p)).getLastD "")
            { f with firstIndexBlockId := 0
                     size := ((([] : List Nat).length : Nat) : Int)
                     metadata := updateMetadataChecksum s₂.checksumEnabled
                       { f.metadata with modTime := now } } := by
          have h2 := congrArg Prod.snd hw
          rw [hppd] at h2
          exact h2.symm
        have hwalk2 : walkDirs s₂.root (splitOnSlash (trimSlashes p)).dropLast
            = some parent := by rw [hr2']; exact hwalk
        obtain ⟨parent2, hfind2, _, _, _⟩ := find_after_update s₂ p parent
          { f with firstIndexBlockId := 0, size := ((([] : List Nat).length : Nat) : Int), metadata := updateMetadataChecksum s₂.checksumEnabled { f.metadata with modTime := now } } ht hwalk2 hdl
        rw [← hs'] at hfind2
        constructor
        · refine ⟨{ f with firstIndexBlockId := 0, size := ((([] : List Nat).length : Nat) : Int), metadata := updateMetadataChecksum s₂.checksumEnabled { f.metadata with modTime := now } }, ?_, rfl⟩
          unfold fileAt
          rw [hfind2]
        · intro f0 hf0 hchain id hmm hid0 hrange
          unfold fileAt at hf0
          rw [hfind] at hf0
          have hf0' : f = f0 := by
            have : (some f : Option FileEntry) = some f0 := hf0
            simpa using this
          subst hf0'
          by_cases hz : f.firstIndexBlockId = 0
          · rw [hz, chainAllBlocks_zero] at hchain
            have : ([] : List Nat) = ids := by simpa using hchain
            rw [← this] at hmm
            simp at hmm
          · have hz' : f.firstIndexBlockId ≠ 0 := hz
            have hs2 : s₂ = (freeFileBlocks s f.firstIndexBlockId).2 := by
              rw [hst2', if_pos hz']
            have hfree := freeFileBlocks_frees s f.firstIndexBlockId ids hchain
              id hmm hid0 hrange
            have hdata : s'.bitmap.data = (freeFileBlocks s f.firstIndexBlockId).2.bitmap.data := by
              rw [hs']
              have := (persistRootInsert_frame s₂ (splitOnSlash (trimSlashes p)).dropLast
                ((splitOnSlash (trimSlashes p)).getLastD "")
                { f with firstIndexBlockId := 0, size := ((([] : List Nat).length : Nat) : Int), metadata := updateMetadataChecksum s₂.checksumEnabled { f.metadata with modTime := now } }).2.2.2.1
              rw [this, hs2]
            rw [isBlockFree_congr s'.bitmap (freeFileBlocks s f.firstIndexBlockId).2.bitmap
              hdata (id - 1)]
            exact hfree
    | missing pp parent =>
      obtain ⟨ht, hppd, hwalk, hdl, hlf⟩ := findEntryUnsafe_missing_inv s p pp parent hfind
      dsimp only at hw
      have hparf : findEntryUnsafe s (joinSlash (splitOnSlash (trimSlashes p)).dropLast)
          = .ok (.dir (splitOnSlash (trimSlashes p)).dropLast parent) := by
        apply findEntryUnsafe_dir_join s _ parent
        · intro x hx
          exact hcomp x ((List.dropLast_sublist _).subset hx)
        · intro x hx ch hch
          exact splitOnSlash_no_slash _ x ((List.dropLast_sublist _).subset hx) ch hch
        · rw [← hppd]
          exact hwalk
      rw [hparf] at hw
      dsimp only [FindR.loc] at hw
      split at hw
      · simp at hw
      next head s₂ hwfb =>
        unfold writeFileUpdate at hw
        dsimp only at hw
        rw [hppd] at hwalk
        obtain ⟨hok0, hr2, hb2, hbs2, hce2, hst2⟩ := writeFileToBlocks_nil s 0
        rw [hwfb] at hok0 hr2 hb2 hbs2 hce2 hst2
        have hhead : head = 0 := by
          have : (Except.ok head : Except Err Nat) = .ok 0 := hok0
          simpa using this
        subst hhead
        have hr2' : s₂.root = s.root := hr2
        have hs' : s' = persistRootInsert s₂ (splitOnSlash (trimSlashes p)).dropLast
            ((splitOnSlash (trimSlashes p)).getLastD "")
            { metadata := updateMetadataChecksum s₂.checksumEnabled
                { name := (splitOnSlash (trimSlashes p)).getLastD ""
                  modTime := now
                  createTime := now
                  permissions := 0
                  crc32 := 0 }
              firstIndexBlockId := 0
              size := ((([] : List Nat).length : Nat) : Int)
              indexBlockCount := 0
              dataBlockCount := 0 } := by
          have h2 := congrArg Prod.snd hw
          exact h2.symm
        have hwalk2 : walkDirs s₂.root (splitOnSlash (trimSlashes p)).dropLast
            = some parent := by rw [hr2']; exact hwalk
        obtain ⟨parent2, hfind2, _, _, _⟩ := find_after_update s₂ p parent
          { metadata := updateMetadataChecksum s₂.checksumEnabled { name := (splitOnSlash (trimSlashes p)).getLastD "", modTime := now, createTime := now, permissions := 0, crc32 := 0 }, firstIndexBlockId := 0, size := ((([] : List Nat).length : Nat) : Int), indexBlockCount := 0, dataBlockCount := 0 } ht hwalk2 hdl
        rw [← hs'] at hfind2
        constructor
        · refine ⟨{ metadata := updateMetadataChecksum s₂.checksumEnabled { name := (splitOnSlash (trimSlashes p)).getLastD "", modTime := now, createTime := now, permissions := 0, crc32 := 0 }, firstIndexBlockId := 0, size := ((([] : List Nat).length : Nat) : Int), indexBlockCount := 0, dataBlockCount := 0 }, ?_, rfl⟩
          unfold fileAt
          rw [hfind2]
        · intro f0 hf0 hchain id hmm hid0 hrange
          unfold fileAt at hf0
          rw [hfind] at hf0
          exact absurd hf0 (by simp)

/-- The concrete state the C5 witness frees: `tinyState` after writing
one byte to `/a` (data block 1, index block 2). -/
def c5base : YFSState := (WriteFile tinyState "/a" [65] 0).2

/-- The file entry stored at `/a` in `c5base`. -/
def c5entry : FileEntry :=
  { metadata := { name := "a", modTime := 0, createTime := 0, permissions := 0, crc32 := 0 },
    firstIndexBlockId := 2, size := 1, indexBlockCount := 0, dataBlockCount := 0 }

theorem c5_witness :
    (∃ f', fileAt (WriteFile c5base "/a" [] 1).2 "/a" = some f' ∧
      f'.firstIndexBlockId = 0) ∧
    isBlockFree (WriteFile c5base "/a" [] 1).2.bitmap 0 = true ∧
    isBlockFree (WriteFile c5base "/a" [] 1).2.bitmap 1 = true := by
  have h := c5_empty_write_frees c5base "/a" 1 (WriteFile c5base "/a" [] 1).2 [1, 2]
    (by decide) rfl
  refine ⟨h.1, ?_, ?_⟩
  · exact h.2 c5entry rfl rfl 1 (by decide) (by decide) (by decide)
  · exact h.2 c5entry rfl rfl 2 (by decide) (by decide) (by decide)

end YFS

namespace YFS

set_option maxRecDepth 40000

/-! ## Raw-versus-trimmed path splitting, and `createChain` -/

/-- Splitting at a leading slash closes the accumulated piece. -/
theorem splitSlashChars_slash (rest acc : List Char) :
    splitSlashChars ('/' :: rest) acc = String.mk acc.reverse :: splitSlashChars rest [] := by
  simp [splitSlashChars]

/-- Filtering drops a leading empty piece. -/
theorem filter_empty_str_cons (l : List String) :
    (("" :: l).filter (fun x => x ≠ "")) = l.filter (fun x => x ≠ "") := by
  simp

/-- Leading all-slash characters only contribute empty pieces. -/
theorem filter_split_lead :
    ∀ (t m : List Char), (∀ c ∈ t, c = '/') →
      (splitSlashChars (t ++ m) []).filter (fun x => x ≠ "")
        = (splitSlashChars m []).filter (fun x => x ≠ "") := by
  intro t
  induction t with
  | nil => intro m _; rfl
  | cons c t' ih =>
    intro m hall
    have hc : c = '/' := hall c (by simp)
    subst hc
    rw [List.cons_append, splitSlashChars_slash]
    rw [show String.mk (List.reverse ([] : List Char)) = "" from rfl]
    rw [filter_empty_str_cons]
    exact ih m (fun c hc => hall c (by simp [hc]))

/-- A trailing slash appends one empty piece. -/
theorem splitSlashChars_append_slash :
    ∀ (m acc : List Char), splitSlashChars (m ++ ['/']) acc
      = splitSlashChars m acc ++ [""] := by
  intro m
  induction m with
  | nil => intro acc; simp [splitSlashChars]
  | cons c m' ih =>
    intro acc
    by_cases hc : c = '/'
    · subst hc
      rw [List.cons_append, splitSlashChars_slash, splitSlashChars_slash, ih [],
        List.cons_append]
    · simp only [List.cons_append, splitSlashChars, if_neg hc]
      exact ih (c :: acc)

/-- Trailing all-slash characters only contribute empty pieces. -/
theorem filter_split_trail :
    ∀ (t m : List Char), (∀ c ∈ t, c = '/') →
      (splitSlashChars (m ++ t) []).filter (fun x => x ≠ "")
        = (splitSlashChars m []).filter (fun x => x ≠ "") := by
  intro t
  induction t with
  | nil => intro m _; rw [List.append_nil]
  | cons c t' ih =>
    intro m hall
    have hc : c = '/' := hall c (by simp)
    subst hc
    have hre : m ++ '/' :: t' = (m ++ ['/']) ++ t' := by simp
    rw [hre, ih (m ++ ['/']) (fun c hc => hall c (by simp [hc])),
      splitSlashChars_append_slash m [], List.filter_append]
    simp

/-- Splitting the raw path and splitting the trimmed path agree after
dropping empty pieces. -/
theorem filter_splitOnSlash_trim (p : String) :
    (splitOnSlash p).filter (fun x => x ≠ "")
      = (splitOnSlash (trimSlashes p)).filter (fun x => x ≠ "") := by
  show (splitSlashChars p.data []).filter (fun x => x ≠ "")
    = (splitSlashChars (((p.data.dropWhile (fun c => c = '/')).reverse.dropWhile
        (fun c => c = '/')).reverse) []).filter (fun x => x ≠ "")
  have e1 : (splitSlashChars p.data []).filter (fun x => x ≠ "")
      = (splitSlashChars (p.data.dropWhile (fun c => c = '/')) []).filter
          (fun x => x ≠ "") := by
    conv_lhs => rw [← List.takeWhile_append_dropWhile
      (fun c => decide (c = '/')) p.data]
    apply filter_split_lead
    intro c hc
    have := List.mem_takeWhile_imp hc
    simpa using this
  rw [e1]
  set m1 := p.data.dropWhile (fun c => c = '/') with hm1
  have h2 := List.takeWhile_append_dropWhile (fun c => decide (c = '/')) m1.reverse
  have h3 : m1 = (m1.reverse.dropWhile (fun c => decide (c = '/'))).reverse
      ++ (m1.reverse.takeWhile (fun c => decide (c = '/'))).reverse := by
    conv_lhs => rw [← List.reverse_reverse m1, ← h2]
    rw [List.reverse_append]
  conv_lhs => rw [h3]
  apply filter_split_trail
  intro c hc
  rw [List.mem_reverse] at hc
  have := List.mem_takeWhile_imp hc
  simpa using this

/-- `createChain` ignores empty components. -/
theorem createChain_filter (ck : Bool) (now : Int) :
    ∀ (comps : List String) (d : DirectoryEntry),
      createChain ck now d comps
        = createChain ck now d (comps.filter (fun c => c ≠ "")) := by
  intro comps
  induction comps with
  | nil => intro d; rfl
  | cons c rest ih =>
    intro d
    by_cases hc : c = ""
    · subst hc
      rw [show createChain ck now d ("" :: rest) = createChain ck now d rest
        from by simp [createChain]]
      rw [ih d, filter_empty_str_cons]
    · have hfc : (c :: rest).filter (fun x => x ≠ "")
          = c :: rest.filter (fun x => x ≠ "") := by
        simp [List.filter_cons, hc]
      rw [hfc]
      simp only [createChain, if_neg hc]
      simp only [ih]

/-- `createChain` on a path whose parent walk resolves and whose final
component is not yet a directory: the parent gets exactly one new
subdirectory under the final name. -/
theorem createChain_at_last (ck : Bool) (now : Int) :
    ∀ (cs : List String) (d q : DirectoryEntry), cs ≠ [] → (∀ x ∈ cs, x ≠ "") →
      walkDirs d cs.dropLast = some q →
      dirLookup q.directories (cs.getLastD "") = none →
      walkDirs (createChain ck now d cs) cs.dropLast
        = some (q.withDirs (dirInsert q.directories (cs.getLastD "")
            (DirectoryEntry.mk (updateMetadataChecksum ck
              { name := cs.getLastD "", modTime := now, createTime := now,
                permissions := 0, crc32 := 0 }) [] .nil))) := by
  intro cs
  induction cs with
  | nil => intro d q h; exact absurd rfl h
  | cons c rest ih =>
    intro d q _ hne hwalk hdl
    cases rest with
    | nil =>
      simp only [walkDirs, Option.some.injEq] at hwalk
      subst hwalk
      have hc : c ≠ "" := hne c (by simp)
      have hdl' : dirLookup d.directories c = none := hdl
      simp only [createChain, if_neg hc, hdl']
      rfl
    | cons c2 r2 =>
      have hc : c ≠ "" := hne c (by simp)
      simp only [walkDirs] at hwalk
      cases hlk : dirLookup d.directories c with
      | none => rw [hlk] at hwalk; simp at hwalk
      | some sub =>
        rw [hlk] at hwalk
        have hwalk' : walkDirs sub (c2 :: r2).dropLast = some q := hwalk
        simp only [createChain, if_neg hc, hlk]
        show walkDirs (d.withDirs (dirInsert d.directories c
            (createChain ck now sub (c2 :: r2)))) (c :: (c2 :: r2).dropLast)
          = some (q.withDirs (dirInsert q.directories ((c2 :: r2).getLastD c)
            (DirectoryEntry.mk (updateMetadataChecksum ck
              { name := (c2 :: r2).getLastD c, modTime := now, createTime := now,
                permissions := 0, crc32 := 0 }) [] .nil)))
        simp only [walkDirs, directories_withDirs, dirLookup_insert_self]
        exact ih sub q (by simp) (fun x hx => hne x (by simp [hx])) hwalk' hdl

end YFS

namespace YFS

set_option maxRecDepth 100000

/-! ## Self-move (C9) and create-directory-over-file (C10) -/

/-- The entry-removal/persist tail of `DeleteFile`. -/
def persistRootErase (s₂ : YFSState) (pp : List String) (nm : String) : YFSState :=
  saveBitmap (saveRoot
    { s₂ with root :=
        updateDirAt s₂.root pp (fun dd => dd.withFiles (eraseF dd.files nm)) })

/-- After erasing the final-component entry at the parent and persisting,
the path resolves to missing. -/
theorem find_after_erase (s₂ : YFSState) (p : String) (parent : DirectoryEntry)
    (ht : trimSlashes p ≠ "")
    (hwalk : walkDirs s₂.root (splitOnSlash (trimSlashes p)).dropLast = some parent)
    (hdl : dirLookup parent.directories
      ((splitOnSlash (trimSlashes p)).getLastD "") = none) :
    ∃ parent3,
      findEntryUnsafe (persistRootErase s₂ (splitOnSlash (trimSlashes p)).dropLast
          ((splitOnSlash (trimSlashes p)).getLastD "")) p
        = .ok (.missing (splitOnSlash (trimSlashes p)).dropLast parent3) := by
  set parts := splitOnSlash (trimSlashes p) with hparts
  set lastc := parts.getLastD "" with hlast
  set g : DirectoryEntry → DirectoryEntry :=
    fun dd => dd.withFiles (eraseF dd.files lastc) with hg
  set S : YFSState := { s₂ with root := updateDirAt s₂.root parts.dropLast g } with hS
  have hwx : walkDirs S.root parts.dropLast = some (g parent) := by
    show walkDirs (updateDirAt s₂.root parts.dropLast g) parts.dropLast = some (g parent)
    exact walkDirs_updateDirAt parts.dropLast s₂.root parent g hwalk
  obtain ⟨sb1, _, _, _, _, _⟩ := saveBitmap_frame (saveRoot S)
  have hsr := saveRoot_root S
  obtain ⟨q2, hw2, hqf, hqd⟩ :
      ∃ q2, walkDirs (saveBitmap (saveRoot S)).root parts.dropLast = some q2 ∧
        q2.files = (g parent).files ∧ q2.directories = (g parent).directories := by
    rw [sb1, hsr]
    by_cases hck : S.checksumEnabled = true
    · rw [if_pos hck]
      exact walkDirs_withMetadata S.root _ parts.dropLast (g parent) hwx
    · rw [if_neg hck]
      exact ⟨g parent, hwx, rfl, rfl⟩
  refine ⟨q2, ?_⟩
  apply findEntryUnsafe_missing_of _ p q2 ht
  · exact hw2
  · rw [hqd]
    show dirLookup (parent.withFiles (eraseF parent.files lastc)).directories lastc = none
    rw [directories_withFiles]
    exact hdl
  · rw [hqf]
    show lookupF (parent.withFiles (eraseF parent.files lastc)).files lastc = none
    rw [files_withFiles]
    exact lookupF_erase_self parent.files lastc

/-- A successful `WriteFile` leaves the path resolving to a file whose
parent walk is reproducible and whose final component is not a
directory. -/
theorem WriteFile_ok_find (s : YFSState) (p : String) (data : List Nat) (now : Int)
    (s' : YFSState)
    (hcomp : ∀ c ∈ splitOnSlash (trimSlashes p), c ≠ "")
    (hw : WriteFile s p data now = (.ok (), s')) :
    trimSlashes p ≠ "" ∧
    ∃ parent2 f2,
      findEntryUnsafe s' p
        = .ok (.file (splitOnSlash (trimSlashes p)).dropLast parent2 f2) ∧
      walkDirs s'.root (splitOnSlash (trimSlashes p)).dropLast = some parent2 ∧
      dirLookup parent2.directories ((splitOnSlash (trimSlashes p)).getLastD "") = none := by
  unfold WriteFile at hw
  rcases hfind : findEntryUnsafe s p with e | fr
  · rw [hfind] at hw
    simp at hw
  · rw [hfind] at hw
    cases fr with
    | dir dp dd => simp at hw
    | file pp parent f =>
      obtain ⟨ht, hppd, hwalk, hdl, hlf⟩ := findEntryUnsafe_file_inv s p pp parent f hfind
      dsimp only at hw
      have hparf : findEntryUnsafe s (joinSlash (splitOnSlash (trimSlashes p)).dropLast)
          = .ok (.dir (splitOnSlash (trimSlashes p)).dropLast parent) := by
        apply findEntryUnsafe_dir_join s _ parent
        · intro x hx
          exact hcomp x ((List.dropLast_sublist _).subset hx)
        · intro x hx ch hch
          exact splitOnSlash_no_slash _ x ((List.dropLast_sublist _).subset hx) ch hch
        · rw [← hppd]
          exact hwalk
      rw [hparf] at hw
      dsimp only [FindR.loc] at hw
      split at hw
      · simp at hw
      next head s₂ hwfb =>
        unfold writeFileUpdate at hw
        dsimp only at hw
        rw [hppd] at hwalk
        have hs' : s' = persistRootInsert s₂ (splitOnSlash (trimSlashes p)).dropLast
            ((splitOnSlash (trimSlashes p)).getLastD "")
            { f with firstIndexBlockId := head, size := (data.length : Int), metadata := updateMetadataChecksum s₂.checksumEnabled { f.metadata with modTime := now } } := by
          have h2 := congrArg Prod.snd hw
          rw [hppd] at h2
          exact h2.symm
        have hroot2 : s₂.root = s.root := by
          by_cases hdn : data.length = 0
          · have hdata : data = [] := List.length_eq_zero.mp hdn
            subst hdata
            obtain ⟨_, hr2, _, _, _, _⟩ := writeFileToBlocks_nil s f.firstIndexBlockId
            rw [hwfb] at hr2
            exact hr2
          · obtain ⟨_, _, _, _, _, _, _, _, _, _, _, hr2, _, _, _⟩ :=
              writeFileToBlocks_ok_nonempty s data f.firstIndexBlockId head s₂ hdn hwfb
            exact hr2
        have hwalk2 : walkDirs s₂.root (splitOnSlash (trimSlashes p)).dropLast
            = some parent := by rw [hroot2]; exact hwalk
        obtain ⟨parent2, hfind2, hwalk3, _, hpd⟩ := find_after_update s₂ p parent
          { f with firstIndexBlockId := head, size := (data.length : Int), metadata := updateMetadataChecksum s₂.checksumEnabled { f.metadata with modTime := now } } ht hwalk2 hdl
        rw [← hs'] at hfind2 hwalk3
        refine ⟨ht, parent2, _, hfind2, hwalk3, ?_⟩
        rw [hpd]
        exact hdl
    | missing pp parent =>
      obtain ⟨ht, hppd, hwalk, hdl, hlf⟩ := findEntryUnsafe_missing_inv s p pp parent hfind
      dsimp only at hw
      have hparf : findEntryUnsafe s (joinSlash (splitOnSlash (trimSlashes p)).dropLast)
          = .ok (.dir (splitOnSlash (trimSlashes p)).dropLast parent) := by
        apply findEntryUnsafe_dir_join s _ parent
        · intro x hx
          exact hcomp x ((List.dropLast_sublist _).subset hx)
        · intro x hx ch hch
          exact splitOnSlash_no_slash _ x ((List.dropLast_sublist _).subset hx) ch hch
        · rw [← hppd]
          exact hwalk
      rw [hparf] at hw
      dsimp only [FindR.loc] at hw
      split at hw
      · simp at hw
      next head s₂ hwfb =>
        unfold writeFileUpdate at hw
        dsimp only at hw
        rw [hppd] at hwalk
        have hs' : s' = persistRootInsert s₂ (splitOnSlash (trimSlashes p)).dropLast
            ((splitOnSlash (trimSlashes p)).getLastD "")
            { metadata := updateMetadataChecksum s₂.checksumEnabled { name := (splitOnSlash (trimSlashes p)).getLastD "", modTime := now, createTime := now, permissions := 0, crc32 := 0 }, firstIndexBlockId := head, size := (data.length : Int), indexBlockCount := 0, dataBlockCount := 0 } := by
          have h2 := congrArg Prod.snd hw
          exact h2.symm
        have hroot2 : s₂.root = s.root := by
          by_cases hdn : data.length = 0
          · have hdata : data = [] := List.length_eq_zero.mp hdn
            subst hdata
            obtain ⟨_, hr2, _, _, _, _⟩ := writeFileToBlocks_nil s 0
            rw [hwfb] at hr2
            exact hr2
          · obtain ⟨_, _, _, _, _, _, _, _, _, _, _, hr2, _, _, _⟩ :=
              writeFileToBlocks_ok_nonempty s data 0 head s₂ hdn hwfb
            exact hr2
        have hwalk2 : walkDirs s₂.root (splitOnSlash (trimSlashes p)).dropLast
            = some parent := by rw [hroot2]; exact hwalk
        obtain ⟨parent2, hfind2, hwalk3, _, hpd⟩ := find_after_update s₂ p parent
          { metadata := updateMetadataChecksum s₂.checksumEnabled { name := (splitOnSlash (trimSlashes p)).getLastD "", modTime := now, createTime := now, permissions := 0, crc32 := 0 }, firstIndexBlockId := head, size := (data.length : Int), indexBlockCount := 0, dataBlockCount := 0 } ht hwalk2 hdl
        rw [← hs'] at hfind2 hwalk3
        refine ⟨ht, parent2, _, hfind2, hwalk3, ?_⟩
        rw [hpd]
        exact hdl

/-- C9: a successful self-move (`MoveFile p p`) removes the file: the
copy re-writes the entry in place, and the delete then removes that
single entry, so the data is lost. -/
theorem c9_self_move_removes_file (s : YFSState) (p : String) (now : Int)
    (s₁ : YFSState)
    (hcomp : ∀ c ∈ splitOnSlash (trimSlashes p), c ≠ "")
    (hmv : MoveFile s p p now = (.ok (), s₁)) :
    ReadFile s₁ p = .error (.fileNotFound p) ∧ fileAt s₁ p = none := by
  unfold MoveFile at hmv
  split at hmv
  · simp at hmv
  next sW hcp =>
    unfold CopyFile at hcp
    split at hcp
    · simp at hcp
    next data hrd =>
      obtain ⟨ht, parent2, f2, hfind2, hwalk2, hdl2⟩ :=
        WriteFile_ok_find s p data now sW hcomp hcp
      unfold DeleteFile at hmv
      rw [hfind2] at hmv
      dsimp only at hmv
      split at hmv
      · simp at hmv
      next sF hfree =>
        have hfr : sF.root = sW.root := by
          have h := (freeFileLoop_frame chainFuel sW f2.firstIndexBlockId).2.1
          have he : freeFileLoop chainFuel sW f2.firstIndexBlockId
              = (Except.ok PUnit.unit, sF) := hfree
          rw [he] at h
          exact h
        have hwalkF : walkDirs sF.root (splitOnSlash (trimSlashes p)).dropLast
            = some parent2 := by rw [hfr]; exact hwalk2
        have hs₁ : s₁ = persistRootErase sF (splitOnSlash (trimSlashes p)).dropLast
            ((splitOnSlash (trimSlashes p)).getLastD "") := (congrArg Prod.snd hmv).symm
        obtain ⟨parent3, hfind3⟩ := find_after_erase sF p parent2 ht hwalkF hdl2
        rw [← hs₁] at hfind3
        constructor
        · unfold ReadFile
          rw [hfind3]
        · unfold fileAt
          rw [hfind3]

theorem c9_witness :
    ReadFile (MoveFile c5base "/a" "/a" 7).2 "/a" = .error (.fileNotFound "/a") ∧
    fileAt (MoveFile c5base "/a" "/a" 7).2 "/a" = none :=
  c9_self_move_removes_file c5base "/a" 7 _ (by decide) rfl

/-- C10: `CreateDirectory` over a path whose final component names an
existing file succeeds and creates a same-named directory next to the
file: afterwards the parent holds both, and resolution prefers the
directory. -/
theorem c10_create_dir_over_file (s : YFSState) (p : String) (now : Int)
    (pp : List String) (parent : DirectoryEntry) (f : FileEntry)
    (hcomp : ∀ c ∈ splitOnSlash (trimSlashes p), c ≠ "")
    (hfind : findEntryUnsafe s p = .ok (.file pp parent f)) :
    (CreateDirectory s p now).1 = .ok () ∧
    ∃ pd nd, walkDirs (CreateDirectory s p now).2.root
        (splitOnSlash (trimSlashes p)).dropLast = some pd ∧
      lookupF pd.files ((splitOnSlash (trimSlashes p)).getLastD "") = some f ∧
      dirLookup pd.directories ((splitOnSlash (trimSlashes p)).getLastD "") = some nd := by
  obtain ⟨ht, hppd, hwalk, hdl, hlf⟩ := findEntryUnsafe_file_inv s p pp parent f hfind
  unfold CreateDirectory
  rw [hfind]
  dsimp only
  constructor
  · rfl
  · have hpne : p ≠ "" := by
      intro he
      subst he
      exact ht rfl
    show ∃ pd nd, walkDirs (saveRoot (createDirectoryChain s p now)).root
        (splitOnSlash (trimSlashes p)).dropLast = some pd ∧
      lookupF pd.files ((splitOnSlash (trimSlashes p)).getLastD "") = some f ∧
      dirLookup pd.directories ((splitOnSlash (trimSlashes p)).getLastD "") = some nd
    unfold createDirectoryChain
    rw [if_neg hpne]
    have hfilters : (splitOnSlash p).filter (fun x => x ≠ "")
        = splitOnSlash (trimSlashes p) := by
      rw [filter_splitOnSlash_trim p]
      apply List.filter_eq_self.mpr
      intro a ha
      simpa using hcomp a ha
    rw [createChain_filter s.checksumEnabled now (splitOnSlash p) s.root, hfilters]
    have hcc := createChain_at_last s.checksumEnabled now (splitOnSlash (trimSlashes p))
      s.root parent (splitOnSlash_ne_nil _) hcomp (by rw [← hppd]; exact hwalk) hdl
    set R := createChain s.checksumEnabled now s.root (splitOnSlash (trimSlashes p))
      with hR
    set tgt := parent.withDirs (dirInsert parent.directories
      ((splitOnSlash (trimSlashes p)).getLastD "")
      (DirectoryEntry.mk (updateMetadataChecksum s.checksumEnabled
        { name := (splitOnSlash (trimSlashes p)).getLastD "", modTime := now,
          createTime := now, permissions := 0, crc32 := 0 }) [] .nil)) with htgt
    obtain ⟨pd, hpdw, hpdf, hpdd⟩ :
        ∃ pd, walkDirs (saveRoot { s with root := R }).root
            (splitOnSlash (trimSlashes p)).dropLast = some pd ∧
          pd.files = tgt.files ∧ pd.directories = tgt.directories := by
      rw [saveRoot_root]
      by_cases hck : ({ s with root := R } : YFSState).checksumEnabled = true
      · rw [if_pos hck]
        exact walkDirs_withMetadata _ _ _ tgt hcc
      · rw [if_neg hck]
        exact ⟨tgt, hcc, rfl, rfl⟩
    refine ⟨pd, DirectoryEntry.mk (updateMetadataChecksum s.checksumEnabled
      { name := (splitOnSlash (trimSlashes p)).getLastD "", modTime := now,
        createTime := now, permissions := 0, crc32 := 0 }) [] .nil, hpdw, ?_, ?_⟩
    · rw [hpdf, htgt, files_withDirs]
      exact hlf
    · rw [hpdd, htgt, directories_withDirs]
      exact dirLookup_insert_self parent.directories _ _

theorem c10_witness :
    (CreateDirectory c5base "/a" 3).1 = .ok () ∧
    ∃ pd nd, walkDirs (CreateDirectory c5base "/a" 3).2.root
        (splitOnSlash (trimSlashes "/a")).dropLast = some pd ∧
      lookupF pd.files ((splitOnSlash (trimSlashes "/a")).getLastD "") = some c5entry ∧
      dirLookup pd.directories ((splitOnSlash (trimSlashes "/a")).getLastD "") = some nd :=
  c10_create_dir_over_file c5base "/a" 3 [] c5base.root c5entry (by decide) rfl

end YFS

namespace YFS

set_option maxRecDepth 100000

/-- A state whose root holds a directory `a` that itself holds a
subdirectory named by the empty string (expressible in the Go map, never
built by the engine itself). -/
def emptyNameState : YFSState :=
  { version := 2, blockSize := 16, checksumEnabled := false,
    root := .mk { name := "/", modTime := 0, createTime := 0, permissions := 0, crc32 := 0 }
      []
      (.cons "a"
        (.mk { name := "a", modTime := 0, createTime := 0, permissions := 0, crc32 := 0 }
          []
          (.cons ""
            (.mk { name := "", modTime := 0, createTime := 0, permissions := 0, crc32 := 0 }
              [] .nil)
            .nil))
        .nil),
    bitmap := { data := [0], totalBlocks := 8, searchPos := 0, dirty := false },
    blocks := [] }

/-- C1 counterexample: on a path with an empty component (`a//b`), the
write succeeds — the parent-path lookup collapses `a/` to `a` and stores
the entry under `a` — but the read resolves through the directory named
`""` and fails, so the unconditional round-trip claim is false. -/
theorem c1_counterexample :
    exceptOk (WriteFile emptyNameState "a//b" [65] 0).1 = true ∧
    ReadFile (WriteFile emptyNameState "a//b" [65] 0).2 "a//b"
      = .error (.fileNotFound "a//b") := ⟨rfl, rfl⟩

/-- A state holding a 13-byte file (over the 12-byte single-block payload
capacity at block size 16) spread over two data blocks: readable, but not
re-writable. -/
def overlongFileState : YFSState :=
  { version := 2, blockSize := 16, checksumEnabled := false,
    root := .mk { name := "/", modTime := 0, createTime := 0, permissions := 0, crc32 := 0 }
      [("a", { metadata := { name := "a", modTime := 0, createTime := 0, permissions := 0, crc32 := 0 }, firstIndexBlockId := 3, size := 13, indexBlockCount := 0, dataBlockCount := 0 })]
      .nil,
    bitmap := { data := [7], totalBlocks := 8, searchPos := 0, dirty := false },
    blocks := [(1, .data (List.replicate 12 65)), (2, .data [66]),
      (3, .index { blockIds := [1, 2], extents := [], nextIndexBlockId := 0, dataSize := 13, crc32 := 0 })] }

/-- C9 counterexample: `MoveFile p p` does not succeed for every existing
file — a readable 13-byte file cannot be re-written (its single chunk
exceeds `blockSize - 4`), so the copy inside the move fails. -/
theorem c9_counterexample :
    (fileAt overlongFileState "/a").isSome = true ∧
    exceptOk (ReadFile overlongFileState "/a") = true ∧
    exceptOk (MoveFile overlongFileState "/a" "/a" 0).1 = false := ⟨rfl, rfl, rfl⟩

end YFS
